import Mathlib

/-!
Shallow embedding of the single-instrument limit order book
(`src/order.py` and `src/orderbook.py`).

Modelling conventions:
* Python floats (quantities, prices, timestamps) are modelled as exact
  rationals (`ℚ`); the matching logic only uses comparison, `min`,
  addition and subtraction, which the rational model reflects exactly.
* The mutable `Order` objects that Python shares between the id index,
  the heap tuples and the price levels are modelled as an arena: an
  association list from order id to the order record.  Heaps and price
  levels store order ids (keys into the arena), so a mutation through
  one reference is visible through all of them, exactly as with the
  shared Python objects.
* `heapq` is used by the code only through `heappush`, `heappop` and
  peeking at `heap[0]`; those operations are exactly the operations of
  a min-priority queue on the pushed tuples `(price, timestamp, order)`
  (bids push `(-price, timestamp, order)`), so each heap is modelled by
  its canonical representation: a list kept sorted by the
  `(key, timestamp)` pair, where `heappush` is ordered insertion and
  `heappop` removes the head.
* The `while` loops of the matching engine are modelled by fuel-bounded
  recursion; the fuel (heap length plus two) dominates the number of
  iterations the Python loops can perform, and lemmas below show the
  loop guard is false at the returned state, i.e. the fuel never cuts a
  run short.
* `Trade.timestamp` (wall-clock `time.time()`) is omitted: no claim and
  no piece of engine logic reads it.
-/

inductive Side
  | buy
  | sell
deriving DecidableEq

inductive OrderType
  | limit
  | market
deriving DecidableEq

/-- The four order statuses; Python represents them as the strings
`"open"`, `"partial"`, `"filled"`, `"cancelled"`. -/
inductive OStatus
  | opened
  | partFilled
  | filled
  | cancelled
deriving DecidableEq

/-- `Order.__init__` state (src/order.py).  The process-wide id counter and
the wall clock are modelled by taking `id` and `timestamp` as parameters of
the constructor. -/
structure Order where
  id : Nat
  side : Side
  order_type : OrderType
  quantity : ℚ
  price : Option ℚ
  timestamp : ℚ
  remaining : ℚ
  filled : ℚ
  status : OStatus
  trader_id : String
deriving DecidableEq

/-- `Order(side, order_type, quantity, price, trader_id)`: remaining starts
at the full quantity, nothing filled, status `"open"`. -/
def mkOrder (side : Side) (order_type : OrderType) (quantity : ℚ)
    (price : Option ℚ) (trader_id : String) (id : Nat) (timestamp : ℚ) : Order :=
  { id := id, side := side, order_type := order_type, quantity := quantity,
    price := price, timestamp := timestamp, remaining := quantity,
    filled := 0, status := OStatus.opened, trader_id := trader_id }

/-- `Order.fill`: clamp the requested quantity to `remaining`, move it from
`remaining` to `filled`, recompute the status, return the applied quantity. -/
def Order.fill (o : Order) (quantity : ℚ) : Order × ℚ :=
  let q := min quantity o.remaining
  let r := o.remaining - q
  ({ o with filled := o.filled + q, remaining := r,
            status := if r = 0 then OStatus.filled else OStatus.partFilled }, q)

/-- `Order.cancel`: set the status to cancelled, unconditionally. -/
def Order.cancel (o : Order) : Order :=
  { o with status := OStatus.cancelled }

/-- `Order.fill_pct`. -/
def Order.fill_pct (o : Order) : ℚ :=
  if 0 < o.quantity then o.filled / o.quantity * 100 else 0

/-- A direct call on an order object: `fill(q)` or `cancel()`. -/
inductive OrderOp
  | fillOp (q : ℚ)
  | cancelOp

def applyOp (o : Order) : OrderOp → Order
  | OrderOp.fillOp q => (o.fill q).1
  | OrderOp.cancelOp => o.cancel

def applyOps (o : Order) (ops : List OrderOp) : Order :=
  ops.foldl applyOp o

/-- `Trade` (src/orderbook.py); the wall-clock timestamp field is omitted
(nothing reads it). -/
structure Trade where
  buy_order_id : Nat
  sell_order_id : Nat
  price : ℚ
  quantity : ℚ
deriving DecidableEq

/-- One entry of a priority heap: the pushed tuple minus the shared order
object, which is referenced by id.  For asks `key` is the price, for bids
`key` is the negated price (exactly what the code pushes). -/
structure HEntry where
  key : ℚ
  ts : ℚ
  oid : Nat
deriving DecidableEq

/-- `PriceLevel`: FIFO queue of resting orders at one price (stored as
arena keys) plus the aggregate quantity field maintained by the code. -/
structure PriceLevel where
  price : ℚ
  orders : List Nat
  total_quantity : ℚ
deriving DecidableEq

abbrev Arena := List (Nat × Order)

/-- Dictionary lookup `self._orders[oid]` (first binding wins). -/
def olookup : Arena → Nat → Option Order
  | [], _ => none
  | (k, v) :: rest, k2 => if k = k2 then some v else olookup rest k2

/-- Dictionary update `self._orders[oid] = o` (replace, or append if new). -/
def oset : Arena → Nat → Order → Arena
  | [], k, v => [(k, v)]
  | (k2, v2) :: rest, k, v =>
      if k2 = k then (k, v) :: rest else (k2, v2) :: oset rest k v

abbrev Levels := List (ℚ × PriceLevel)

def llookup : Levels → ℚ → Option PriceLevel
  | [], _ => none
  | (k, v) :: rest, k2 => if k = k2 then some v else llookup rest k2

def lset : Levels → ℚ → PriceLevel → Levels
  | [], k, v => [(k, v)]
  | (k2, v2) :: rest, k, v =>
      if k2 = k then (k, v) :: rest else (k2, v2) :: lset rest k v

/-- The whole `OrderBook` state. -/
structure Book where
  bidHeap : List HEntry
  askHeap : List HEntry
  bidLevels : Levels
  askLevels : Levels
  orders : Arena
  trades : List Trade
  total_volume : ℚ
  total_trades : Nat
deriving DecidableEq

/-- `OrderBook.__init__`. -/
def emptyBook : Book :=
  { bidHeap := [], askHeap := [], bidLevels := [], askLevels := [],
    orders := [], trades := [], total_volume := 0, total_trades := 0 }

/-- Strict lexicographic order on `(key, timestamp)`: the order in which
`heapq` compares the pushed tuples. -/
def keyLt (e f : HEntry) : Prop :=
  e.key < f.key ∨ (e.key = f.key ∧ e.ts < f.ts)

/-- Reflexive lexicographic order on `(key, timestamp)`. -/
def keyLe (e f : HEntry) : Prop :=
  e.key < f.key ∨ (e.key = f.key ∧ e.ts ≤ f.ts)

instance (e f : HEntry) : Decidable (keyLt e f) := by
  unfold keyLt; infer_instance

instance (e f : HEntry) : Decidable (keyLe e f) := by
  unfold keyLe; infer_instance

/-- `heapq.heappush`: the abstract effect on the sorted-list representation
of the heap is ordered insertion by `(key, timestamp)`. -/
def insertEntry (e : HEntry) : List HEntry → List HEntry
  | [] => [e]
  | f :: rest => if keyLt e f then e :: f :: rest else f :: insertEntry e rest

/-- `o.status in ("filled", "cancelled")`: the staleness test used by the
matching loops and by cleanup. -/
def isTerminal (o : Order) : Bool :=
  decide (o.status = OStatus.filled) || decide (o.status = OStatus.cancelled)

/-- The liveness test of `best_bid`/`best_ask`/`get_depth`:
`status not in ("filled","cancelled") and remaining > 0`. -/
def isLiveBest (o : Order) : Bool :=
  !(isTerminal o) && decide (0 < o.remaining)

/-- The liveness test of `PriceLevel.remove_filled`:
`o.remaining > 0 and o.status not in ("cancelled", "filled")`, looked up
through the arena (a missing id cannot occur: every order a level refers
to was registered in the index by `add_order`). -/
def isLiveLevel (m : Arena) (oid : Nat) : Bool :=
  match olookup m oid with
  | some o => decide (0 < o.remaining) && !(isTerminal o)
  | none => false

def remOf (m : Arena) (oid : Nat) : ℚ :=
  match olookup m oid with
  | some o => o.remaining
  | none => 0

/-- `PriceLevel.remove_filled`: drop the dead orders, recompute the
aggregate quantity from the survivors. -/
def PriceLevel.remove_filled (lvl : PriceLevel) (m : Arena) : PriceLevel :=
  let keep := lvl.orders.filter (fun oid => isLiveLevel m oid)
  { lvl with orders := keep, total_quantity := (keep.map (remOf m)).sum }

/-- `PriceLevel.add_order`: append to the FIFO, add the order's remaining
quantity to the aggregate. -/
def PriceLevel.add_order (lvl : PriceLevel) (o : Order) : PriceLevel :=
  { lvl with orders := lvl.orders ++ [o.id],
             total_quantity := lvl.total_quantity + o.remaining }

/-- `PriceLevel.is_empty`. -/
def PriceLevel.is_empty (lvl : PriceLevel) : Bool :=
  decide (lvl.orders.length = 0) || decide (lvl.total_quantity = 0)

/-- `if best_price in self._ask_levels: self._ask_levels[best_price].remove_filled()`. -/
def purgeLevel (m : Arena) (ls : Levels) (p : ℚ) : Levels :=
  match llookup ls p with
  | some lvl => lset ls p (lvl.remove_filled m)
  | none => ls

/-- `best_price > aggressive_order.price` for a limit aggressor buying from
the asks.  A limit order always carries a price (`none` would make the
Python comparison raise; the engine never constructs that case). -/
def limGt (p : ℚ) : Option ℚ → Bool
  | some l => decide (l < p)
  | none => false

/-- `best_price < aggressive_order.price` for a limit aggressor selling to
the bids. -/
def limLt (p : ℚ) : Option ℚ → Bool
  | some l => decide (p < l)
  | none => false

/-- Apply `Order.fill` to the order stored under `oid` (the Python call
`o.fill(q)` on the shared object, seen through the arena). -/
def fillInArena (m : Arena) (oid : Nat) (q : ℚ) : Arena :=
  match olookup m oid with
  | some o => oset m oid (o.fill q).1
  | none => m

/-- The loop body of `OrderBook._fill_from_asks`, fuel-bounded.  Each
iteration re-reads the aggressor from the arena (Python reads the shared
object), peeks at the heap head, pops stale entries, stops on the limit
break, otherwise fills both orders (aggressor first, then passive, exactly
the Python statement order), emits the trade at the heap entry's price, and
pops plus purges the level when the passive order is exhausted. -/
def fillAsksGo : Nat → Book → Nat → Book × List Trade
  | 0, b, _ => (b, [])
  | fuel + 1, b, aggId =>
    match olookup b.orders aggId with
    | none => (b, [])
    | some agg =>
      if 0 < agg.remaining then
        match b.askHeap with
        | [] => (b, [])
        | e :: rest =>
          match olookup b.orders e.oid with
          | none => fillAsksGo fuel { b with askHeap := rest } aggId
          | some po =>
            if isTerminal po then
              fillAsksGo fuel { b with askHeap := rest } aggId
            else if agg.order_type = OrderType.limit ∧ limGt e.key agg.price then
              (b, [])
            else
              let fq := min agg.remaining po.remaining
              let m2 := fillInArena (fillInArena b.orders aggId fq) e.oid fq
              let tr : Trade :=
                { buy_order_id := agg.id, sell_order_id := po.id,
                  price := e.key, quantity := fq }
              if remOf m2 e.oid = 0 then
                let b2 : Book :=
                  { b with orders := m2, askHeap := rest,
                           askLevels := purgeLevel m2 b.askLevels e.key }
                let r := fillAsksGo fuel b2 aggId
                (r.1, tr :: r.2)
              else
                let r := fillAsksGo fuel { b with orders := m2 } aggId
                (r.1, tr :: r.2)
      else (b, [])

/-- `OrderBook._fill_from_asks`; the fuel bounds the iteration count of the
Python `while`, which pops the heap at every step it does not terminate on. -/
def fill_from_asks (b : Book) (aggId : Nat) : Book × List Trade :=
  fillAsksGo (b.askHeap.length + 2) b aggId

/-- The loop body of `OrderBook._fill_from_bids`; bid heap entries carry the
negated price, `best_price = -neg_price`, and the aggressor is the seller. -/
def fillBidsGo : Nat → Book → Nat → Book × List Trade
  | 0, b, _ => (b, [])
  | fuel + 1, b, aggId =>
    match olookup b.orders aggId with
    | none => (b, [])
    | some agg =>
      if 0 < agg.remaining then
        match b.bidHeap with
        | [] => (b, [])
        | e :: rest =>
          match olookup b.orders e.oid with
          | none => fillBidsGo fuel { b with bidHeap := rest } aggId
          | some po =>
            if isTerminal po then
              fillBidsGo fuel { b with bidHeap := rest } aggId
            else if agg.order_type = OrderType.limit ∧ limLt (-e.key) agg.price then
              (b, [])
            else
              let fq := min agg.remaining po.remaining
              let m2 := fillInArena (fillInArena b.orders aggId fq) e.oid fq
              let tr : Trade :=
                { buy_order_id := po.id, sell_order_id := agg.id,
                  price := -e.key, quantity := fq }
              if remOf m2 e.oid = 0 then
                let b2 : Book :=
                  { b with orders := m2, bidHeap := rest,
                           bidLevels := purgeLevel m2 b.bidLevels (-e.key) }
                let r := fillBidsGo fuel b2 aggId
                (r.1, tr :: r.2)
              else
                let r := fillBidsGo fuel { b with orders := m2 } aggId
                (r.1, tr :: r.2)
      else (b, [])

/-- `OrderBook._fill_from_bids`. -/
def fill_from_bids (b : Book) (aggId : Nat) : Book × List Trade :=
  fillBidsGo (b.bidHeap.length + 2) b aggId

/-- The market-buy loop of `_match_market_order`:
`while order.remaining > 0 and self._ask_heap: fill; if not self._ask_heap: break`. -/
def marketAsksGo : Nat → Book → Nat → Book × List Trade
  | 0, b, _ => (b, [])
  | fuel + 1, b, aggId =>
    match olookup b.orders aggId with
    | none => (b, [])
    | some agg =>
      if decide (0 < agg.remaining) && !b.askHeap.isEmpty then
        let r := fill_from_asks b aggId
        if r.1.askHeap.isEmpty then r
        else
          let s := marketAsksGo fuel r.1 aggId
          (s.1, r.2 ++ s.2)
      else (b, [])

/-- The market-sell loop of `_match_market_order`. -/
def marketBidsGo : Nat → Book → Nat → Book × List Trade
  | 0, b, _ => (b, [])
  | fuel + 1, b, aggId =>
    match olookup b.orders aggId with
    | none => (b, [])
    | some agg =>
      if decide (0 < agg.remaining) && !b.bidHeap.isEmpty then
        let r := fill_from_bids b aggId
        if r.1.bidHeap.isEmpty then r
        else
          let s := marketBidsGo fuel r.1 aggId
          (s.1, r.2 ++ s.2)
      else (b, [])

/-- `OrderBook._match_market_order`: run the side's loop, then
`if order.remaining > 0: order.status = "partial"` (a raw status write on
the shared object). -/
def match_market_order (b : Book) (aggId : Nat) : Book × List Trade :=
  match olookup b.orders aggId with
  | none => (b, [])
  | some agg0 =>
    let r :=
      if agg0.side = Side.buy then marketAsksGo (b.askHeap.length + 2) b aggId
      else marketBidsGo (b.bidHeap.length + 2) b aggId
    let b2 :=
      match olookup r.1.orders aggId with
      | some agg =>
        if 0 < agg.remaining then
          { r.1 with orders := oset r.1.orders aggId { agg with status := OStatus.partFilled } }
        else r.1
      | none => r.1
    (b2, r.2)

/-- `self._ask_heap and self._ask_heap[0][0] <= order.price` (a limit order
always carries a price; `none` would make the Python comparison raise). -/
def headLeLim (h : List HEntry) (lim : Option ℚ) : Bool :=
  match h, lim with
  | e :: _, some l => decide (e.key ≤ l)
  | _, _ => false

/-- `self._bid_heap and -self._bid_heap[0][0] >= order.price`. -/
def headGeLim (h : List HEntry) (lim : Option ℚ) : Bool :=
  match h, lim with
  | e :: _, some l => decide (l ≤ -e.key)
  | _, _ => false

/-- The marketable loop of `_match_limit_order` for a buy:
`while remaining > 0 and ask_heap and ask_heap[0][0] <= price: fill`. -/
def limitAsksGo : Nat → Book → Nat → Book × List Trade
  | 0, b, _ => (b, [])
  | fuel + 1, b, aggId =>
    match olookup b.orders aggId with
    | none => (b, [])
    | some agg =>
      if decide (0 < agg.remaining) && headLeLim b.askHeap agg.price then
        let r := fill_from_asks b aggId
        let s := limitAsksGo fuel r.1 aggId
        (s.1, r.2 ++ s.2)
      else (b, [])

/-- The marketable loop of `_match_limit_order` for a sell. -/
def limitBidsGo : Nat → Book → Nat → Book × List Trade
  | 0, b, _ => (b, [])
  | fuel + 1, b, aggId =>
    match olookup b.orders aggId with
    | none => (b, [])
    | some agg =>
      if decide (0 < agg.remaining) && headGeLim b.bidHeap agg.price then
        let r := fill_from_bids b aggId
        let s := limitBidsGo fuel r.1 aggId
        (s.1, r.2 ++ s.2)
      else (b, [])

/-- `OrderBook._add_to_bids`: create the price level if needed, append the
order to its FIFO, push `(-price, timestamp, order)` on the bid heap. -/
def add_to_bids (b : Book) (aggId : Nat) : Book :=
  match olookup b.orders aggId with
  | none => b
  | some o =>
    match o.price with
    | none => b
    | some p =>
      let lvl := (llookup b.bidLevels p).getD
        { price := p, orders := [], total_quantity := 0 }
      { b with bidLevels := lset b.bidLevels p (lvl.add_order o),
               bidHeap := insertEntry { key := -p, ts := o.timestamp, oid := o.id } b.bidHeap }

/-- `OrderBook._add_to_asks`: push `(price, timestamp, order)` on the ask heap. -/
def add_to_asks (b : Book) (aggId : Nat) : Book :=
  match olookup b.orders aggId with
  | none => b
  | some o =>
    match o.price with
    | none => b
    | some p =>
      let lvl := (llookup b.askLevels p).getD
        { price := p, orders := [], total_quantity := 0 }
      { b with askLevels := lset b.askLevels p (lvl.add_order o),
               askHeap := insertEntry { key := p, ts := o.timestamp, oid := o.id } b.askHeap }

/-- `OrderBook._match_limit_order`: consume the opposing side while
marketable, then rest the remainder
(`if order.remaining > 0 and order.status != "filled"`). -/
def match_limit_order (b : Book) (aggId : Nat) : Book × List Trade :=
  match olookup b.orders aggId with
  | none => (b, [])
  | some agg0 =>
    if agg0.side = Side.buy then
      let r := limitAsksGo (b.askHeap.length + 2) b aggId
      let b2 :=
        match olookup r.1.orders aggId with
        | some agg =>
          if 0 < agg.remaining ∧ agg.status ≠ OStatus.filled then add_to_bids r.1 aggId
          else r.1
        | none => r.1
      (b2, r.2)
    else
      let r := limitBidsGo (b.bidHeap.length + 2) b aggId
      let b2 :=
        match olookup r.1.orders aggId with
        | some agg =>
          if 0 < agg.remaining ∧ agg.status ≠ OStatus.filled then add_to_asks r.1 aggId
          else r.1
        | none => r.1
      (b2, r.2)

/-- `OrderBook.add_order`: register the order in the id index, dispatch by
type, then append the trades to the history and bump the counters. -/
def add_order (b : Book) (o : Order) : Book × List Trade :=
  let b0 := { b with orders := oset b.orders o.id o }
  let r :=
    if o.order_type = OrderType.market then match_market_order b0 o.id
    else match_limit_order b0 o.id
  ({ r.1 with trades := r.1.trades ++ r.2,
              total_trades := r.1.total_trades + r.2.length,
              total_volume := r.1.total_volume + (r.2.map Trade.quantity).sum }, r.2)

/-- `OrderBook.cancel_order`: mark cancelled if the id is known, purge the
order's own price level, report whether the id existed. -/
def cancel_order (b : Book) (oid : Nat) : Book × Bool :=
  match olookup b.orders oid with
  | none => (b, false)
  | some o =>
    let m := oset b.orders oid o.cancel
    let b1 := { b with orders := m }
    let b2 :=
      if o.side = Side.buy then
        match o.price with
        | some p =>
          match llookup b1.bidLevels p with
          | some lvl => { b1 with bidLevels := lset b1.bidLevels p (lvl.remove_filled m) }
          | none => b1
        | none => b1
      else
        match o.price with
        | some p =>
          match llookup b1.askLevels p with
          | some lvl => { b1 with askLevels := lset b1.askLevels p (lvl.remove_filled m) }
          | none => b1
        | none => b1
    (b2, true)

/-- The pop-while-stale loop shared by `best_bid`/`best_ask`: discard dead
heads, return the surviving head (heap left in place) or `none`. -/
def bestAux (m : Arena) : List HEntry → Option HEntry × List HEntry
  | [] => (none, [])
  | e :: rest =>
    match olookup m e.oid with
    | some o => if isLiveBest o then (some e, e :: rest) else bestAux m rest
    | none => bestAux m rest

/-- `OrderBook.best_bid`: the returned price is `-neg_price` of the
surviving head. -/
def best_bid (b : Book) : Option ℚ × Book :=
  let r := bestAux b.orders b.bidHeap
  (r.1.map (fun e => -e.key), { b with bidHeap := r.2 })

/-- `OrderBook.best_ask`. -/
def best_ask (b : Book) : Option ℚ × Book :=
  let r := bestAux b.orders b.askHeap
  (r.1.map (fun e => e.key), { b with askHeap := r.2 })

/-- Python's `round` rounds ties to the even neighbour. -/
def roundHalfEven (x : ℚ) : ℤ :=
  let f := ⌊x⌋
  let r := x - f
  if r < 1 / 2 then f
  else if 1 / 2 < r then f + 1
  else if f % 2 = 0 then f else f + 1

/-- `round(x, 2)`. -/
def round2 (x : ℚ) : ℚ :=
  (roundHalfEven (x * 100) : ℚ) / 100

/-- `OrderBook.spread`: `if bid and ask: return round(ask - bid, 2)`;
Python truthiness makes both `None` and a zero price falsy. -/
def spread (b : Book) : Option ℚ × Book :=
  let rb := best_bid b
  let ra := best_ask rb.2
  match rb.1, ra.1 with
  | some bv, some av =>
    if bv ≠ 0 ∧ av ≠ 0 then (some (round2 (av - bv)), ra.2) else (none, ra.2)
  | _, _ => (none, ra.2)

/-- `OrderBook.mid_price`: `if bid and ask: return (bid + ask) / 2`. -/
def mid_price (b : Book) : Option ℚ × Book :=
  let rb := best_bid b
  let ra := best_ask rb.2
  match rb.1, ra.1 with
  | some bv, some av =>
    if bv ≠ 0 ∧ av ≠ 0 then (some ((bv + av) / 2), ra.2) else (none, ra.2)
  | _, _ => (none, ra.2)

/-! ### Order-level lemmas -/

theorem Order.fill_conserve (o : Order) (q : ℚ) :
    (o.fill q).1.filled + (o.fill q).1.remaining = o.filled + o.remaining := by
  simp only [Order.fill]
  ring

@[simp] theorem Order.fill_quantity (o : Order) (q : ℚ) :
    (o.fill q).1.quantity = o.quantity := rfl

@[simp] theorem Order.fill_id (o : Order) (q : ℚ) : (o.fill q).1.id = o.id := rfl

@[simp] theorem Order.fill_price (o : Order) (q : ℚ) : (o.fill q).1.price = o.price := rfl

@[simp] theorem Order.fill_timestamp (o : Order) (q : ℚ) :
    (o.fill q).1.timestamp = o.timestamp := rfl

@[simp] theorem Order.fill_side (o : Order) (q : ℚ) : (o.fill q).1.side = o.side := rfl

@[simp] theorem Order.fill_order_type (o : Order) (q : ℚ) :
    (o.fill q).1.order_type = o.order_type := rfl

@[simp] theorem Order.fill_remaining (o : Order) (q : ℚ) :
    (o.fill q).1.remaining = o.remaining - min q o.remaining := rfl

@[simp] theorem Order.cancel_quantity (o : Order) : o.cancel.quantity = o.quantity := rfl

@[simp] theorem Order.cancel_remaining (o : Order) : o.cancel.remaining = o.remaining := rfl

@[simp] theorem Order.cancel_filled (o : Order) : o.cancel.filled = o.filled := rfl

theorem applyOps_quantity (ops : List OrderOp) (o : Order) :
    (applyOps o ops).quantity = o.quantity := by
  induction ops generalizing o with
  | nil => rfl
  | cons op rest ih =>
    cases op with
    | fillOp q => simpa [applyOps, applyOp] using ih ((o.fill q).1)
    | cancelOp => simpa [applyOps, applyOp] using ih o.cancel

theorem applyOps_conserve (ops : List OrderOp) (o : Order)
    (h : o.filled + o.remaining = o.quantity) :
    (applyOps o ops).filled + (applyOps o ops).remaining = (applyOps o ops).quantity := by
  induction ops generalizing o with
  | nil => simpa [applyOps] using h
  | cons op rest ih =>
    cases op with
    | fillOp q =>
      refine ih ((o.fill q).1) ?_
      rw [Order.fill_conserve, Order.fill_quantity]
      exact h
    | cancelOp =>
      refine ih o.cancel ?_
      simpa using h

/-- The state-machine invariant linking an order's status with its fill
state, maintained by `fill` calls of positive quantity and by `cancel`. -/
def StatusInv (o : Order) : Prop :=
  0 ≤ o.remaining ∧ o.remaining ≤ o.quantity ∧
  (o.status = OStatus.opened → o.remaining = o.quantity) ∧
  (o.status = OStatus.partFilled → 0 < o.remaining ∧ o.remaining < o.quantity) ∧
  (o.status = OStatus.filled → o.remaining = 0)

theorem Order.fill_status (o : Order) (q : ℚ) :
    (o.fill q).1.status =
      if o.remaining - min q o.remaining = 0 then OStatus.filled else OStatus.partFilled := rfl

theorem StatusInv.fill {o : Order} (h : StatusInv o) {q : ℚ} (hq : 0 < q) :
    StatusInv (o.fill q).1 := by
  obtain ⟨h0, h1, -, -, -⟩ := h
  have hminle : min q o.remaining ≤ o.remaining := min_le_right _ _
  have hmin0 : 0 ≤ min q o.remaining := le_min hq.le h0
  have hrem : (o.fill q).1.remaining = o.remaining - min q o.remaining := rfl
  have hqty : (o.fill q).1.quantity = o.quantity := rfl
  have hr0 : (0:ℚ) ≤ o.remaining - min q o.remaining := by linarith
  have hrle : o.remaining - min q o.remaining ≤ o.quantity := by linarith
  refine ⟨by rw [hrem]; exact hr0, by rw [hrem, hqty]; exact hrle, ?_, ?_, ?_⟩
  · intro hc
    rw [Order.fill_status] at hc
    rcases eq_or_ne (o.remaining - min q o.remaining) 0 with hz | hz
    · rw [if_pos hz] at hc; simp at hc
    · rw [if_neg hz] at hc; simp at hc
  · intro hc
    rw [Order.fill_status] at hc
    rcases eq_or_ne (o.remaining - min q o.remaining) 0 with hz | hz
    · rw [if_pos hz] at hc; simp at hc
    · rw [hrem, hqty]
      have hrpos : 0 < o.remaining - min q o.remaining := lt_of_le_of_ne hr0 (Ne.symm hz)
      have hrempos : 0 < o.remaining := by
        by_contra hnn
        push_neg at hnn
        exact hz (by rw [min_eq_right (by linarith : o.remaining ≤ q)]; ring)
      have hminpos : 0 < min q o.remaining := lt_min hq hrempos
      exact ⟨hrpos, by linarith⟩
  · intro hc
    rw [Order.fill_status] at hc
    rcases eq_or_ne (o.remaining - min q o.remaining) 0 with hz | hz
    · rw [hrem]; exact hz
    · rw [if_neg hz] at hc; simp at hc

theorem StatusInv.cancel {o : Order} (h : StatusInv o) : StatusInv o.cancel := by
  obtain ⟨h0, h1, _, _, _⟩ := h
  exact ⟨h0, h1, by simp [Order.cancel], by simp [Order.cancel], by simp [Order.cancel]⟩

theorem StatusInv.applyOps {o : Order} (h : StatusInv o) {ops : List OrderOp}
    (hops : ∀ op ∈ ops, ∀ x, op = OrderOp.fillOp x → 0 < x) :
    StatusInv (applyOps o ops) := by
  induction ops generalizing o with
  | nil => exact h
  | cons op rest ih =>
    cases op with
    | fillOp q =>
      have hq : 0 < q := hops _ (List.mem_cons_self _ _) q rfl
      exact ih (h.fill hq) (fun op hm x he => hops op (List.mem_cons_of_mem _ hm) x he)
    | cancelOp =>
      exact ih h.cancel (fun op hm x he => hops op (List.mem_cons_of_mem _ hm) x he)

theorem statusInv_mkOrder (side : Side) (otype : OrderType) (q : ℚ) (price : Option ℚ)
    (tid : String) (id : Nat) (ts : ℚ) (hq : 0 ≤ q) :
    StatusInv (mkOrder side otype q price tid id ts) := by
  refine ⟨hq, le_refl _, fun _ => rfl, ?_, ?_⟩ <;> intro hst <;> simp [mkOrder] at hst

/-! ### Claim C8 -/

unseal Rat.add Rat.sub Rat.mul Rat.inv in
/-- C8 as stated is false on the code. Three concrete violations:
`fill(0)` (a non-negative quantity) on a fresh order of quantity 1 leaves
`remaining == original` with no cancel, yet sets the status to `"partial"`,
not `"open"`; `fill(1)` followed by `cancel()` leaves `remaining == 0` with
status `"cancelled"`, not `"filled"` (cancel overwrites unconditionally);
and a fresh zero-quantity order has `remaining == 0` with status `"open"`,
not `"filled"`. -/
theorem order_status_claim_cex :
    ((applyOps (mkOrder Side.buy OrderType.limit 1 (some 100) "trader" 1 0)
        [OrderOp.fillOp 0]).remaining =
      (applyOps (mkOrder Side.buy OrderType.limit 1 (some 100) "trader" 1 0)
        [OrderOp.fillOp 0]).quantity ∧
     (applyOps (mkOrder Side.buy OrderType.limit 1 (some 100) "trader" 1 0)
        [OrderOp.fillOp 0]).status = OStatus.partFilled) ∧
    ((applyOps (mkOrder Side.buy OrderType.limit 1 (some 100) "trader" 1 0)
        [OrderOp.fillOp 1, OrderOp.cancelOp]).remaining = 0 ∧
     (applyOps (mkOrder Side.buy OrderType.limit 1 (some 100) "trader" 1 0)
        [OrderOp.fillOp 1, OrderOp.cancelOp]).status = OStatus.cancelled) ∧
    ((mkOrder Side.buy OrderType.limit 0 (some 100) "trader" 1 0).remaining = 0 ∧
     (mkOrder Side.buy OrderType.limit 0 (some 100) "trader" 1 0).status = OStatus.opened) := by
  decide

/-- C8 (amended): for every order with positive original quantity and every
sequence of `Order.fill` and `Order.cancel` calls with positive fill
quantities, whenever the status is not `"cancelled"`: `remaining == 0`
implies `"filled"`, `0 < remaining < original` implies `"partial"`, and
`remaining == original` implies `"open"`. -/
theorem order_status_amended (side : Side) (otype : OrderType) (price : Option ℚ)
    (tid : String) (id : Nat) (ts : ℚ) (q : ℚ) (ops : List OrderOp) (hq : 0 < q)
    (hops : ∀ op ∈ ops, ∀ x, op = OrderOp.fillOp x → 0 < x) :
    (applyOps (mkOrder side otype q price tid id ts) ops).status ≠ OStatus.cancelled →
    (((applyOps (mkOrder side otype q price tid id ts) ops).remaining = 0 →
        (applyOps (mkOrder side otype q price tid id ts) ops).status = OStatus.filled) ∧
     (0 < (applyOps (mkOrder side otype q price tid id ts) ops).remaining →
        (applyOps (mkOrder side otype q price tid id ts) ops).remaining < q →
        (applyOps (mkOrder side otype q price tid id ts) ops).status = OStatus.partFilled) ∧
     ((applyOps (mkOrder side otype q price tid id ts) ops).remaining = q →
        (applyOps (mkOrder side otype q price tid id ts) ops).status = OStatus.opened)) := by
  intro hnc
  have hqty : (applyOps (mkOrder side otype q price tid id ts) ops).quantity = q :=
    applyOps_quantity ops _
  have hinv : StatusInv (applyOps (mkOrder side otype q price tid id ts) ops) :=
    StatusInv.applyOps (statusInv_mkOrder side otype q price tid id ts hq.le) hops
  obtain ⟨h0, h1, ho, hp, hf⟩ := hinv
  rw [hqty] at h1 ho hp
  refine ⟨?_, ?_, ?_⟩
  · intro hr
    cases hst : (applyOps (mkOrder side otype q price tid id ts) ops).status with
    | opened => exact absurd (ho hst) (by rw [hr]; exact (by linarith : (0:ℚ) ≠ q))
    | partFilled => exact absurd (hp hst).1 (by rw [hr]; simp)
    | filled => rfl
    | cancelled => exact absurd hst hnc
  · intro hr1 hr2
    cases hst : (applyOps (mkOrder side otype q price tid id ts) ops).status with
    | opened => exact absurd (ho hst) (by linarith)
    | partFilled => rfl
    | filled => exact absurd (hf hst) (by linarith)
    | cancelled => exact absurd hst hnc
  · intro hr
    cases hst : (applyOps (mkOrder side otype q price tid id ts) ops).status with
    | opened => rfl
    | partFilled => exact absurd (hp hst).2 (by linarith)
    | filled => exact absurd (hf hst) (by rw [hr]; exact (by linarith : q ≠ 0))
    | cancelled => exact absurd hst hnc

unseal Rat.add Rat.sub Rat.mul Rat.inv in
/-- Witness for the amended C8 at quantity 2 with the single call `fill(1)`. -/
theorem order_status_amended_witness :
    ((applyOps (mkOrder Side.buy OrderType.limit 2 (some 100) "trader" 7 0)
          [OrderOp.fillOp 1]).remaining = 0 →
        (applyOps (mkOrder Side.buy OrderType.limit 2 (some 100) "trader" 7 0)
          [OrderOp.fillOp 1]).status = OStatus.filled) ∧
    (0 < (applyOps (mkOrder Side.buy OrderType.limit 2 (some 100) "trader" 7 0)
          [OrderOp.fillOp 1]).remaining →
        (applyOps (mkOrder Side.buy OrderType.limit 2 (some 100) "trader" 7 0)
          [OrderOp.fillOp 1]).remaining < 2 →
        (applyOps (mkOrder Side.buy OrderType.limit 2 (some 100) "trader" 7 0)
          [OrderOp.fillOp 1]).status = OStatus.partFilled) ∧
    ((applyOps (mkOrder Side.buy OrderType.limit 2 (some 100) "trader" 7 0)
          [OrderOp.fillOp 1]).remaining = 2 →
        (applyOps (mkOrder Side.buy OrderType.limit 2 (some 100) "trader" 7 0)
          [OrderOp.fillOp 1]).status = OStatus.opened) :=
  order_status_amended Side.buy OrderType.limit (some 100) "trader" 7 0 2
    [OrderOp.fillOp 1] (by norm_num)
    (by
      intro op hm x he
      rcases List.mem_singleton.mp hm with rfl
      injection he with h
      rw [← h]
      norm_num)
    (by decide)

/-! ### Arena and heap support lemmas -/

theorem olookup_oset_self (m : Arena) (k : Nat) (v : Order) :
    olookup (oset m k v) k = some v := by
  induction m with
  | nil => simp [oset, olookup]
  | cons p rest ih =>
    by_cases h : p.1 = k
    · simp [oset, h, olookup]
    · simp [oset, h, olookup, ih]

theorem olookup_oset_ne (m : Arena) (k k2 : Nat) (v : Order) (h : k ≠ k2) :
    olookup (oset m k v) k2 = olookup m k2 := by
  induction m with
  | nil => simp [oset, olookup, h]
  | cons p rest ih =>
    by_cases hp : p.1 = k
    · simp [oset, hp, olookup, h]
    · simp [oset, hp, olookup, ih]

theorem mem_oset (m : Arena) (k : Nat) (v : Order) :
    ∀ p ∈ oset m k v, p = (k, v) ∨ p ∈ m := by
  induction m with
  | nil => simp [oset]
  | cons q rest ih =>
    intro p hp
    by_cases hq : q.1 = k
    · simp only [oset, if_pos hq] at hp
      rcases List.mem_cons.mp hp with h | h
      · exact Or.inl h
      · exact Or.inr (List.mem_cons_of_mem _ h)
    · simp only [oset, if_neg hq] at hp
      rcases List.mem_cons.mp hp with h | h
      · exact Or.inr (h ▸ List.mem_cons_self _ _)
      · rcases ih p h with h2 | h2
        · exact Or.inl h2
        · exact Or.inr (List.mem_cons_of_mem _ h2)

theorem olookup_mem {m : Arena} {k : Nat} {v : Order} (h : olookup m k = some v) :
    (k, v) ∈ m := by
  induction m with
  | nil => simp [olookup] at h
  | cons p rest ih =>
    rcases p with ⟨k2, v2⟩
    by_cases hp : k2 = k
    · subst hp
      simp only [olookup, if_pos rfl] at h
      cases h
      exact List.mem_cons_self _ _
    · simp only [olookup, if_neg hp] at h
      exact List.mem_cons_of_mem _ (ih h)

theorem oset_forall {P : Nat × Order → Prop} {m : Arena} {k : Nat} {v : Order}
    (hm : ∀ p ∈ m, P p) (hv : P (k, v)) : ∀ p ∈ oset m k v, P p := by
  intro p hp
  rcases mem_oset m k v p hp with h | h
  · exact h ▸ hv
  · exact hm p h

/-- Distinct arena keys carry distinct timestamps. -/
def TsOK (m : Arena) : Prop :=
  ∀ p ∈ m, ∀ q ∈ m, p.1 ≠ q.1 → p.2.timestamp ≠ q.2.timestamp

theorem TsOK_oset_same_ts {m : Arena} {k : Nat} {o v : Order} (hts : TsOK m)
    (hl : olookup m k = some o) (he : v.timestamp = o.timestamp) : TsOK (oset m k v) := by
  intro p hp q hq hne
  rcases mem_oset m k v p hp with hp2 | hp2 <;> rcases mem_oset m k v q hq with hq2 | hq2
  · rw [hp2, hq2] at hne; simp at hne
  · subst hp2
    simpa [he] using hts (k, o) (olookup_mem hl) q hq2 hne
  · subst hq2
    simpa [he] using hts p hp2 (k, o) (olookup_mem hl) hne
  · exact hts p hp2 q hq2 hne

theorem TsOK_oset_fresh {m : Arena} {k : Nat} {v : Order} (hts : TsOK m)
    (hfresh : ∀ p ∈ m, p.2.timestamp ≠ v.timestamp) : TsOK (oset m k v) := by
  intro p hp q hq hne
  rcases mem_oset m k v p hp with hp2 | hp2 <;> rcases mem_oset m k v q hq with hq2 | hq2
  · rw [hp2, hq2] at hne; simp at hne
  · subst hp2
    exact fun hc => hfresh q hq2 hc.symm
  · subst hq2
    exact hfresh p hp2
  · exact hts p hp2 q hq2 hne

theorem fillInArena_lookup_self {m : Arena} {k : Nat} {o : Order} (q : ℚ)
    (h : olookup m k = some o) :
    olookup (fillInArena m k q) k = some (o.fill q).1 := by
  rw [fillInArena, h]
  exact olookup_oset_self m k (o.fill q).1

theorem fillInArena_lookup_ne {m : Arena} {k : Nat} (q : ℚ) {oid : Nat} (h : oid ≠ k) :
    olookup (fillInArena m k q) oid = olookup m oid := by
  rw [fillInArena]
  cases hl : olookup m k with
  | none => rfl
  | some o => exact olookup_oset_ne m k oid (o.fill q).1 (fun hc => h hc.symm)

/-- The `Order` fields the engine never mutates. -/
def sameIdFields (o2 o : Order) : Prop :=
  o2.id = o.id ∧ o2.side = o.side ∧ o2.order_type = o.order_type ∧
  o2.quantity = o.quantity ∧ o2.price = o.price ∧ o2.timestamp = o.timestamp ∧
  o2.trader_id = o.trader_id

theorem sameIdFields_refl (o : Order) : sameIdFields o o :=
  ⟨rfl, rfl, rfl, rfl, rfl, rfl, rfl⟩

theorem sameIdFields_trans {o3 o2 o : Order} (h1 : sameIdFields o3 o2)
    (h2 : sameIdFields o2 o) : sameIdFields o3 o := by
  obtain ⟨a1, a2, a3, a4, a5, a6, a7⟩ := h1
  obtain ⟨b1, b2, b3, b4, b5, b6, b7⟩ := h2
  exact ⟨a1.trans b1, a2.trans b2, a3.trans b3, a4.trans b4, a5.trans b5,
    a6.trans b6, a7.trans b7⟩

theorem sameIdFields_fill (o : Order) (q : ℚ) : sameIdFields (o.fill q).1 o :=
  ⟨rfl, rfl, rfl, rfl, rfl, rfl, rfl⟩

theorem fillInArena_frame (m : Arena) (k : Nat) (q : ℚ) (oid : Nat) (o : Order)
    (h : olookup m oid = some o) :
    ∃ o2, olookup (fillInArena m k q) oid = some o2 ∧ sameIdFields o2 o := by
  by_cases hk : oid = k
  · subst hk
    exact ⟨(o.fill q).1, fillInArena_lookup_self q h, sameIdFields_fill o q⟩
  · exact ⟨o, by rw [fillInArena_lookup_ne q hk]; exact h, sameIdFields_refl o⟩

theorem fillInArena_frame_rev (m : Arena) (k : Nat) (q : ℚ) (oid : Nat) (o2 : Order)
    (h : olookup (fillInArena m k q) oid = some o2) :
    ∃ o, olookup m oid = some o ∧ sameIdFields o2 o := by
  by_cases hk : oid = k
  · subst hk
    cases hl : olookup m oid with
    | none =>
      simp only [fillInArena, hl] at h
      simp at h
    | some o =>
      simp only [fillInArena, hl, olookup_oset_self] at h
      injection h with h2
      subst h2
      exact ⟨o, rfl, sameIdFields_fill o q⟩
  · rw [fillInArena_lookup_ne q hk] at h
    exact ⟨o2, h, sameIdFields_refl o2⟩

/-! Lexicographic key order lemmas. -/

theorem keyLt.le {e f : HEntry} (h : keyLt e f) : keyLe e f := by
  rcases h with h | ⟨h1, h2⟩
  · exact Or.inl h
  · exact Or.inr ⟨h1, h2.le⟩

theorem keyLe_refl (e : HEntry) : keyLe e e := Or.inr ⟨rfl, le_refl _⟩

theorem keyLe_trans {e f g : HEntry} (h1 : keyLe e f) (h2 : keyLe f g) : keyLe e g := by
  rcases h1 with h1 | ⟨h1a, h1b⟩ <;> rcases h2 with h2 | ⟨h2a, h2b⟩
  · exact Or.inl (h1.trans h2)
  · exact Or.inl (h2a ▸ h1)
  · exact Or.inl (h1a ▸ h2)
  · exact Or.inr ⟨h1a.trans h2a, h1b.trans h2b⟩

theorem keyLe_of_not_lt {e f : HEntry} (h : ¬keyLt e f) : keyLe f e := by
  rw [keyLt] at h
  push_neg at h
  rcases eq_or_lt_of_le h.1 with hk | hk
  · exact Or.inr ⟨hk, h.2 hk.symm⟩
  · exact Or.inl hk

theorem mem_insertEntry {e e2 : HEntry} {l : List HEntry} :
    e2 ∈ insertEntry e l ↔ e2 = e ∨ e2 ∈ l := by
  induction l with
  | nil => simp [insertEntry]
  | cons f rest ih =>
    by_cases h : keyLt e f
    · simp [insertEntry, if_pos h, List.mem_cons]
    · simp only [insertEntry, if_neg h, List.mem_cons, ih]
      tauto

theorem pairwise_insertEntry {e : HEntry} {l : List HEntry}
    (h : l.Pairwise keyLe) : (insertEntry e l).Pairwise keyLe := by
  induction l with
  | nil => simp [insertEntry]
  | cons f rest ih =>
    rcases List.pairwise_cons.mp h with ⟨hf, hrest⟩
    by_cases hlt : keyLt e f
    · rw [insertEntry, if_pos hlt]
      refine List.pairwise_cons.mpr ⟨?_, h⟩
      intro g hg
      rcases List.mem_cons.mp hg with rfl | hg2
      · exact hlt.le
      · exact keyLe_trans hlt.le (hf g hg2)
    · rw [insertEntry, if_neg hlt]
      refine List.pairwise_cons.mpr ⟨?_, ih hrest⟩
      intro g hg
      rcases mem_insertEntry.mp hg with rfl | hg2
      · exact keyLe_of_not_lt hlt
      · exact hf g hg2

/-! ### Book invariants -/

/-- A non-terminal ("live") order, as the spec uses the word. -/
def liveSt (o : Order) : Prop :=
  ¬(o.status = OStatus.filled ∨ o.status = OStatus.cancelled)

theorem isTerminal_false_iff {o : Order} : isTerminal o = false ↔ liveSt o := by
  simp [isTerminal, liveSt]

theorem isTerminal_true_iff {o : Order} : isTerminal o = true ↔ ¬liveSt o := by
  simp [isTerminal, liveSt]
  tauto

/-- Arena-wide facts: fill conservation, index key = order id, positive
prices, distinct timestamps. -/
def ArenaInv (m : Arena) : Prop :=
  (∀ p ∈ m, p.2.filled + p.2.remaining = p.2.quantity) ∧
  (∀ p ∈ m, p.1 = p.2.id) ∧
  (∀ p ∈ m, ∀ x, p.2.price = some x → 0 < x) ∧
  TsOK m

/-- Every heap entry references an indexed order whose limit price is the
entry's key (through `f`: identity for asks, negation for bids), whose
timestamp is the entry's, on the right side, of limit type. -/
def HeapSound (m : Arena) (h : List HEntry) (s : Side) (f : ℚ → ℚ) : Prop :=
  ∀ e ∈ h, ∃ o, olookup m e.oid = some o ∧ o.price = some (f e.key) ∧
    o.timestamp = e.ts ∧ o.side = s ∧ o.order_type = OrderType.limit

/-- Two arenas related by engine updates: lookups are preserved in both
directions up to mutation of the `remaining`/`filled`/`status` fields. -/
def arenaExt (m m2 : Arena) : Prop :=
  (∀ oid o, olookup m oid = some o → ∃ o2, olookup m2 oid = some o2 ∧ sameIdFields o2 o) ∧
  (∀ oid o2, olookup m2 oid = some o2 → ∃ o, olookup m oid = some o ∧ sameIdFields o2 o)

theorem arenaExt_refl (m : Arena) : arenaExt m m :=
  ⟨fun _ o h => ⟨o, h, sameIdFields_refl o⟩, fun _ o2 h => ⟨o2, h, sameIdFields_refl o2⟩⟩

theorem arenaExt_trans {m1 m2 m3 : Arena} (h1 : arenaExt m1 m2) (h2 : arenaExt m2 m3) :
    arenaExt m1 m3 := by
  refine ⟨fun oid o h => ?_, fun oid o3 h => ?_⟩
  · obtain ⟨o2, hl2, hf2⟩ := h1.1 oid o h
    obtain ⟨o3, hl3, hf3⟩ := h2.1 oid o2 hl2
    exact ⟨o3, hl3, sameIdFields_trans hf3 hf2⟩
  · obtain ⟨o2, hl2, hf2⟩ := h2.2 oid o3 h
    obtain ⟨o, hl, hf⟩ := h1.2 oid o2 hl2
    exact ⟨o, hl, sameIdFields_trans hf2 hf⟩

theorem arenaExt_oset_of_same {m : Arena} {k : Nat} {o v : Order}
    (hl : olookup m k = some o) (hs : sameIdFields v o) : arenaExt m (oset m k v) := by
  refine ⟨fun oid o2 h => ?_, fun oid o2 h => ?_⟩
  · by_cases hk : oid = k
    · subst hk
      rw [hl] at h
      cases h
      exact ⟨v, olookup_oset_self m oid v, hs⟩
    · exact ⟨o2, by rw [olookup_oset_ne m k oid v (fun hc => hk hc.symm)]; exact h,
        sameIdFields_refl o2⟩
  · by_cases hk : oid = k
    · subst hk
      rw [olookup_oset_self] at h
      cases h
      exact ⟨o, hl, hs⟩
    · rw [olookup_oset_ne m k oid v (fun hc => hk hc.symm)] at h
      exact ⟨o2, h, sameIdFields_refl o2⟩

theorem arenaExt_fillInArena (m : Arena) (k : Nat) (q : ℚ) :
    arenaExt m (fillInArena m k q) := by
  rw [fillInArena]
  cases hl : olookup m k with
  | none => exact arenaExt_refl m
  | some o => exact arenaExt_oset_of_same hl (sameIdFields_fill o q)

theorem ArenaInv_oset {m : Arena} {k : Nat} {v : Order} (h : ArenaInv m)
    (hc : v.filled + v.remaining = v.quantity) (hk : k = v.id)
    (hp : ∀ x, v.price = some x → 0 < x)
    (hts : TsOK (oset m k v)) : ArenaInv (oset m k v) := by
  obtain ⟨h1, h2, h3, _⟩ := h
  exact ⟨oset_forall h1 hc, oset_forall h2 hk, oset_forall h3 hp, hts⟩

theorem ArenaInv_fillInArena {m : Arena} (h : ArenaInv m) (k : Nat) (q : ℚ) :
    ArenaInv (fillInArena m k q) := by
  rw [fillInArena]
  cases hl : olookup m k with
  | none => exact h
  | some o =>
    have hmem := olookup_mem hl
    refine ArenaInv_oset h ?_ ?_ ?_ ?_
    · rw [Order.fill_conserve, Order.fill_quantity]
      exact h.1 (k, o) hmem
    · rw [Order.fill_id]
      exact h.2.1 (k, o) hmem
    · intro x hx
      rw [Order.fill_price] at hx
      exact h.2.2.1 (k, o) hmem x hx
    · exact TsOK_oset_same_ts h.2.2.2 hl (Order.fill_timestamp o q)

theorem HeapSound_transfer {m m2 : Arena} {h h2 : List HEntry} {s : Side} {f : ℚ → ℚ}
    (hs : HeapSound m h s f) (he : arenaExt m m2) (hsub : h2 ⊆ h) :
    HeapSound m2 h2 s f := by
  intro e hm
  obtain ⟨o, hl, hp, hts, hside, hot⟩ := hs e (hsub hm)
  obtain ⟨o2, hl2, hf⟩ := he.1 e.oid o hl
  exact ⟨o2, hl2, hf.2.2.2.2.1 ▸ hp, hf.2.2.2.2.2.1 ▸ hts, hf.2.1 ▸ hside, hf.2.2.1 ▸ hot⟩

/-- The full book invariant. -/
structure BookInv (b : Book) : Prop where
  arena : ArenaInv b.orders
  askS : HeapSound b.orders b.askHeap Side.sell (fun x => x)
  bidS : HeapSound b.orders b.bidHeap Side.buy (fun x => -x)
  askSorted : b.askHeap.Pairwise keyLe
  bidSorted : b.bidHeap.Pairwise keyLe
  tCount : b.total_trades = b.trades.length
  tVol : b.total_volume = (b.trades.map Trade.quantity).sum

theorem BookInv_emptyBook : BookInv emptyBook := by
  refine ⟨⟨?_, ?_, ?_, ?_⟩, ?_, ?_, ?_, ?_, rfl, rfl⟩ <;> simp [emptyBook, TsOK, HeapSound]

/-- Well-formedness of a freshly constructed order submitted to the book:
the contract the spec places on callers (`price > 0`, `quantity > 0`,
a limit order carries a price, a market order does not), plus freshness of
the id (the process-wide counter) and of the timestamp (the clock). -/
structure WfNew (b : Book) (o : Order) : Prop where
  fresh : olookup b.orders o.id = none
  freshTs : ∀ p ∈ b.orders, p.2.timestamp ≠ o.timestamp
  rem : o.remaining = o.quantity
  fil : o.filled = 0
  st : o.status = OStatus.opened
  qty : 0 < o.quantity
  prc : ∀ x, o.price = some x → 0 < x
  lim : o.order_type = OrderType.limit → ∃ x, o.price = some x
  mkt : o.order_type = OrderType.market → o.price = none

/-- The reachable book states: any sequence of well-formed submissions,
cancellations and best-price queries starting from the empty book
(`spread`/`mid_price` mutate only through `best_bid`/`best_ask`, and
`get_depth`/`get_trade_history` do not mutate at all). -/
inductive Reachable : Book → Prop
  | empty : Reachable emptyBook
  | add {b o} : Reachable b → WfNew b o → Reachable (add_order b o).1
  | cancel {b oid} : Reachable b → Reachable (cancel_order b oid).1
  | queryBid {b} : Reachable b → Reachable (best_bid b).2
  | queryAsk {b} : Reachable b → Reachable (best_ask b).2

/-! ### Master lemma for the ask-side fill loop -/

/-- What holds of every trade emitted by a fill from the asks, relative to
the book at the start of the loop (`bInit`) and at its end (`bFin`): the
trade's price is the passive sell limit order's price, the passive order
came from the initial ask heap, and the matched entry's key is at most the
key of anything still on the ask heap afterwards. -/
def askTradeOk (bInit bFin : Book) (t : Trade) : Prop :=
  ∃ po, olookup bFin.orders t.sell_order_id = some po ∧ po.price = some t.price ∧
    po.order_type = OrderType.limit ∧ po.side = Side.sell ∧ po.id = t.sell_order_id ∧
    (∃ e ∈ bInit.askHeap, e.oid = t.sell_order_id) ∧
    (∀ e ∈ bFin.askHeap, keyLe { key := t.price, ts := po.timestamp, oid := t.sell_order_id } e)

/-- The first trade of a fill from the asks matches a passive order whose
`(price, timestamp)` key is minimal among the live entries of the initial
ask heap. -/
def askFirstMin (bInit : Book) (t : Trade) : Prop :=
  ∃ po, olookup bInit.orders t.sell_order_id = some po ∧
    ∀ e ∈ bInit.askHeap, (∃ oe, olookup bInit.orders e.oid = some oe ∧ liveSt oe) →
      keyLe { key := t.price, ts := po.timestamp, oid := t.sell_order_id } e

theorem askTradeOk_mono {b2 b bF : Book} {t : Trade}
    (hsub : b2.askHeap ⊆ b.askHeap) (h : askTradeOk b2 bF t) : askTradeOk b bF t := by
  obtain ⟨po, h1, h2, h3, h4, h5, ⟨e, he, hoid⟩, h7⟩ := h
  exact ⟨po, h1, h2, h3, h4, h5, ⟨e, hsub he, hoid⟩, h7⟩

theorem fillMasterId {b bF : Book} {ts : List Trade} (hb : bF = b)
    (hts : ts = []) :
    bF.trades = b.trades ∧ bF.total_trades = b.total_trades ∧
    bF.total_volume = b.total_volume ∧ bF.bidHeap = b.bidHeap ∧
    bF.bidLevels = b.bidLevels ∧ arenaExt b.orders bF.orders ∧
    bF.askHeap <:+ b.askHeap ∧
    (BookInv b → BookInv bF ∧ (∀ t ∈ ts, askTradeOk b bF t) ∧
      (∀ t r2, ts = t :: r2 → askFirstMin b t)) := by
  subst hb
  subst hts
  exact ⟨rfl, rfl, rfl, rfl, rfl, arenaExt_refl _, List.suffix_rfl,
    fun hInv => ⟨hInv, fun t ht => absurd ht (List.not_mem_nil t),
      fun t r2 hc => by cases hc⟩⟩

theorem fillAsksGo_master (fuel : Nat) (aggId : Nat) :
    ∀ (b bF : Book) (ts : List Trade), fillAsksGo fuel b aggId = (bF, ts) →
    bF.trades = b.trades ∧ bF.total_trades = b.total_trades ∧
    bF.total_volume = b.total_volume ∧ bF.bidHeap = b.bidHeap ∧
    bF.bidLevels = b.bidLevels ∧ arenaExt b.orders bF.orders ∧
    bF.askHeap <:+ b.askHeap ∧
    (BookInv b → BookInv bF ∧ (∀ t ∈ ts, askTradeOk b bF t) ∧
      (∀ t r2, ts = t :: r2 → askFirstMin b t)) := by
  induction fuel with
  | zero =>
    intro b bF ts h
    simp only [fillAsksGo] at h
    injection h with h1 h2
    exact fillMasterId h1.symm h2.symm
  | succ fuel ih =>
    intro b bF ts h
    simp only [fillAsksGo] at h
    cases hagg : olookup b.orders aggId with
    | none =>
      rw [hagg] at h
      dsimp only at h
      injection h with h1 h2
      exact fillMasterId h1.symm h2.symm
    | some agg =>
      rw [hagg] at h
      dsimp only at h
      by_cases hrem : (0:ℚ) < agg.remaining
      case neg =>
        rw [if_neg hrem] at h
        injection h with h1 h2
        exact fillMasterId h1.symm h2.symm
      case pos =>
      rw [if_pos hrem] at h
      cases hheap : b.askHeap with
      | nil =>
        rw [hheap] at h
        dsimp only at h
        injection h with h1 h2
        exact hheap ▸ fillMasterId h1.symm h2.symm
      | cons e rest =>
        rw [hheap] at h
        dsimp only at h
        cases hpo : olookup b.orders e.oid with
        | none =>
          rw [hpo] at h
          dsimp only at h
          obtain ⟨ht, hc, hv, hbh, hbl, hext, hsuf, hinv⟩ := ih _ bF ts h
          refine ⟨ht, hc, hv, hbh, hbl, hext, hsuf.trans (hheap ▸ List.suffix_cons e rest),
            fun hI => ?_⟩
          have hI2 : BookInv { b with askHeap := rest } :=
            { arena := hI.arena
              askS := fun f hf => hI.askS f (hheap ▸ List.mem_cons_of_mem e hf)
              bidS := hI.bidS
              askSorted := (List.pairwise_cons.mp (hheap ▸ hI.askSorted)).2
              bidSorted := hI.bidSorted
              tCount := hI.tCount
              tVol := hI.tVol }
          obtain ⟨hIF, htr, hfm⟩ := hinv hI2
          refine ⟨hIF, fun t htm => askTradeOk_mono (fun f hf => hheap ▸ List.mem_cons_of_mem e hf)
            (htr t htm), fun t r2 hts2 => ?_⟩
          obtain ⟨po, hpol, hmin⟩ := hfm t r2 hts2
          refine ⟨po, hpol, fun f hf hlive => ?_⟩
          rw [hheap] at hf
          rcases List.mem_cons.mp hf with rfl | hf2
          · obtain ⟨oe, hoe, _⟩ := hlive
            rw [hpo] at hoe
            cases hoe
          · exact hmin f hf2 hlive
        | some po =>
          rw [hpo] at h
          dsimp only at h
          by_cases hterm : isTerminal po
          case pos =>
            rw [if_pos hterm] at h
            obtain ⟨ht, hc, hv, hbh, hbl, hext, hsuf, hinv⟩ := ih _ bF ts h
            refine ⟨ht, hc, hv, hbh, hbl, hext, hsuf.trans (hheap ▸ List.suffix_cons e rest),
              fun hI => ?_⟩
            have hI2 : BookInv { b with askHeap := rest } :=
              { arena := hI.arena
                askS := fun f hf => hI.askS f (hheap ▸ List.mem_cons_of_mem e hf)
                bidS := hI.bidS
                askSorted := (List.pairwise_cons.mp (hheap ▸ hI.askSorted)).2
                bidSorted := hI.bidSorted
                tCount := hI.tCount
                tVol := hI.tVol }
            obtain ⟨hIF, htr, hfm⟩ := hinv hI2
            refine ⟨hIF, fun t htm => askTradeOk_mono
              (fun f hf => hheap ▸ List.mem_cons_of_mem e hf) (htr t htm),
              fun t r2 hts2 => ?_⟩
            obtain ⟨po2, hpol, hmin⟩ := hfm t r2 hts2
            refine ⟨po2, hpol, fun f hf hlive => ?_⟩
            rw [hheap] at hf
            rcases List.mem_cons.mp hf with rfl | hf2
            · obtain ⟨oe, hoe, holive⟩ := hlive
              rw [hpo] at hoe
              cases hoe
              exact absurd (isTerminal_true_iff.mp hterm) (fun hc2 => hc2 holive)
            · exact hmin f hf2 hlive
          case neg =>
            rw [if_neg hterm] at h
            by_cases hbreak : agg.order_type = OrderType.limit ∧ limGt e.key agg.price
            case pos =>
              rw [if_pos hbreak] at h
              injection h with h1 h2
              exact hheap ▸ fillMasterId h1.symm h2.symm
            case neg =>
              rw [if_neg hbreak] at h
              -- the passive order is live at the head: a trade is struck
              set fq := min agg.remaining po.remaining with hfq
              set m2 := fillInArena (fillInArena b.orders aggId fq) e.oid fq with hm2
              have hextm2 : arenaExt b.orders m2 := by
                rw [hm2]
                exact arenaExt_trans (arenaExt_fillInArena b.orders aggId fq)
                  (arenaExt_fillInArena _ e.oid fq)
              by_cases hz : remOf m2 e.oid = 0
              · rw [if_pos hz] at h
                cases hr : fillAsksGo fuel
                    { b with
                      orders := m2, askHeap := rest,
                      askLevels := purgeLevel m2 b.askLevels e.key } aggId with
                | mk bR tsR =>
                  rw [hr] at h
                  dsimp only at h
                  injection h with h1 h2
                  subst h1
                  subst h2
                  obtain ⟨ht, hc, hv, hbh, hbl, hext, hsuf, hinv⟩ := ih _ bR tsR hr
                  refine ⟨ht, hc, hv, hbh, hbl, arenaExt_trans hextm2 hext,
                    hsuf.trans (hheap ▸ List.suffix_cons e rest), fun hI => ?_⟩
                  -- facts about the passive order from heap soundness
                  obtain ⟨po', hlk', hprice, htse, hside, hot⟩ :=
                    hI.askS e (hheap ▸ List.mem_cons_self e rest)
                  rw [hpo] at hlk'
                  injection hlk' with hpe
                  subst hpe
                  have hpid : e.oid = po.id := hI.arena.2.1 (e.oid, po) (olookup_mem hpo)
                  have hI2 : BookInv { b with
                      orders := m2, askHeap := rest,
                      askLevels := purgeLevel m2 b.askLevels e.key } :=
                    { arena := by
                        rw [hm2]
                        exact ArenaInv_fillInArena (ArenaInv_fillInArena hI.arena aggId fq) e.oid fq
                      askS := HeapSound_transfer hI.askS hextm2
                        (fun f hf => hheap ▸ List.mem_cons_of_mem e hf)
                      bidS := HeapSound_transfer hI.bidS hextm2 (fun f hf => hf)
                      askSorted := (List.pairwise_cons.mp (hheap ▸ hI.askSorted)).2
                      bidSorted := hI.bidSorted
                      tCount := hI.tCount
                      tVol := hI.tVol }
                  obtain ⟨hIF, htr, hfm⟩ := hinv hI2
                  have hrestLe : ∀ f ∈ rest, keyLe e f :=
                    (List.pairwise_cons.mp (hheap ▸ hI.askSorted)).1
                  refine ⟨hIF, ?_, ?_⟩
                  · intro t htm
                    rcases List.mem_cons.mp htm with rfl | htm2
                    · -- the head trade
                      obtain ⟨po3, hlk3, hsame3⟩ := (arenaExt_trans hextm2 hext).1 e.oid po hpo
                      refine ⟨po3, ?_, ?_, ?_, ?_, ?_, ⟨e, hheap ▸ List.mem_cons_self e rest, hpid⟩, ?_⟩
                      · show olookup bR.orders po.id = some po3
                        rw [← hpid]
                        exact hlk3
                      · show po3.price = some e.key
                        rw [hsame3.2.2.2.2.1]
                        exact hprice
                      · rw [hsame3.2.2.1]
                        exact hot
                      · rw [hsame3.2.1]
                        exact hside
                      · show po3.id = po.id
                        exact hsame3.1
                      · intro f hf
                        have hf2 : f ∈ rest := hsuf.subset hf
                        have hts3 : po3.timestamp = e.ts := by
                          rw [hsame3.2.2.2.2.2.1]
                          exact htse
                        show keyLe { key := e.key, ts := po3.timestamp, oid := po.id } f
                        rw [hts3]
                        rcases hrestLe f hf2 with hk | ⟨hk1, hk2⟩
                        · exact Or.inl hk
                        · exact Or.inr ⟨hk1, hk2⟩
                    · exact askTradeOk_mono (fun f hf => hheap ▸ List.mem_cons_of_mem e hf)
                        (htr t htm2)
                  · intro t r2 hts2
                    injection hts2 with hts3 hts4
                    subst hts3
                    refine ⟨po, ?_, ?_⟩
                    · show olookup b.orders po.id = some po
                      rw [← hpid]
                      exact hpo
                    · intro f hf hlive
                      rw [hheap] at hf
                      rcases List.mem_cons.mp hf with rfl | hf2
                      · show keyLe { key := f.key, ts := po.timestamp, oid := po.id } f
                        rw [htse]
                        exact Or.inr ⟨rfl, le_refl _⟩
                      · show keyLe { key := e.key, ts := po.timestamp, oid := po.id } f
                        rw [htse]
                        rcases hrestLe f hf2 with hk | ⟨hk1, hk2⟩
                        · exact Or.inl hk
                        · exact Or.inr ⟨hk1, hk2⟩
              · rw [if_neg hz] at h
                cases hr : fillAsksGo fuel { b with askHeap := e :: rest, orders := m2 } aggId with
                | mk bR tsR =>
                  rw [hr] at h
                  dsimp only at h
                  injection h with h1 h2
                  subst h1
                  subst h2
                  obtain ⟨ht, hc, hv, hbh, hbl, hext, hsuf, hinv⟩ := ih _ bR tsR hr
                  refine ⟨ht, hc, hv, hbh, hbl, arenaExt_trans hextm2 hext, hsuf,
                    fun hI => ?_⟩
                  obtain ⟨po', hlk', hprice, htse, hside, hot⟩ :=
                    hI.askS e (hheap ▸ List.mem_cons_self e rest)
                  rw [hpo] at hlk'
                  injection hlk' with hpe
                  subst hpe
                  have hpid : e.oid = po.id := hI.arena.2.1 (e.oid, po) (olookup_mem hpo)
                  have hI2 : BookInv { b with askHeap := e :: rest, orders := m2 } :=
                    { arena := by
                        rw [hm2]
                        exact ArenaInv_fillInArena (ArenaInv_fillInArena hI.arena aggId fq) e.oid fq
                      askS := HeapSound_transfer hI.askS hextm2 (fun f hf => hheap ▸ hf)
                      bidS := HeapSound_transfer hI.bidS hextm2 (fun f hf => hf)
                      askSorted := hheap ▸ hI.askSorted
                      bidSorted := hI.bidSorted
                      tCount := hI.tCount
                      tVol := hI.tVol }
                  obtain ⟨hIF, htr, hfm⟩ := hinv hI2
                  have hrestLe : ∀ f ∈ rest, keyLe e f :=
                    (List.pairwise_cons.mp (hheap ▸ hI.askSorted)).1
                  have hheadLe : ∀ f ∈ b.askHeap, keyLe e f := by
                    intro f hf
                    rw [hheap] at hf
                    rcases List.mem_cons.mp hf with rfl | hf2
                    · exact Or.inr ⟨rfl, le_refl _⟩
                    · exact hrestLe f hf2
                  refine ⟨hIF, ?_, ?_⟩
                  · intro t htm
                    rcases List.mem_cons.mp htm with rfl | htm2
                    · obtain ⟨po3, hlk3, hsame3⟩ := (arenaExt_trans hextm2 hext).1 e.oid po hpo
                      refine ⟨po3, ?_, ?_, ?_, ?_, ?_, ⟨e, hheap ▸ List.mem_cons_self e rest, hpid⟩, ?_⟩
                      · show olookup bR.orders po.id = some po3
                        rw [← hpid]
                        exact hlk3
                      · show po3.price = some e.key
                        rw [hsame3.2.2.2.2.1]
                        exact hprice
                      · rw [hsame3.2.2.1]
                        exact hot
                      · rw [hsame3.2.1]
                        exact hside
                      · exact hsame3.1
                      · intro f hf
                        have hf2 : f ∈ b.askHeap := hheap ▸ hsuf.subset hf
                        have hts3 : po3.timestamp = e.ts := by
                          rw [hsame3.2.2.2.2.2.1]
                          exact htse
                        show keyLe { key := e.key, ts := po3.timestamp, oid := po.id } f
                        rw [hts3]
                        exact hheadLe f hf2
                    · exact askTradeOk_mono (fun f hf => hheap ▸ hf) (htr t htm2)
                  · intro t r2 hts2
                    injection hts2 with hts3 hts4
                    subst hts3
                    refine ⟨po, ?_, ?_⟩
                    · show olookup b.orders po.id = some po
                      rw [← hpid]
                      exact hpo
                    · intro f hf hlive
                      show keyLe { key := e.key, ts := po.timestamp, oid := po.id } f
                      rw [htse]
                      exact hheadLe f hf
/-! ### Master lemma for the bid-side fill loop -/

/-- Bid-side counterpart of `askTradeOk`: the trade's price is the passive
buy limit order's price, the passive order came from the initial bid heap,
and the matched entry's key (the negated price) is at most the key of
anything still on the bid heap afterwards. -/
def bidTradeOk (bInit bFin : Book) (t : Trade) : Prop :=
  ∃ po, olookup bFin.orders t.buy_order_id = some po ∧ po.price = some t.price ∧
    po.order_type = OrderType.limit ∧ po.side = Side.buy ∧ po.id = t.buy_order_id ∧
    (∃ e ∈ bInit.bidHeap, e.oid = t.buy_order_id) ∧
    (∀ e ∈ bFin.bidHeap, keyLe { key := -t.price, ts := po.timestamp, oid := t.buy_order_id } e)

/-- Bid-side counterpart of `askFirstMin`: the first trade of a fill from
the bids matches a passive order whose `(-price, timestamp)` key is minimal
among the live entries of the initial bid heap. -/
def bidFirstMin (bInit : Book) (t : Trade) : Prop :=
  ∃ po, olookup bInit.orders t.buy_order_id = some po ∧
    ∀ e ∈ bInit.bidHeap, (∃ oe, olookup bInit.orders e.oid = some oe ∧ liveSt oe) →
      keyLe { key := -t.price, ts := po.timestamp, oid := t.buy_order_id } e

theorem bidTradeOk_mono {b2 b bF : Book} {t : Trade}
    (hsub : b2.bidHeap ⊆ b.bidHeap) (h : bidTradeOk b2 bF t) : bidTradeOk b bF t := by
  obtain ⟨po, h1, h2, h3, h4, h5, ⟨e, he, hoid⟩, h7⟩ := h
  exact ⟨po, h1, h2, h3, h4, h5, ⟨e, hsub he, hoid⟩, h7⟩

theorem fillMasterIdBid {b bF : Book} {ts : List Trade} (hb : bF = b)
    (hts : ts = []) :
    bF.trades = b.trades ∧ bF.total_trades = b.total_trades ∧
    bF.total_volume = b.total_volume ∧ bF.askHeap = b.askHeap ∧
    bF.askLevels = b.askLevels ∧ arenaExt b.orders bF.orders ∧
    bF.bidHeap <:+ b.bidHeap ∧
    (BookInv b → BookInv bF ∧ (∀ t ∈ ts, bidTradeOk b bF t) ∧
      (∀ t r2, ts = t :: r2 → bidFirstMin b t)) := by
  subst hb
  subst hts
  exact ⟨rfl, rfl, rfl, rfl, rfl, arenaExt_refl _, List.suffix_rfl,
    fun hInv => ⟨hInv, fun t ht => absurd ht (List.not_mem_nil t),
      fun t r2 hc => by cases hc⟩⟩

theorem fillBidsGo_master (fuel : Nat) (aggId : Nat) :
    ∀ (b bF : Book) (ts : List Trade), fillBidsGo fuel b aggId = (bF, ts) →
    bF.trades = b.trades ∧ bF.total_trades = b.total_trades ∧
    bF.total_volume = b.total_volume ∧ bF.askHeap = b.askHeap ∧
    bF.askLevels = b.askLevels ∧ arenaExt b.orders bF.orders ∧
    bF.bidHeap <:+ b.bidHeap ∧
    (BookInv b → BookInv bF ∧ (∀ t ∈ ts, bidTradeOk b bF t) ∧
      (∀ t r2, ts = t :: r2 → bidFirstMin b t)) := by
  induction fuel with
  | zero =>
    intro b bF ts h
    simp only [fillBidsGo] at h
    injection h with h1 h2
    exact fillMasterIdBid h1.symm h2.symm
  | succ fuel ih =>
    intro b bF ts h
    simp only [fillBidsGo] at h
    cases hagg : olookup b.orders aggId with
    | none =>
      rw [hagg] at h
      dsimp only at h
      injection h with h1 h2
      exact fillMasterIdBid h1.symm h2.symm
    | some agg =>
      rw [hagg] at h
      dsimp only at h
      by_cases hrem : (0:ℚ) < agg.remaining
      case neg =>
        rw [if_neg hrem] at h
        injection h with h1 h2
        exact fillMasterIdBid h1.symm h2.symm
      case pos =>
      rw [if_pos hrem] at h
      cases hheap : b.bidHeap with
      | nil =>
        rw [hheap] at h
        dsimp only at h
        injection h with h1 h2
        exact hheap ▸ fillMasterIdBid h1.symm h2.symm
      | cons e rest =>
        rw [hheap] at h
        dsimp only at h
        cases hpo : olookup b.orders e.oid with
        | none =>
          rw [hpo] at h
          dsimp only at h
          obtain ⟨ht, hc, hv, hbh, hbl, hext, hsuf, hinv⟩ := ih _ bF ts h
          refine ⟨ht, hc, hv, hbh, hbl, hext, hsuf.trans (hheap ▸ List.suffix_cons e rest),
            fun hI => ?_⟩
          have hI2 : BookInv { b with bidHeap := rest } :=
            { arena := hI.arena
              bidS := fun f hf => hI.bidS f (hheap ▸ List.mem_cons_of_mem e hf)
              askS := hI.askS
              bidSorted := (List.pairwise_cons.mp (hheap ▸ hI.bidSorted)).2
              askSorted := hI.askSorted
              tCount := hI.tCount
              tVol := hI.tVol }
          obtain ⟨hIF, htr, hfm⟩ := hinv hI2
          refine ⟨hIF, fun t htm => bidTradeOk_mono (fun f hf => hheap ▸ List.mem_cons_of_mem e hf)
            (htr t htm), fun t r2 hts2 => ?_⟩
          obtain ⟨po, hpol, hmin⟩ := hfm t r2 hts2
          refine ⟨po, hpol, fun f hf hlive => ?_⟩
          rw [hheap] at hf
          rcases List.mem_cons.mp hf with rfl | hf2
          · obtain ⟨oe, hoe, _⟩ := hlive
            rw [hpo] at hoe
            cases hoe
          · exact hmin f hf2 hlive
        | some po =>
          rw [hpo] at h
          dsimp only at h
          by_cases hterm : isTerminal po
          case pos =>
            rw [if_pos hterm] at h
            obtain ⟨ht, hc, hv, hbh, hbl, hext, hsuf, hinv⟩ := ih _ bF ts h
            refine ⟨ht, hc, hv, hbh, hbl, hext, hsuf.trans (hheap ▸ List.suffix_cons e rest),
              fun hI => ?_⟩
            have hI2 : BookInv { b with bidHeap := rest } :=
              { arena := hI.arena
                bidS := fun f hf => hI.bidS f (hheap ▸ List.mem_cons_of_mem e hf)
                askS := hI.askS
                bidSorted := (List.pairwise_cons.mp (hheap ▸ hI.bidSorted)).2
                askSorted := hI.askSorted
                tCount := hI.tCount
                tVol := hI.tVol }
            obtain ⟨hIF, htr, hfm⟩ := hinv hI2
            refine ⟨hIF, fun t htm => bidTradeOk_mono
              (fun f hf => hheap ▸ List.mem_cons_of_mem e hf) (htr t htm),
              fun t r2 hts2 => ?_⟩
            obtain ⟨po2, hpol, hmin⟩ := hfm t r2 hts2
            refine ⟨po2, hpol, fun f hf hlive => ?_⟩
            rw [hheap] at hf
            rcases List.mem_cons.mp hf with rfl | hf2
            · obtain ⟨oe, hoe, holive⟩ := hlive
              rw [hpo] at hoe
              cases hoe
              exact absurd (isTerminal_true_iff.mp hterm) (fun hc2 => hc2 holive)
            · exact hmin f hf2 hlive
          case neg =>
            rw [if_neg hterm] at h
            by_cases hbreak : agg.order_type = OrderType.limit ∧ limLt (-e.key) agg.price
            case pos =>
              rw [if_pos hbreak] at h
              injection h with h1 h2
              exact hheap ▸ fillMasterIdBid h1.symm h2.symm
            case neg =>
              rw [if_neg hbreak] at h
              -- the passive order is live at the head: a trade is struck
              set fq := min agg.remaining po.remaining with hfq
              set m2 := fillInArena (fillInArena b.orders aggId fq) e.oid fq with hm2
              have hextm2 : arenaExt b.orders m2 := by
                rw [hm2]
                exact arenaExt_trans (arenaExt_fillInArena b.orders aggId fq)
                  (arenaExt_fillInArena _ e.oid fq)
              by_cases hz : remOf m2 e.oid = 0
              · rw [if_pos hz] at h
                cases hr : fillBidsGo fuel
                    { b with
                      orders := m2, bidHeap := rest,
                      bidLevels := purgeLevel m2 b.bidLevels (-e.key) } aggId with
                | mk bR tsR =>
                  rw [hr] at h
                  dsimp only at h
                  injection h with h1 h2
                  subst h1
                  subst h2
                  obtain ⟨ht, hc, hv, hbh, hbl, hext, hsuf, hinv⟩ := ih _ bR tsR hr
                  refine ⟨ht, hc, hv, hbh, hbl, arenaExt_trans hextm2 hext,
                    hsuf.trans (hheap ▸ List.suffix_cons e rest), fun hI => ?_⟩
                  -- facts about the passive order from heap soundness
                  obtain ⟨po', hlk', hprice, htse, hside, hot⟩ :=
                    hI.bidS e (hheap ▸ List.mem_cons_self e rest)
                  rw [hpo] at hlk'
                  injection hlk' with hpe
                  subst hpe
                  have hpid : e.oid = po.id := hI.arena.2.1 (e.oid, po) (olookup_mem hpo)
                  have hI2 : BookInv { b with
                      orders := m2, bidHeap := rest,
                      bidLevels := purgeLevel m2 b.bidLevels (-e.key) } :=
                    { arena := by
                        rw [hm2]
                        exact ArenaInv_fillInArena (ArenaInv_fillInArena hI.arena aggId fq) e.oid fq
                      bidS := HeapSound_transfer hI.bidS hextm2
                        (fun f hf => hheap ▸ List.mem_cons_of_mem e hf)
                      askS := HeapSound_transfer hI.askS hextm2 (fun f hf => hf)
                      bidSorted := (List.pairwise_cons.mp (hheap ▸ hI.bidSorted)).2
                      askSorted := hI.askSorted
                      tCount := hI.tCount
                      tVol := hI.tVol }
                  obtain ⟨hIF, htr, hfm⟩ := hinv hI2
                  have hrestLe : ∀ f ∈ rest, keyLe e f :=
                    (List.pairwise_cons.mp (hheap ▸ hI.bidSorted)).1
                  refine ⟨hIF, ?_, ?_⟩
                  · intro t htm
                    rcases List.mem_cons.mp htm with rfl | htm2
                    · -- the head trade
                      obtain ⟨po3, hlk3, hsame3⟩ := (arenaExt_trans hextm2 hext).1 e.oid po hpo
                      refine ⟨po3, ?_, ?_, ?_, ?_, ?_, ⟨e, hheap ▸ List.mem_cons_self e rest, hpid⟩, ?_⟩
                      · show olookup bR.orders po.id = some po3
                        rw [← hpid]
                        exact hlk3
                      · show po3.price = some (-e.key)
                        rw [hsame3.2.2.2.2.1]
                        exact hprice
                      · rw [hsame3.2.2.1]
                        exact hot
                      · rw [hsame3.2.1]
                        exact hside
                      · show po3.id = po.id
                        exact hsame3.1
                      · intro f hf
                        have hf2 : f ∈ rest := hsuf.subset hf
                        have hts3 : po3.timestamp = e.ts := by
                          rw [hsame3.2.2.2.2.2.1]
                          exact htse
                        show keyLe { key := -(-e.key), ts := po3.timestamp, oid := po.id } f
                        rw [neg_neg, hts3]
                        rcases hrestLe f hf2 with hk | ⟨hk1, hk2⟩
                        · exact Or.inl hk
                        · exact Or.inr ⟨hk1, hk2⟩
                    · exact bidTradeOk_mono (fun f hf => hheap ▸ List.mem_cons_of_mem e hf)
                        (htr t htm2)
                  · intro t r2 hts2
                    injection hts2 with hts3 hts4
                    subst hts3
                    refine ⟨po, ?_, ?_⟩
                    · show olookup b.orders po.id = some po
                      rw [← hpid]
                      exact hpo
                    · intro f hf hlive
                      rw [hheap] at hf
                      rcases List.mem_cons.mp hf with rfl | hf2
                      · show keyLe { key := -(-f.key), ts := po.timestamp, oid := po.id } f
                        rw [neg_neg, htse]
                        exact Or.inr ⟨rfl, le_refl _⟩
                      · show keyLe { key := -(-e.key), ts := po.timestamp, oid := po.id } f
                        rw [neg_neg, htse]
                        rcases hrestLe f hf2 with hk | ⟨hk1, hk2⟩
                        · exact Or.inl hk
                        · exact Or.inr ⟨hk1, hk2⟩
              · rw [if_neg hz] at h
                cases hr : fillBidsGo fuel { b with bidHeap := e :: rest, orders := m2 } aggId with
                | mk bR tsR =>
                  rw [hr] at h
                  dsimp only at h
                  injection h with h1 h2
                  subst h1
                  subst h2
                  obtain ⟨ht, hc, hv, hbh, hbl, hext, hsuf, hinv⟩ := ih _ bR tsR hr
                  refine ⟨ht, hc, hv, hbh, hbl, arenaExt_trans hextm2 hext, hsuf,
                    fun hI => ?_⟩
                  obtain ⟨po', hlk', hprice, htse, hside, hot⟩ :=
                    hI.bidS e (hheap ▸ List.mem_cons_self e rest)
                  rw [hpo] at hlk'
                  injection hlk' with hpe
                  subst hpe
                  have hpid : e.oid = po.id := hI.arena.2.1 (e.oid, po) (olookup_mem hpo)
                  have hI2 : BookInv { b with bidHeap := e :: rest, orders := m2 } :=
                    { arena := by
                        rw [hm2]
                        exact ArenaInv_fillInArena (ArenaInv_fillInArena hI.arena aggId fq) e.oid fq
                      bidS := HeapSound_transfer hI.bidS hextm2 (fun f hf => hheap ▸ hf)
                      askS := HeapSound_transfer hI.askS hextm2 (fun f hf => hf)
                      bidSorted := hheap ▸ hI.bidSorted
                      askSorted := hI.askSorted
                      tCount := hI.tCount
                      tVol := hI.tVol }
                  obtain ⟨hIF, htr, hfm⟩ := hinv hI2
                  have hrestLe : ∀ f ∈ rest, keyLe e f :=
                    (List.pairwise_cons.mp (hheap ▸ hI.bidSorted)).1
                  have hheadLe : ∀ f ∈ b.bidHeap, keyLe e f := by
                    intro f hf
                    rw [hheap] at hf
                    rcases List.mem_cons.mp hf with rfl | hf2
                    · exact Or.inr ⟨rfl, le_refl _⟩
                    · exact hrestLe f hf2
                  refine ⟨hIF, ?_, ?_⟩
                  · intro t htm
                    rcases List.mem_cons.mp htm with rfl | htm2
                    · obtain ⟨po3, hlk3, hsame3⟩ := (arenaExt_trans hextm2 hext).1 e.oid po hpo
                      refine ⟨po3, ?_, ?_, ?_, ?_, ?_, ⟨e, hheap ▸ List.mem_cons_self e rest, hpid⟩, ?_⟩
                      · show olookup bR.orders po.id = some po3
                        rw [← hpid]
                        exact hlk3
                      · show po3.price = some (-e.key)
                        rw [hsame3.2.2.2.2.1]
                        exact hprice
                      · rw [hsame3.2.2.1]
                        exact hot
                      · rw [hsame3.2.1]
                        exact hside
                      · exact hsame3.1
                      · intro f hf
                        have hf2 : f ∈ b.bidHeap := hheap ▸ hsuf.subset hf
                        have hts3 : po3.timestamp = e.ts := by
                          rw [hsame3.2.2.2.2.2.1]
                          exact htse
                        show keyLe { key := -(-e.key), ts := po3.timestamp, oid := po.id } f
                        rw [neg_neg, hts3]
                        exact hheadLe f hf2
                    · exact bidTradeOk_mono (fun f hf => hheap ▸ hf) (htr t htm2)
                  · intro t r2 hts2
                    injection hts2 with hts3 hts4
                    subst hts3
                    refine ⟨po, ?_, ?_⟩
                    · show olookup b.orders po.id = some po
                      rw [← hpid]
                      exact hpo
                    · intro f hf hlive
                      show keyLe { key := -(-e.key), ts := po.timestamp, oid := po.id } f
                      rw [neg_neg, htse]
                      exact hheadLe f hf

/-! ### Transfer lemmas between loop stages -/

/-- A fill pass that produced no trades left the arena untouched and only
discarded stale (non-live) entries from its heap. -/
def nilPop (m : Arena) (h hF : List HEntry) : Prop :=
  ∀ e ∈ h, e ∈ hF ∨ ∀ oe, olookup m e.oid = some oe → ¬liveSt oe

theorem fillAsksGo_nil (fuel : Nat) (aggId : Nat) :
    ∀ (b bF : Book), fillAsksGo fuel b aggId = (bF, []) →
    bF.orders = b.orders ∧ nilPop b.orders b.askHeap bF.askHeap := by
  induction fuel with
  | zero =>
    intro b bF h
    simp only [fillAsksGo] at h
    injection h with h1 h2
    subst h1
    exact ⟨rfl, fun e he => Or.inl he⟩
  | succ fuel ih =>
    intro b bF h
    simp only [fillAsksGo] at h
    cases hagg : olookup b.orders aggId with
    | none =>
      rw [hagg] at h
      dsimp only at h
      injection h with h1 h2
      subst h1
      exact ⟨rfl, fun e he => Or.inl he⟩
    | some agg =>
      rw [hagg] at h
      dsimp only at h
      by_cases hrem : (0:ℚ) < agg.remaining
      case neg =>
        rw [if_neg hrem] at h
        injection h with h1 h2
        subst h1
        exact ⟨rfl, fun e he => Or.inl he⟩
      case pos =>
      rw [if_pos hrem] at h
      cases hheap : b.askHeap with
      | nil =>
        rw [hheap] at h
        dsimp only at h
        injection h with h1 h2
        subst h1
        exact ⟨rfl, fun e he => absurd he (List.not_mem_nil e)⟩
      | cons e rest =>
        rw [hheap] at h
        dsimp only at h
        cases hpo : olookup b.orders e.oid with
        | none =>
          rw [hpo] at h
          dsimp only at h
          obtain ⟨ho, hp⟩ := ih _ bF h
          refine ⟨ho, fun f hf => ?_⟩
          rcases List.mem_cons.mp hf with rfl | hf2
          · exact Or.inr (fun oe hoe => by rw [hpo] at hoe; cases hoe)
          · exact hp f hf2
        | some po =>
          rw [hpo] at h
          dsimp only at h
          by_cases hterm : isTerminal po
          case pos =>
            rw [if_pos hterm] at h
            obtain ⟨ho, hp⟩ := ih _ bF h
            refine ⟨ho, fun f hf => ?_⟩
            rcases List.mem_cons.mp hf with rfl | hf2
            · refine Or.inr (fun oe hoe => ?_)
              rw [hpo] at hoe
              injection hoe with hoe2
              subst hoe2
              exact isTerminal_true_iff.mp hterm
            · exact hp f hf2
          case neg =>
            rw [if_neg hterm] at h
            by_cases hbreak : agg.order_type = OrderType.limit ∧ limGt e.key agg.price = true
            case pos =>
              rw [if_pos hbreak] at h
              injection h with h1 h2
              subst h1
              refine ⟨rfl, fun f hf => Or.inl ?_⟩
              rw [hheap]
              exact hf
            case neg =>
              rw [if_neg hbreak] at h
              by_cases hz : remOf (fillInArena (fillInArena b.orders aggId
                  (min agg.remaining po.remaining)) e.oid (min agg.remaining po.remaining)) e.oid = 0
              · rw [if_pos hz] at h
                cases hfr : fillAsksGo fuel
                    { b with
                      orders := fillInArena (fillInArena b.orders aggId
                        (min agg.remaining po.remaining)) e.oid (min agg.remaining po.remaining),
                      askHeap := rest,
                      askLevels := purgeLevel (fillInArena (fillInArena b.orders aggId
                        (min agg.remaining po.remaining)) e.oid (min agg.remaining po.remaining))
                        b.askLevels e.key } aggId with
                | mk bR tsR =>
                  rw [hfr] at h
                  dsimp only at h
                  injection h with h1 h2
                  cases h2
              · rw [if_neg hz] at h
                cases hfr : fillAsksGo fuel
                    { b with
                      askHeap := e :: rest,
                      orders := fillInArena (fillInArena b.orders aggId
                        (min agg.remaining po.remaining)) e.oid
                        (min agg.remaining po.remaining) } aggId with
                | mk bR tsR =>
                  rw [hfr] at h
                  dsimp only at h
                  injection h with h1 h2
                  cases h2

theorem fillBidsGo_nil (fuel : Nat) (aggId : Nat) :
    ∀ (b bF : Book), fillBidsGo fuel b aggId = (bF, []) →
    bF.orders = b.orders ∧ nilPop b.orders b.bidHeap bF.bidHeap := by
  induction fuel with
  | zero =>
    intro b bF h
    simp only [fillBidsGo] at h
    injection h with h1 h2
    subst h1
    exact ⟨rfl, fun e he => Or.inl he⟩
  | succ fuel ih =>
    intro b bF h
    simp only [fillBidsGo] at h
    cases hagg : olookup b.orders aggId with
    | none =>
      rw [hagg] at h
      dsimp only at h
      injection h with h1 h2
      subst h1
      exact ⟨rfl, fun e he => Or.inl he⟩
    | some agg =>
      rw [hagg] at h
      dsimp only at h
      by_cases hrem : (0:ℚ) < agg.remaining
      case neg =>
        rw [if_neg hrem] at h
        injection h with h1 h2
        subst h1
        exact ⟨rfl, fun e he => Or.inl he⟩
      case pos =>
      rw [if_pos hrem] at h
      cases hheap : b.bidHeap with
      | nil =>
        rw [hheap] at h
        dsimp only at h
        injection h with h1 h2
        subst h1
        exact ⟨rfl, fun e he => absurd he (List.not_mem_nil e)⟩
      | cons e rest =>
        rw [hheap] at h
        dsimp only at h
        cases hpo : olookup b.orders e.oid with
        | none =>
          rw [hpo] at h
          dsimp only at h
          obtain ⟨ho, hp⟩ := ih _ bF h
          refine ⟨ho, fun f hf => ?_⟩
          rcases List.mem_cons.mp hf with rfl | hf2
          · exact Or.inr (fun oe hoe => by rw [hpo] at hoe; cases hoe)
          · exact hp f hf2
        | some po =>
          rw [hpo] at h
          dsimp only at h
          by_cases hterm : isTerminal po
          case pos =>
            rw [if_pos hterm] at h
            obtain ⟨ho, hp⟩ := ih _ bF h
            refine ⟨ho, fun f hf => ?_⟩
            rcases List.mem_cons.mp hf with rfl | hf2
            · refine Or.inr (fun oe hoe => ?_)
              rw [hpo] at hoe
              injection hoe with hoe2
              subst hoe2
              exact isTerminal_true_iff.mp hterm
            · exact hp f hf2
          case neg =>
            rw [if_neg hterm] at h
            by_cases hbreak : agg.order_type = OrderType.limit ∧ limLt (-e.key) agg.price = true
            case pos =>
              rw [if_pos hbreak] at h
              injection h with h1 h2
              subst h1
              refine ⟨rfl, fun f hf => Or.inl ?_⟩
              rw [hheap]
              exact hf
            case neg =>
              rw [if_neg hbreak] at h
              by_cases hz : remOf (fillInArena (fillInArena b.orders aggId
                  (min agg.remaining po.remaining)) e.oid (min agg.remaining po.remaining)) e.oid = 0
              · rw [if_pos hz] at h
                cases hfr : fillBidsGo fuel
                    { b with
                      orders := fillInArena (fillInArena b.orders aggId
                        (min agg.remaining po.remaining)) e.oid (min agg.remaining po.remaining),
                      bidHeap := rest,
                      bidLevels := purgeLevel (fillInArena (fillInArena b.orders aggId
                        (min agg.remaining po.remaining)) e.oid (min agg.remaining po.remaining))
                        b.bidLevels (-e.key) } aggId with
                | mk bR tsR =>
                  rw [hfr] at h
                  dsimp only at h
                  injection h with h1 h2
                  cases h2
              · rw [if_neg hz] at h
                cases hfr : fillBidsGo fuel
                    { b with
                      bidHeap := e :: rest,
                      orders := fillInArena (fillInArena b.orders aggId
                        (min agg.remaining po.remaining)) e.oid
                        (min agg.remaining po.remaining) } aggId with
                | mk bR tsR =>
                  rw [hfr] at h
                  dsimp only at h
                  injection h with h1 h2
                  cases h2

theorem askTradeOk_step {b b1 b2 : Book} {t : Trade} (h : askTradeOk b b1 t)
    (hext : arenaExt b1.orders b2.orders) (hsub : b2.askHeap ⊆ b1.askHeap) :
    askTradeOk b b2 t := by
  obtain ⟨po, h1, h2, h3, h4, h5, h6, h7⟩ := h
  obtain ⟨po2, hl2, hsame⟩ := hext.1 _ po h1
  refine ⟨po2, hl2, ?_, ?_, ?_, ?_, h6, ?_⟩
  · rw [hsame.2.2.2.2.1]; exact h2
  · rw [hsame.2.2.1]; exact h3
  · rw [hsame.2.1]; exact h4
  · rw [hsame.1]; exact h5
  · intro e he
    have := h7 e (hsub he)
    rwa [← hsame.2.2.2.2.2.1] at this

theorem bidTradeOk_step {b b1 b2 : Book} {t : Trade} (h : bidTradeOk b b1 t)
    (hext : arenaExt b1.orders b2.orders) (hsub : b2.bidHeap ⊆ b1.bidHeap) :
    bidTradeOk b b2 t := by
  obtain ⟨po, h1, h2, h3, h4, h5, h6, h7⟩ := h
  obtain ⟨po2, hl2, hsame⟩ := hext.1 _ po h1
  refine ⟨po2, hl2, ?_, ?_, ?_, ?_, h6, ?_⟩
  · rw [hsame.2.2.2.2.1]; exact h2
  · rw [hsame.2.2.1]; exact h3
  · rw [hsame.2.1]; exact h4
  · rw [hsame.1]; exact h5
  · intro e he
    have := h7 e (hsub he)
    rwa [← hsame.2.2.2.2.2.1] at this

theorem askFirstMin_transfer {b b1 : Book} {t : Trade} (horders : b1.orders = b.orders)
    (hpop : nilPop b.orders b.askHeap b1.askHeap) (h : askFirstMin b1 t) :
    askFirstMin b t := by
  obtain ⟨po, hl, hmin⟩ := h
  rw [horders] at hl
  refine ⟨po, hl, fun e he hlive => ?_⟩
  rcases hpop e he with hin | hstale
  · refine hmin e hin ?_
    rw [horders]
    exact hlive
  · obtain ⟨oe, hoe, holive⟩ := hlive
    exact absurd holive (hstale oe hoe)

theorem bidFirstMin_transfer {b b1 : Book} {t : Trade} (horders : b1.orders = b.orders)
    (hpop : nilPop b.orders b.bidHeap b1.bidHeap) (h : bidFirstMin b1 t) :
    bidFirstMin b t := by
  obtain ⟨po, hl, hmin⟩ := h
  rw [horders] at hl
  refine ⟨po, hl, fun e he hlive => ?_⟩
  rcases hpop e he with hin | hstale
  · refine hmin e hin ?_
    rw [horders]
    exact hlive
  · obtain ⟨oe, hoe, holive⟩ := hlive
    exact absurd holive (hstale oe hoe)

/-! ### Masters for the outer matching loops, ask side -/

theorem marketAsksGo_master (fuel : Nat) (aggId : Nat) :
    ∀ (b bF : Book) (ts : List Trade), marketAsksGo fuel b aggId = (bF, ts) →
    bF.trades = b.trades ∧ bF.total_trades = b.total_trades ∧
    bF.total_volume = b.total_volume ∧ bF.bidHeap = b.bidHeap ∧
    bF.bidLevels = b.bidLevels ∧ arenaExt b.orders bF.orders ∧
    bF.askHeap <:+ b.askHeap ∧
    (BookInv b → BookInv bF ∧ (∀ t ∈ ts, askTradeOk b bF t) ∧
      (∀ t r2, ts = t :: r2 → askFirstMin b t)) := by
  induction fuel with
  | zero =>
    intro b bF ts h
    simp only [marketAsksGo] at h
    injection h with h1 h2
    exact fillMasterId h1.symm h2.symm
  | succ fuel ih =>
    intro b bF ts h
    simp only [marketAsksGo] at h
    cases hagg : olookup b.orders aggId with
    | none =>
      rw [hagg] at h
      dsimp only at h
      injection h with h1 h2
      exact fillMasterId h1.symm h2.symm
    | some agg =>
      rw [hagg] at h
      dsimp only at h
      by_cases hg : (decide (0 < agg.remaining) && !b.askHeap.isEmpty) = true
      case neg =>
        rw [if_neg hg] at h
        injection h with h1 h2
        exact fillMasterId h1.symm h2.symm
      case pos =>
      rw [if_pos hg] at h
      cases hr : fill_from_asks b aggId with
      | mk b1 ts1 =>
        rw [hr] at h
        have hr2 : fillAsksGo (b.askHeap.length + 2) b aggId = (b1, ts1) := hr
        obtain ⟨f1, f2, f3, f4, f5, fext, fsuf, finv⟩ :=
          fillAsksGo_master (b.askHeap.length + 2) aggId b b1 ts1 hr2
        by_cases hempty : b1.askHeap.isEmpty = true
        · rw [if_pos hempty] at h
          injection h with h1 h2
          subst h1
          subst h2
          exact ⟨f1, f2, f3, f4, f5, fext, fsuf, finv⟩
        · rw [if_neg hempty] at h
          cases hs : marketAsksGo fuel b1 aggId with
          | mk b2 ts2 =>
            rw [hs] at h
            dsimp only at h
            injection h with h1 h2
            subst h1
            subst h2
            obtain ⟨g1, g2, g3, g4, g5, gext, gsuf, ginv⟩ := ih b1 b2 ts2 hs
            refine ⟨g1.trans f1, g2.trans f2, g3.trans f3, g4.trans f4, g5.trans f5,
              arenaExt_trans fext gext, gsuf.trans fsuf, fun hI => ?_⟩
            obtain ⟨hI1, ftr, ffm⟩ := finv hI
            obtain ⟨hI2, gtr, gfm⟩ := ginv hI1
            refine ⟨hI2, ?_, ?_⟩
            · intro t htm
              rcases List.mem_append.mp htm with hm1 | hm2
              · exact askTradeOk_step (ftr t hm1) gext gsuf.subset
              · exact askTradeOk_mono fsuf.subset (gtr t hm2)
            · intro t r2 hts2
              cases hts1 : ts1 with
              | cons t0 r0 =>
                rw [hts1, List.cons_append] at hts2
                injection hts2 with ha hb
                subst ha
                exact ffm t0 r0 hts1
              | nil =>
                rw [hts1, List.nil_append] at hts2
                rw [hts1] at hr2
                obtain ⟨horders, hpop⟩ := fillAsksGo_nil _ aggId b b1 hr2
                exact askFirstMin_transfer horders hpop (gfm t r2 hts2)

theorem limitAsksGo_master (fuel : Nat) (aggId : Nat) :
    ∀ (b bF : Book) (ts : List Trade), limitAsksGo fuel b aggId = (bF, ts) →
    bF.trades = b.trades ∧ bF.total_trades = b.total_trades ∧
    bF.total_volume = b.total_volume ∧ bF.bidHeap = b.bidHeap ∧
    bF.bidLevels = b.bidLevels ∧ arenaExt b.orders bF.orders ∧
    bF.askHeap <:+ b.askHeap ∧
    (BookInv b → BookInv bF ∧ (∀ t ∈ ts, askTradeOk b bF t) ∧
      (∀ t r2, ts = t :: r2 → askFirstMin b t)) := by
  induction fuel with
  | zero =>
    intro b bF ts h
    simp only [limitAsksGo] at h
    injection h with h1 h2
    exact fillMasterId h1.symm h2.symm
  | succ fuel ih =>
    intro b bF ts h
    simp only [limitAsksGo] at h
    cases hagg : olookup b.orders aggId with
    | none =>
      rw [hagg] at h
      dsimp only at h
      injection h with h1 h2
      exact fillMasterId h1.symm h2.symm
    | some agg =>
      rw [hagg] at h
      dsimp only at h
      by_cases hg : (decide (0 < agg.remaining) && headLeLim b.askHeap agg.price) = true
      case neg =>
        rw [if_neg hg] at h
        injection h with h1 h2
        exact fillMasterId h1.symm h2.symm
      case pos =>
      rw [if_pos hg] at h
      cases hr : fill_from_asks b aggId with
      | mk b1 ts1 =>
        rw [hr] at h
        have hr2 : fillAsksGo (b.askHeap.length + 2) b aggId = (b1, ts1) := hr
        obtain ⟨f1, f2, f3, f4, f5, fext, fsuf, finv⟩ :=
          fillAsksGo_master (b.askHeap.length + 2) aggId b b1 ts1 hr2
        cases hs : limitAsksGo fuel b1 aggId with
        | mk b2 ts2 =>
          rw [hs] at h
          dsimp only at h
          injection h with h1 h2
          subst h1
          subst h2
          obtain ⟨g1, g2, g3, g4, g5, gext, gsuf, ginv⟩ := ih b1 b2 ts2 hs
          refine ⟨g1.trans f1, g2.trans f2, g3.trans f3, g4.trans f4, g5.trans f5,
            arenaExt_trans fext gext, gsuf.trans fsuf, fun hI => ?_⟩
          obtain ⟨hI1, ftr, ffm⟩ := finv hI
          obtain ⟨hI2, gtr, gfm⟩ := ginv hI1
          refine ⟨hI2, ?_, ?_⟩
          · intro t htm
            rcases List.mem_append.mp htm with hm1 | hm2
            · exact askTradeOk_step (ftr t hm1) gext gsuf.subset
            · exact askTradeOk_mono fsuf.subset (gtr t hm2)
          · intro t r2 hts2
            cases hts1 : ts1 with
            | cons t0 r0 =>
              rw [hts1, List.cons_append] at hts2
              injection hts2 with ha hb
              subst ha
              exact ffm t0 r0 hts1
            | nil =>
              rw [hts1, List.nil_append] at hts2
              rw [hts1] at hr2
              obtain ⟨horders, hpop⟩ := fillAsksGo_nil _ aggId b b1 hr2
              exact askFirstMin_transfer horders hpop (gfm t r2 hts2)

/-! ### Masters for the outer matching loops, bid side -/

theorem marketBidsGo_master (fuel : Nat) (aggId : Nat) :
    ∀ (b bF : Book) (ts : List Trade), marketBidsGo fuel b aggId = (bF, ts) →
    bF.trades = b.trades ∧ bF.total_trades = b.total_trades ∧
    bF.total_volume = b.total_volume ∧ bF.askHeap = b.askHeap ∧
    bF.askLevels = b.askLevels ∧ arenaExt b.orders bF.orders ∧
    bF.bidHeap <:+ b.bidHeap ∧
    (BookInv b → BookInv bF ∧ (∀ t ∈ ts, bidTradeOk b bF t) ∧
      (∀ t r2, ts = t :: r2 → bidFirstMin b t)) := by
  induction fuel with
  | zero =>
    intro b bF ts h
    simp only [marketBidsGo] at h
    injection h with h1 h2
    exact fillMasterIdBid h1.symm h2.symm
  | succ fuel ih =>
    intro b bF ts h
    simp only [marketBidsGo] at h
    cases hagg : olookup b.orders aggId with
    | none =>
      rw [hagg] at h
      dsimp only at h
      injection h with h1 h2
      exact fillMasterIdBid h1.symm h2.symm
    | some agg =>
      rw [hagg] at h
      dsimp only at h
      by_cases hg : (decide (0 < agg.remaining) && !b.bidHeap.isEmpty) = true
      case neg =>
        rw [if_neg hg] at h
        injection h with h1 h2
        exact fillMasterIdBid h1.symm h2.symm
      case pos =>
      rw [if_pos hg] at h
      cases hr : fill_from_bids b aggId with
      | mk b1 ts1 =>
        rw [hr] at h
        have hr2 : fillBidsGo (b.bidHeap.length + 2) b aggId = (b1, ts1) := hr
        obtain ⟨f1, f2, f3, f4, f5, fext, fsuf, finv⟩ :=
          fillBidsGo_master (b.bidHeap.length + 2) aggId b b1 ts1 hr2
        by_cases hempty : b1.bidHeap.isEmpty = true
        · rw [if_pos hempty] at h
          injection h with h1 h2
          subst h1
          subst h2
          exact ⟨f1, f2, f3, f4, f5, fext, fsuf, finv⟩
        · rw [if_neg hempty] at h
          cases hs : marketBidsGo fuel b1 aggId with
          | mk b2 ts2 =>
            rw [hs] at h
            dsimp only at h
            injection h with h1 h2
            subst h1
            subst h2
            obtain ⟨g1, g2, g3, g4, g5, gext, gsuf, ginv⟩ := ih b1 b2 ts2 hs
            refine ⟨g1.trans f1, g2.trans f2, g3.trans f3, g4.trans f4, g5.trans f5,
              arenaExt_trans fext gext, gsuf.trans fsuf, fun hI => ?_⟩
            obtain ⟨hI1, ftr, ffm⟩ := finv hI
            obtain ⟨hI2, gtr, gfm⟩ := ginv hI1
            refine ⟨hI2, ?_, ?_⟩
            · intro t htm
              rcases List.mem_append.mp htm with hm1 | hm2
              · exact bidTradeOk_step (ftr t hm1) gext gsuf.subset
              · exact bidTradeOk_mono fsuf.subset (gtr t hm2)
            · intro t r2 hts2
              cases hts1 : ts1 with
              | cons t0 r0 =>
                rw [hts1, List.cons_append] at hts2
                injection hts2 with ha hb
                subst ha
                exact ffm t0 r0 hts1
              | nil =>
                rw [hts1, List.nil_append] at hts2
                rw [hts1] at hr2
                obtain ⟨horders, hpop⟩ := fillBidsGo_nil _ aggId b b1 hr2
                exact bidFirstMin_transfer horders hpop (gfm t r2 hts2)

theorem limitBidsGo_master (fuel : Nat) (aggId : Nat) :
    ∀ (b bF : Book) (ts : List Trade), limitBidsGo fuel b aggId = (bF, ts) →
    bF.trades = b.trades ∧ bF.total_trades = b.total_trades ∧
    bF.total_volume = b.total_volume ∧ bF.askHeap = b.askHeap ∧
    bF.askLevels = b.askLevels ∧ arenaExt b.orders bF.orders ∧
    bF.bidHeap <:+ b.bidHeap ∧
    (BookInv b → BookInv bF ∧ (∀ t ∈ ts, bidTradeOk b bF t) ∧
      (∀ t r2, ts = t :: r2 → bidFirstMin b t)) := by
  induction fuel with
  | zero =>
    intro b bF ts h
    simp only [limitBidsGo] at h
    injection h with h1 h2
    exact fillMasterIdBid h1.symm h2.symm
  | succ fuel ih =>
    intro b bF ts h
    simp only [limitBidsGo] at h
    cases hagg : olookup b.orders aggId with
    | none =>
      rw [hagg] at h
      dsimp only at h
      injection h with h1 h2
      exact fillMasterIdBid h1.symm h2.symm
    | some agg =>
      rw [hagg] at h
      dsimp only at h
      by_cases hg : (decide (0 < agg.remaining) && headGeLim b.bidHeap agg.price) = true
      case neg =>
        rw [if_neg hg] at h
        injection h with h1 h2
        exact fillMasterIdBid h1.symm h2.symm
      case pos =>
      rw [if_pos hg] at h
      cases hr : fill_from_bids b aggId with
      | mk b1 ts1 =>
        rw [hr] at h
        have hr2 : fillBidsGo (b.bidHeap.length + 2) b aggId = (b1, ts1) := hr
        obtain ⟨f1, f2, f3, f4, f5, fext, fsuf, finv⟩ :=
          fillBidsGo_master (b.bidHeap.length + 2) aggId b b1 ts1 hr2
        cases hs : limitBidsGo fuel b1 aggId with
        | mk b2 ts2 =>
          rw [hs] at h
          dsimp only at h
          injection h with h1 h2
          subst h1
          subst h2
          obtain ⟨g1, g2, g3, g4, g5, gext, gsuf, ginv⟩ := ih b1 b2 ts2 hs
          refine ⟨g1.trans f1, g2.trans f2, g3.trans f3, g4.trans f4, g5.trans f5,
            arenaExt_trans fext gext, gsuf.trans fsuf, fun hI => ?_⟩
          obtain ⟨hI1, ftr, ffm⟩ := finv hI
          obtain ⟨hI2, gtr, gfm⟩ := ginv hI1
          refine ⟨hI2, ?_, ?_⟩
          · intro t htm
            rcases List.mem_append.mp htm with hm1 | hm2
            · exact bidTradeOk_step (ftr t hm1) gext gsuf.subset
            · exact bidTradeOk_mono fsuf.subset (gtr t hm2)
          · intro t r2 hts2
            cases hts1 : ts1 with
            | cons t0 r0 =>
              rw [hts1, List.cons_append] at hts2
              injection hts2 with ha hb
              subst ha
              exact ffm t0 r0 hts1
            | nil =>
              rw [hts1, List.nil_append] at hts2
              rw [hts1] at hr2
              obtain ⟨horders, hpop⟩ := fillBidsGo_nil _ aggId b b1 hr2
              exact bidFirstMin_transfer horders hpop (gfm t r2 hts2)


/-! ### Masters for the match dispatchers -/

theorem ArenaInv_setStatus {m : Arena} {k : Nat} {agg : Order} (h : ArenaInv m)
    (hl : olookup m k = some agg) (s : OStatus) :
    ArenaInv (oset m k { agg with status := s }) := by
  have hmem := olookup_mem hl
  exact ArenaInv_oset h (h.1 _ hmem) (h.2.1 _ hmem) (h.2.2.1 _ hmem)
    (TsOK_oset_same_ts h.2.2.2 hl rfl)

theorem BookInv_setOrders {b : Book} {m2 : Arena} (hI : BookInv b)
    (ha : ArenaInv m2) (hext : arenaExt b.orders m2) :
    BookInv { b with orders := m2 } :=
  { arena := ha
    askS := HeapSound_transfer hI.askS hext (fun _ hf => hf)
    bidS := HeapSound_transfer hI.bidS hext (fun _ hf => hf)
    askSorted := hI.askSorted
    bidSorted := hI.bidSorted
    tCount := hI.tCount
    tVol := hI.tVol }

theorem add_to_bids_master (b : Book) (aggId : Nat) :
    (add_to_bids b aggId).orders = b.orders ∧
    (add_to_bids b aggId).askHeap = b.askHeap ∧
    (add_to_bids b aggId).askLevels = b.askLevels ∧
    (add_to_bids b aggId).trades = b.trades ∧
    (add_to_bids b aggId).total_trades = b.total_trades ∧
    (add_to_bids b aggId).total_volume = b.total_volume ∧
    (BookInv b → (∀ o, olookup b.orders aggId = some o →
        o.side = Side.buy ∧ o.order_type = OrderType.limit) →
      BookInv (add_to_bids b aggId)) := by
  cases hlo : olookup b.orders aggId with
  | none =>
    have hb : add_to_bids b aggId = b := by simp only [add_to_bids, hlo]
    rw [hb]
    exact ⟨rfl, rfl, rfl, rfl, rfl, rfl, fun hI _ => hI⟩
  | some o =>
    cases hp : o.price with
    | none =>
      have hb : add_to_bids b aggId = b := by simp only [add_to_bids, hlo, hp]
      rw [hb]
      exact ⟨rfl, rfl, rfl, rfl, rfl, rfl, fun hI _ => hI⟩
    | some p =>
      have hb : add_to_bids b aggId =
          { b with
            bidLevels := lset b.bidLevels p
              (((llookup b.bidLevels p).getD
                { price := p, orders := [], total_quantity := 0 }).add_order o),
            bidHeap := insertEntry { key := -p, ts := o.timestamp, oid := o.id } b.bidHeap } := by
        simp only [add_to_bids, hlo, hp]
      rw [hb]
      refine ⟨rfl, rfl, rfl, rfl, rfl, rfl, fun hI hside => ?_⟩
      have hid : aggId = o.id := hI.arena.2.1 (aggId, o) (olookup_mem hlo)
      exact
        { arena := hI.arena
          askS := hI.askS
          bidS := by
            intro f hf
            rcases mem_insertEntry.mp hf with rfl | hf2
            · refine ⟨o, ?_, ?_, rfl, (hside o rfl).1, (hside o rfl).2⟩
              · show olookup b.orders o.id = some o
                rw [← hid]
                exact hlo
              · show o.price = some (-(-p))
                rw [neg_neg]
                exact hp
            · exact hI.bidS f hf2
          askSorted := hI.askSorted
          bidSorted := pairwise_insertEntry hI.bidSorted
          tCount := hI.tCount
          tVol := hI.tVol }

theorem add_to_asks_master (b : Book) (aggId : Nat) :
    (add_to_asks b aggId).orders = b.orders ∧
    (add_to_asks b aggId).bidHeap = b.bidHeap ∧
    (add_to_asks b aggId).bidLevels = b.bidLevels ∧
    (add_to_asks b aggId).trades = b.trades ∧
    (add_to_asks b aggId).total_trades = b.total_trades ∧
    (add_to_asks b aggId).total_volume = b.total_volume ∧
    (BookInv b → (∀ o, olookup b.orders aggId = some o →
        o.side = Side.sell ∧ o.order_type = OrderType.limit) →
      BookInv (add_to_asks b aggId)) := by
  cases hlo : olookup b.orders aggId with
  | none =>
    have hb : add_to_asks b aggId = b := by simp only [add_to_asks, hlo]
    rw [hb]
    exact ⟨rfl, rfl, rfl, rfl, rfl, rfl, fun hI _ => hI⟩
  | some o =>
    cases hp : o.price with
    | none =>
      have hb : add_to_asks b aggId = b := by simp only [add_to_asks, hlo, hp]
      rw [hb]
      exact ⟨rfl, rfl, rfl, rfl, rfl, rfl, fun hI _ => hI⟩
    | some p =>
      have hb : add_to_asks b aggId =
          { b with
            askLevels := lset b.askLevels p
              (((llookup b.askLevels p).getD
                { price := p, orders := [], total_quantity := 0 }).add_order o),
            askHeap := insertEntry { key := p, ts := o.timestamp, oid := o.id } b.askHeap } := by
        simp only [add_to_asks, hlo, hp]
      rw [hb]
      refine ⟨rfl, rfl, rfl, rfl, rfl, rfl, fun hI hside => ?_⟩
      have hid : aggId = o.id := hI.arena.2.1 (aggId, o) (olookup_mem hlo)
      exact
        { arena := hI.arena
          bidS := hI.bidS
          askS := by
            intro f hf
            rcases mem_insertEntry.mp hf with rfl | hf2
            · refine ⟨o, ?_, hp, rfl, (hside o rfl).1, (hside o rfl).2⟩
              show olookup b.orders o.id = some o
              rw [← hid]
              exact hlo
            · exact hI.askS f hf2
          bidSorted := hI.bidSorted
          askSorted := pairwise_insertEntry hI.askSorted
          tCount := hI.tCount
          tVol := hI.tVol }

theorem match_limit_order_master (b : Book) (aggId : Nat) (bF : Book) (ts : List Trade)
    (agg0 : Order) (hagg : olookup b.orders aggId = some agg0)
    (hlim : agg0.order_type = OrderType.limit)
    (h : match_limit_order b aggId = (bF, ts)) :
    bF.trades = b.trades ∧ bF.total_trades = b.total_trades ∧
    bF.total_volume = b.total_volume ∧ arenaExt b.orders bF.orders ∧
    (BookInv b → BookInv bF ∧
      (agg0.side = Side.buy →
        (∀ t ∈ ts, askTradeOk b bF t) ∧ (∀ t r2, ts = t :: r2 → askFirstMin b t)) ∧
      (agg0.side = Side.sell →
        (∀ t ∈ ts, bidTradeOk b bF t) ∧ (∀ t r2, ts = t :: r2 → bidFirstMin b t))) := by
  rw [match_limit_order, hagg] at h
  dsimp only at h
  by_cases hside : agg0.side = Side.buy
  · rw [if_pos hside] at h
    cases hr : limitAsksGo (b.askHeap.length + 2) b aggId with
    | mk b1 ts1 =>
      rw [hr] at h
      dsimp only at h
      obtain ⟨f1, f2, f3, f4, f5, fext, fsuf, finv⟩ :=
        limitAsksGo_master (b.askHeap.length + 2) aggId b b1 ts1 hr
      obtain ⟨agg1, hl1, hsame1⟩ := fext.1 aggId agg0 hagg
      rw [hl1] at h
      dsimp only at h
      obtain ⟨a1, a2, a3, a4, a5, a6, ainv⟩ := add_to_bids_master b1 aggId
      by_cases hq : 0 < agg1.remaining ∧ agg1.status ≠ OStatus.filled
      · rw [if_pos hq] at h
        injection h with h1 h2
        subst h1
        subst h2
        have hextA : arenaExt b1.orders (add_to_bids b1 aggId).orders := by
          rw [a1]
          exact arenaExt_refl _
        refine ⟨a4.trans f1, a5.trans f2, a6.trans f3, arenaExt_trans fext hextA,
          fun hI => ?_⟩
        obtain ⟨hI1, ftr, ffm⟩ := finv hI
        refine ⟨ainv hI1 ?_, ?_, ?_⟩
        · intro o2 hl2
          rw [hl1] at hl2
          injection hl2 with hl3
          subst hl3
          exact ⟨by rw [hsame1.2.1, hside], by rw [hsame1.2.2.1, hlim]⟩
        · intro _
          refine ⟨fun t htm => ?_, fun t r2 hts2 => ffm t r2 hts2⟩
          refine askTradeOk_step (ftr t htm) hextA ?_
          rw [a2]
          exact fun f hf => hf
        · intro hs
          rw [hside] at hs
          cases hs
      · rw [if_neg hq] at h
        injection h with h1 h2
        subst h1
        subst h2
        refine ⟨f1, f2, f3, fext, fun hI => ?_⟩
        obtain ⟨hI1, ftr, ffm⟩ := finv hI
        refine ⟨hI1, fun _ => ⟨ftr, ffm⟩, fun hs => ?_⟩
        rw [hside] at hs
        cases hs
  · rw [if_neg hside] at h
    have hsell : agg0.side = Side.sell := by
      cases hs2 : agg0.side
      · exact absurd hs2 hside
      · rfl
    cases hr : limitBidsGo (b.bidHeap.length + 2) b aggId with
    | mk b1 ts1 =>
      rw [hr] at h
      dsimp only at h
      obtain ⟨f1, f2, f3, f4, f5, fext, fsuf, finv⟩ :=
        limitBidsGo_master (b.bidHeap.length + 2) aggId b b1 ts1 hr
      obtain ⟨agg1, hl1, hsame1⟩ := fext.1 aggId agg0 hagg
      rw [hl1] at h
      dsimp only at h
      obtain ⟨a1, a2, a3, a4, a5, a6, ainv⟩ := add_to_asks_master b1 aggId
      by_cases hq : 0 < agg1.remaining ∧ agg1.status ≠ OStatus.filled
      · rw [if_pos hq] at h
        injection h with h1 h2
        subst h1
        subst h2
        have hextA : arenaExt b1.orders (add_to_asks b1 aggId).orders := by
          rw [a1]
          exact arenaExt_refl _
        refine ⟨a4.trans f1, a5.trans f2, a6.trans f3, arenaExt_trans fext hextA,
          fun hI => ?_⟩
        obtain ⟨hI1, ftr, ffm⟩ := finv hI
        refine ⟨ainv hI1 ?_, ?_, ?_⟩
        · intro o2 hl2
          rw [hl1] at hl2
          injection hl2 with hl3
          subst hl3
          exact ⟨by rw [hsame1.2.1, hsell], by rw [hsame1.2.2.1, hlim]⟩
        · intro hs
          rw [hsell] at hs
          cases hs
        · intro _
          refine ⟨fun t htm => ?_, fun t r2 hts2 => ffm t r2 hts2⟩
          refine bidTradeOk_step (ftr t htm) hextA ?_
          rw [a2]
          exact fun f hf => hf
      · rw [if_neg hq] at h
        injection h with h1 h2
        subst h1
        subst h2
        refine ⟨f1, f2, f3, fext, fun hI => ?_⟩
        obtain ⟨hI1, ftr, ffm⟩ := finv hI
        refine ⟨hI1, fun hs => ?_, fun _ => ⟨ftr, ffm⟩⟩
        rw [hsell] at hs
        cases hs

theorem match_market_order_master (b : Book) (aggId : Nat) (bF : Book) (ts : List Trade)
    (agg0 : Order) (hagg : olookup b.orders aggId = some agg0)
    (h : match_market_order b aggId = (bF, ts)) :
    bF.trades = b.trades ∧ bF.total_trades = b.total_trades ∧
    bF.total_volume = b.total_volume ∧ arenaExt b.orders bF.orders ∧
    (BookInv b → BookInv bF ∧
      (agg0.side = Side.buy →
        (∀ t ∈ ts, askTradeOk b bF t) ∧ (∀ t r2, ts = t :: r2 → askFirstMin b t)) ∧
      (agg0.side = Side.sell →
        (∀ t ∈ ts, bidTradeOk b bF t) ∧ (∀ t r2, ts = t :: r2 → bidFirstMin b t))) := by
  rw [match_market_order, hagg] at h
  dsimp only at h
  by_cases hside : agg0.side = Side.buy
  · rw [if_pos hside] at h
    cases hr : marketAsksGo (b.askHeap.length + 2) b aggId with
    | mk b1 ts1 =>
      rw [hr] at h
      dsimp only at h
      obtain ⟨f1, f2, f3, f4, f5, fext, fsuf, finv⟩ :=
        marketAsksGo_master (b.askHeap.length + 2) aggId b b1 ts1 hr
      obtain ⟨agg1, hl1, hsame1⟩ := fext.1 aggId agg0 hagg
      rw [hl1] at h
      dsimp only at h
      by_cases hq : (0:ℚ) < agg1.remaining
      · rw [if_pos hq] at h
        injection h with h1 h2
        subst h1
        subst h2
        have hextA : arenaExt b1.orders
            (oset b1.orders aggId { agg1 with status := OStatus.partFilled }) :=
          arenaExt_oset_of_same hl1 ⟨rfl, rfl, rfl, rfl, rfl, rfl, rfl⟩
        refine ⟨f1, f2, f3, arenaExt_trans fext hextA, fun hI => ?_⟩
        obtain ⟨hI1, ftr, ffm⟩ := finv hI
        refine ⟨BookInv_setOrders hI1 (ArenaInv_setStatus hI1.arena hl1 _) hextA, ?_, ?_⟩
        · intro _
          exact ⟨fun t htm => askTradeOk_step (ftr t htm) hextA (fun f hf => hf),
            fun t r2 hts2 => ffm t r2 hts2⟩
        · intro hs
          rw [hside] at hs
          cases hs
      · rw [if_neg hq] at h
        injection h with h1 h2
        subst h1
        subst h2
        refine ⟨f1, f2, f3, fext, fun hI => ?_⟩
        obtain ⟨hI1, ftr, ffm⟩ := finv hI
        refine ⟨hI1, fun _ => ⟨ftr, ffm⟩, fun hs => ?_⟩
        rw [hside] at hs
        cases hs
  · rw [if_neg hside] at h
    have hsell : agg0.side = Side.sell := by
      cases hs2 : agg0.side
      · exact absurd hs2 hside
      · rfl
    cases hr : marketBidsGo (b.bidHeap.length + 2) b aggId with
    | mk b1 ts1 =>
      rw [hr] at h
      dsimp only at h
      obtain ⟨f1, f2, f3, f4, f5, fext, fsuf, finv⟩ :=
        marketBidsGo_master (b.bidHeap.length + 2) aggId b b1 ts1 hr
      obtain ⟨agg1, hl1, hsame1⟩ := fext.1 aggId agg0 hagg
      rw [hl1] at h
      dsimp only at h
      by_cases hq : (0:ℚ) < agg1.remaining
      · rw [if_pos hq] at h
        injection h with h1 h2
        subst h1
        subst h2
        have hextA : arenaExt b1.orders
            (oset b1.orders aggId { agg1 with status := OStatus.partFilled }) :=
          arenaExt_oset_of_same hl1 ⟨rfl, rfl, rfl, rfl, rfl, rfl, rfl⟩
        refine ⟨f1, f2, f3, arenaExt_trans fext hextA, fun hI => ?_⟩
        obtain ⟨hI1, ftr, ffm⟩ := finv hI
        refine ⟨BookInv_setOrders hI1 (ArenaInv_setStatus hI1.arena hl1 _) hextA, ?_, ?_⟩
        · intro hs
          rw [hsell] at hs
          cases hs
        · intro _
          exact ⟨fun t htm => bidTradeOk_step (ftr t htm) hextA (fun f hf => hf),
            fun t r2 hts2 => ffm t r2 hts2⟩
      · rw [if_neg hq] at h
        injection h with h1 h2
        subst h1
        subst h2
        refine ⟨f1, f2, f3, fext, fun hI => ?_⟩
        obtain ⟨hI1, ftr, ffm⟩ := finv hI
        refine ⟨hI1, fun hs => ?_, fun _ => ⟨ftr, ffm⟩⟩
        rw [hsell] at hs
        cases hs

/-! ### Invariance of registration, cancellation and queries -/

theorem BookInv_setOrdersLevels {b : Book} {m2 : Arena} (lb la : Levels) (hI : BookInv b)
    (ha : ArenaInv m2) (hext : arenaExt b.orders m2) :
    BookInv { b with orders := m2, bidLevels := lb, askLevels := la } :=
  { arena := ha
    askS := HeapSound_transfer hI.askS hext (fun _ hf => hf)
    bidS := HeapSound_transfer hI.bidS hext (fun _ hf => hf)
    askSorted := hI.askSorted
    bidSorted := hI.bidSorted
    tCount := hI.tCount
    tVol := hI.tVol }

theorem BookInv_register {b : Book} {o : Order} (hI : BookInv b) (hw : WfNew b o) :
    BookInv { b with orders := oset b.orders o.id o } := by
  have hArena : ArenaInv (oset b.orders o.id o) := by
    refine ArenaInv_oset hI.arena ?_ rfl hw.prc
      (TsOK_oset_fresh hI.arena.2.2.2 hw.freshTs)
    rw [hw.fil, hw.rem]
    exact zero_add _
  have hlk : ∀ oid o2, olookup b.orders oid = some o2 →
      olookup (oset b.orders o.id o) oid = some o2 := by
    intro oid o2 hl
    have hne : o.id ≠ oid := by
      intro hc
      rw [← hc] at hl
      rw [hw.fresh] at hl
      cases hl
    rw [olookup_oset_ne b.orders o.id oid o hne]
    exact hl
  exact
    { arena := hArena
      askS := by
        intro e he
        obtain ⟨o2, hl, hrest⟩ := hI.askS e he
        exact ⟨o2, hlk e.oid o2 hl, hrest⟩
      bidS := by
        intro e he
        obtain ⟨o2, hl, hrest⟩ := hI.bidS e he
        exact ⟨o2, hlk e.oid o2 hl, hrest⟩
      askSorted := hI.askSorted
      bidSorted := hI.bidSorted
      tCount := hI.tCount
      tVol := hI.tVol }

theorem BookInv_appendTrades {b2 : Book} (ts : List Trade) (hI : BookInv b2) :
    BookInv { b2 with trades := b2.trades ++ ts,
                      total_trades := b2.total_trades + ts.length,
                      total_volume := b2.total_volume + (ts.map Trade.quantity).sum } :=
  { arena := hI.arena
    askS := hI.askS
    bidS := hI.bidS
    askSorted := hI.askSorted
    bidSorted := hI.bidSorted
    tCount := by
      show b2.total_trades + ts.length = (b2.trades ++ ts).length
      rw [hI.tCount, List.length_append]
    tVol := by
      show b2.total_volume + (ts.map Trade.quantity).sum =
        ((b2.trades ++ ts).map Trade.quantity).sum
      rw [hI.tVol, List.map_append, List.sum_append] }

theorem cancel_order_master (b : Book) (oid : Nat) :
    (cancel_order b oid).1.trades = b.trades ∧
    (cancel_order b oid).1.total_trades = b.total_trades ∧
    (cancel_order b oid).1.total_volume = b.total_volume ∧
    (cancel_order b oid).1.bidHeap = b.bidHeap ∧
    (cancel_order b oid).1.askHeap = b.askHeap ∧
    (BookInv b → BookInv (cancel_order b oid).1) := by
  cases hlo : olookup b.orders oid with
  | none =>
    have hb : cancel_order b oid = (b, false) := by rw [cancel_order, hlo]
    rw [hb]
    exact ⟨rfl, rfl, rfl, rfl, rfl, fun hI => hI⟩
  | some o =>
    have hext : arenaExt b.orders (oset b.orders oid o.cancel) :=
      arenaExt_oset_of_same hlo ⟨rfl, rfl, rfl, rfl, rfl, rfl, rfl⟩
    have hArena : BookInv b → ArenaInv (oset b.orders oid o.cancel) := fun hI =>
      ArenaInv_setStatus hI.arena hlo OStatus.cancelled
    rw [cancel_order, hlo]
    dsimp only
    by_cases hside : o.side = Side.buy
    · rw [if_pos hside]
      cases hp : o.price with
      | none =>
        dsimp only
        exact ⟨rfl, rfl, rfl, rfl, rfl, fun hI =>
          BookInv_setOrdersLevels b.bidLevels b.askLevels hI (hArena hI) hext⟩
      | some p =>
        dsimp only
        cases hlv : llookup b.bidLevels p with
        | none =>
          dsimp only
          exact ⟨rfl, rfl, rfl, rfl, rfl, fun hI =>
            BookInv_setOrdersLevels b.bidLevels b.askLevels hI (hArena hI) hext⟩
        | some lvl =>
          dsimp only
          exact ⟨rfl, rfl, rfl, rfl, rfl, fun hI =>
            BookInv_setOrdersLevels _ b.askLevels hI (hArena hI) hext⟩
    · rw [if_neg hside]
      cases hp : o.price with
      | none =>
        dsimp only
        exact ⟨rfl, rfl, rfl, rfl, rfl, fun hI =>
          BookInv_setOrdersLevels b.bidLevels b.askLevels hI (hArena hI) hext⟩
      | some p =>
        dsimp only
        cases hlv : llookup b.askLevels p with
        | none =>
          dsimp only
          exact ⟨rfl, rfl, rfl, rfl, rfl, fun hI =>
            BookInv_setOrdersLevels b.bidLevels b.askLevels hI (hArena hI) hext⟩
        | some lvl =>
          dsimp only
          exact ⟨rfl, rfl, rfl, rfl, rfl, fun hI =>
            BookInv_setOrdersLevels b.bidLevels _ hI (hArena hI) hext⟩

theorem bestAux_suffix (m : Arena) : ∀ h : List HEntry, (bestAux m h).2 <:+ h := by
  intro h
  induction h with
  | nil => exact List.suffix_rfl
  | cons e rest ih =>
    rw [bestAux]
    cases hlo : olookup m e.oid with
    | none => exact ih.trans (List.suffix_cons e rest)
    | some o =>
      dsimp only
      by_cases hl : isLiveBest o = true
      · rw [if_pos hl]
      · rw [if_neg hl]
        exact ih.trans (List.suffix_cons e rest)

theorem best_bid_master (b : Book) :
    (best_bid b).2.orders = b.orders ∧ (best_bid b).2.askHeap = b.askHeap ∧
    (best_bid b).2.trades = b.trades ∧ (best_bid b).2.total_trades = b.total_trades ∧
    (best_bid b).2.total_volume = b.total_volume ∧
    (best_bid b).2.bidLevels = b.bidLevels ∧ (best_bid b).2.askLevels = b.askLevels ∧
    (best_bid b).2.bidHeap <:+ b.bidHeap ∧
    (BookInv b → BookInv (best_bid b).2) := by
  refine ⟨rfl, rfl, rfl, rfl, rfl, rfl, rfl, bestAux_suffix b.orders b.bidHeap, fun hI => ?_⟩
  exact
    { arena := hI.arena
      askS := hI.askS
      bidS := fun e he => hI.bidS e ((bestAux_suffix b.orders b.bidHeap).subset he)
      askSorted := hI.askSorted
      bidSorted := hI.bidSorted.sublist (bestAux_suffix b.orders b.bidHeap).sublist
      tCount := hI.tCount
      tVol := hI.tVol }

theorem best_ask_master (b : Book) :
    (best_ask b).2.orders = b.orders ∧ (best_ask b).2.bidHeap = b.bidHeap ∧
    (best_ask b).2.trades = b.trades ∧ (best_ask b).2.total_trades = b.total_trades ∧
    (best_ask b).2.total_volume = b.total_volume ∧
    (best_ask b).2.bidLevels = b.bidLevels ∧ (best_ask b).2.askLevels = b.askLevels ∧
    (best_ask b).2.askHeap <:+ b.askHeap ∧
    (BookInv b → BookInv (best_ask b).2) := by
  refine ⟨rfl, rfl, rfl, rfl, rfl, rfl, rfl, bestAux_suffix b.orders b.askHeap, fun hI => ?_⟩
  exact
    { arena := hI.arena
      bidS := hI.bidS
      askS := fun e he => hI.askS e ((bestAux_suffix b.orders b.askHeap).subset he)
      bidSorted := hI.bidSorted
      askSorted := hI.askSorted.sublist (bestAux_suffix b.orders b.askHeap).sublist
      tCount := hI.tCount
      tVol := hI.tVol }

/-- Everything `add_order` guarantees, given a well-formed new order and the
book invariant: the invariant is preserved, the history and counters grow by
exactly the produced trades, and each trade matched the best-priced,
earliest live passive order of the opposing side (`askTradeOk`/`askFirstMin`
relative to the book at the start of matching). -/
theorem add_order_master (b : Book) (o : Order) (bF : Book) (ts : List Trade)
    (h : add_order b o = (bF, ts)) (hw : WfNew b o) (hI : BookInv b) :
    BookInv bF ∧ bF.trades = b.trades ++ ts ∧
    bF.total_trades = b.total_trades + ts.length ∧
    bF.total_volume = b.total_volume + (ts.map Trade.quantity).sum ∧
    (o.side = Side.buy →
      (∀ t ∈ ts, askTradeOk { b with orders := oset b.orders o.id o } bF t) ∧
      (∀ t r2, ts = t :: r2 → askFirstMin { b with orders := oset b.orders o.id o } t)) ∧
    (o.side = Side.sell →
      (∀ t ∈ ts, bidTradeOk { b with orders := oset b.orders o.id o } bF t) ∧
      (∀ t r2, ts = t :: r2 → bidFirstMin { b with orders := oset b.orders o.id o } t)) := by
  have hagg : olookup ({ b with orders := oset b.orders o.id o } : Book).orders o.id = some o :=
    olookup_oset_self b.orders o.id o
  have hI0 : BookInv { b with orders := oset b.orders o.id o } := BookInv_register hI hw
  rw [add_order] at h
  dsimp only at h
  by_cases hot : o.order_type = OrderType.market
  · rw [if_pos hot] at h
    cases hm : match_market_order { b with orders := oset b.orders o.id o } o.id with
    | mk b1 ts1 =>
      rw [hm] at h
      dsimp only at h
      injection h with h1 h2
      subst h1
      subst h2
      obtain ⟨m1, m2, m3, mext, minv⟩ :=
        match_market_order_master _ o.id b1 ts1 _ hagg hm
      obtain ⟨hI1, mbuy, msell⟩ := minv hI0
      refine ⟨BookInv_appendTrades ts1 hI1, ?_, ?_, ?_, ?_, ?_⟩
      · show b1.trades ++ ts1 = b.trades ++ ts1
        rw [m1]
      · show b1.total_trades + ts1.length = b.total_trades + ts1.length
        rw [m2]
      · show b1.total_volume + (ts1.map Trade.quantity).sum =
          b.total_volume + (ts1.map Trade.quantity).sum
        rw [m3]
      · intro hside
        obtain ⟨htr, hfm⟩ := mbuy hside
        exact ⟨fun t htm => htr t htm, hfm⟩
      · intro hside
        obtain ⟨htr, hfm⟩ := msell hside
        exact ⟨fun t htm => htr t htm, hfm⟩
  · rw [if_neg hot] at h
    have hlim : o.order_type = OrderType.limit := by
      cases ho2 : o.order_type
      · rfl
      · exact absurd ho2 hot
    cases hm : match_limit_order { b with orders := oset b.orders o.id o } o.id with
    | mk b1 ts1 =>
      rw [hm] at h
      dsimp only at h
      injection h with h1 h2
      subst h1
      subst h2
      obtain ⟨m1, m2, m3, mext, minv⟩ :=
        match_limit_order_master _ o.id b1 ts1 _ hagg hlim hm
      obtain ⟨hI1, mbuy, msell⟩ := minv hI0
      refine ⟨BookInv_appendTrades ts1 hI1, ?_, ?_, ?_, ?_, ?_⟩
      · show b1.trades ++ ts1 = b.trades ++ ts1
        rw [m1]
      · show b1.total_trades + ts1.length = b.total_trades + ts1.length
        rw [m2]
      · show b1.total_volume + (ts1.map Trade.quantity).sum =
          b.total_volume + (ts1.map Trade.quantity).sum
        rw [m3]
      · intro hside
        obtain ⟨htr, hfm⟩ := mbuy hside
        exact ⟨fun t htm => htr t htm, hfm⟩
      · intro hside
        obtain ⟨htr, hfm⟩ := msell hside
        exact ⟨fun t htm => htr t htm, hfm⟩

/-- Every reachable book state satisfies the invariant. -/
theorem Reachable_BookInv {b : Book} (h : Reachable b) : BookInv b := by
  induction h with
  | empty => exact BookInv_emptyBook
  | add hr hw ih =>
    rename_i b2 o
    cases hm : add_order b2 o with
    | mk bF ts => exact (add_order_master b2 o bF ts hm hw ih).1
  | cancel hr ih =>
    rename_i b2 oid
    exact (cancel_order_master b2 oid).2.2.2.2.2 ih
  | queryBid hr ih =>
    rename_i b2
    exact (best_bid_master b2).2.2.2.2.2.2.2.2 ih
  | queryAsk hr ih =>
    rename_i b2
    exact (best_ask_master b2).2.2.2.2.2.2.2.2 ih

/-! ### Facts about the best-price queries -/

theorem isLiveBest_iff {o : Order} : isLiveBest o = true ↔ liveSt o ∧ 0 < o.remaining := by
  simp [isLiveBest, isTerminal, liveSt]

theorem bestAux_idem (m : Arena) : ∀ h : List HEntry,
    bestAux m (bestAux m h).2 = bestAux m h := by
  intro h
  induction h with
  | nil => rfl
  | cons e rest ih =>
    cases hlo : olookup m e.oid with
    | none =>
      have hstep : bestAux m (e :: rest) = bestAux m rest := by
        rw [bestAux, hlo]
      rw [hstep]
      exact ih
    | some o =>
      by_cases hl : isLiveBest o = true
      · have hstep : bestAux m (e :: rest) = (some e, e :: rest) := by
          rw [bestAux, hlo]
          dsimp only
          rw [if_pos hl]
        rw [hstep]
        dsimp only
        rw [hstep]
      · have hstep : bestAux m (e :: rest) = bestAux m rest := by
          rw [bestAux, hlo]
          dsimp only
          rw [if_neg hl]
        rw [hstep]
        exact ih

theorem bestAux_some (m : Arena) : ∀ (h : List HEntry) (e : HEntry),
    (bestAux m h).1 = some e →
    e ∈ h ∧ ∃ o, olookup m e.oid = some o ∧ isLiveBest o = true := by
  intro h
  induction h with
  | nil =>
    intro e he
    cases he
  | cons f rest ih =>
    intro e he
    rw [bestAux] at he
    cases hlo : olookup m f.oid with
    | none =>
      rw [hlo] at he
      dsimp only at he
      obtain ⟨hm, ho⟩ := ih e he
      exact ⟨List.mem_cons_of_mem f hm, ho⟩
    | some o =>
      rw [hlo] at he
      dsimp only at he
      by_cases hl : isLiveBest o = true
      · rw [if_pos hl] at he
        dsimp only at he
        injection he with he2
        subst he2
        exact ⟨List.mem_cons_self f rest, o, hlo, hl⟩
      · rw [if_neg hl] at he
        obtain ⟨hm, ho⟩ := ih e he
        exact ⟨List.mem_cons_of_mem f hm, ho⟩

/-- When `best_bid` reports a price, a live resting buy limit order with
exactly that (positive) price is indexed in the book. -/
theorem best_bid_some_live {b : Book} (hI : BookInv b) {p : ℚ}
    (h : (best_bid b).1 = some p) :
    ∃ o2, (∃ oid, olookup b.orders oid = some o2) ∧ liveSt o2 ∧ 0 < o2.remaining ∧
      o2.price = some p ∧ o2.side = Side.buy ∧ o2.order_type = OrderType.limit ∧ 0 < p := by
  rw [best_bid] at h
  cases he : (bestAux b.orders b.bidHeap).1 with
  | none => rw [he] at h; cases h
  | some e =>
    rw [he] at h
    injection h with h2
    obtain ⟨hm, o, hlo, hlive⟩ := bestAux_some b.orders b.bidHeap e he
    obtain ⟨o2, hlo2, hprice, hts, hside, hot⟩ := hI.bidS e hm
    rw [hlo] at hlo2
    injection hlo2 with hlo3
    subst hlo3
    obtain ⟨hl1, hl2⟩ := isLiveBest_iff.mp hlive
    refine ⟨o, ⟨e.oid, hlo⟩, hl1, hl2, ?_, hside, hot, ?_⟩
    · rw [hprice, h2]
    · have := hI.arena.2.2.1 (e.oid, o) (olookup_mem hlo) (-e.key) hprice
      rw [← h2]
      exact this

/-- When `best_ask` reports a price, a live resting sell limit order with
exactly that (positive) price is indexed in the book. -/
theorem best_ask_some_live {b : Book} (hI : BookInv b) {p : ℚ}
    (h : (best_ask b).1 = some p) :
    ∃ o2, (∃ oid, olookup b.orders oid = some o2) ∧ liveSt o2 ∧ 0 < o2.remaining ∧
      o2.price = some p ∧ o2.side = Side.sell ∧ o2.order_type = OrderType.limit ∧ 0 < p := by
  rw [best_ask] at h
  cases he : (bestAux b.orders b.askHeap).1 with
  | none => rw [he] at h; cases h
  | some e =>
    rw [he] at h
    injection h with h2
    obtain ⟨hm, o, hlo, hlive⟩ := bestAux_some b.orders b.askHeap e he
    obtain ⟨o2, hlo2, hprice, hts, hside, hot⟩ := hI.askS e hm
    rw [hlo] at hlo2
    injection hlo2 with hlo3
    subst hlo3
    obtain ⟨hl1, hl2⟩ := isLiveBest_iff.mp hlive
    refine ⟨o, ⟨e.oid, hlo⟩, hl1, hl2, ?_, hside, hot, ?_⟩
    · rw [hprice, h2]
    · have := hI.arena.2.2.1 (e.oid, o) (olookup_mem hlo) e.key hprice
      rw [← h2]
      exact this

/-! ### Shared concrete books for witnesses -/

/-- A resting limit buy used by several witnesses. -/
def oBid1 : Order := mkOrder Side.buy OrderType.limit 1 (some 68000) "alice" 1 1

/-- A resting limit sell used by several witnesses. -/
def oAsk1 : Order := mkOrder Side.sell OrderType.limit 1 (some 68010) "bob" 1 1

def bookBid1 : Book := (add_order emptyBook oBid1).1

def bookAsk1 : Book := (add_order emptyBook oAsk1).1

theorem wf_oBid1 : WfNew emptyBook oBid1 := by
  refine ⟨rfl, ?_, rfl, rfl, rfl, by norm_num [oBid1, mkOrder], ?_, ?_, ?_⟩
  · intro pr hpr
    cases hpr
  · intro x hx
    injection hx with hx2
    rw [← hx2]
    norm_num
  · intro _
    exact ⟨68000, rfl⟩
  · intro hc
    cases hc

theorem wf_oAsk1 : WfNew emptyBook oAsk1 := by
  refine ⟨rfl, ?_, rfl, rfl, rfl, by norm_num [oAsk1, mkOrder], ?_, ?_, ?_⟩
  · intro pr hpr
    cases hpr
  · intro x hx
    injection hx with hx2
    rw [← hx2]
    norm_num
  · intro _
    exact ⟨68010, rfl⟩
  · intro hc
    cases hc

theorem reachable_bookBid1 : Reachable bookBid1 :=
  Reachable.add Reachable.empty wf_oBid1

theorem reachable_bookAsk1 : Reachable bookAsk1 :=
  Reachable.add Reachable.empty wf_oAsk1

/-! ### Claim C10 -/

/-- C10: after every sequence of `add_order`/`cancel_order` calls (every
reachable book), `total_trades` equals the length of the trade history and
`total_volume` equals the sum of its trade quantities; and `cancel_order`
never changes the history or either counter. -/
theorem counters_match_history :
    (∀ b : Book, Reachable b →
      b.total_trades = b.trades.length ∧
      b.total_volume = (b.trades.map Trade.quantity).sum) ∧
    (∀ (b : Book) (oid : Nat),
      (cancel_order b oid).1.trades = b.trades ∧
      (cancel_order b oid).1.total_trades = b.total_trades ∧
      (cancel_order b oid).1.total_volume = b.total_volume) := by
  constructor
  · intro b hr
    have hI := Reachable_BookInv hr
    exact ⟨hI.tCount, hI.tVol⟩
  · intro b oid
    obtain ⟨h1, h2, h3, _⟩ := cancel_order_master b oid
    exact ⟨h1, h2, h3⟩

/-- Witness for C10 at a one-order book. -/
theorem counters_match_history_witness :
    bookBid1.total_trades = bookBid1.trades.length ∧
    bookBid1.total_volume = (bookBid1.trades.map Trade.quantity).sum :=
  counters_match_history.1 bookBid1 reachable_bookBid1

/-! ### Claim C2 -/

/-- C2: for every order, `filled + remaining` equals the original quantity
after any sequence of `Order.fill`/`Order.cancel` calls; and in every
reachable book (fills applied during matching included) every indexed order
satisfies `filled + remaining = quantity`. -/
theorem fill_conservation :
    (∀ (side : Side) (otype : OrderType) (q : ℚ) (price : Option ℚ) (tid : String)
      (id : Nat) (tstamp : ℚ) (ops : List OrderOp),
      (applyOps (mkOrder side otype q price tid id tstamp) ops).filled +
        (applyOps (mkOrder side otype q price tid id tstamp) ops).remaining = q) ∧
    (∀ b : Book, Reachable b → ∀ p ∈ b.orders,
      p.2.filled + p.2.remaining = p.2.quantity) := by
  constructor
  · intro side otype q price tid id tstamp ops
    have h := applyOps_conserve ops (mkOrder side otype q price tid id tstamp)
      (by simp [mkOrder])
    rw [applyOps_quantity] at h
    exact h
  · intro b hr p hp
    exact (Reachable_BookInv hr).arena.1 p hp

/-- Witness for C2: a partial fill then a cancel on a fresh order, and the
one-order reachable book. -/
theorem fill_conservation_witness :
    ((applyOps (mkOrder Side.buy OrderType.limit 2 (some 10) "carol" 9 4)
        [OrderOp.fillOp 1, OrderOp.cancelOp]).filled +
      (applyOps (mkOrder Side.buy OrderType.limit 2 (some 10) "carol" 9 4)
        [OrderOp.fillOp 1, OrderOp.cancelOp]).remaining = 2) ∧
    (∀ p ∈ bookBid1.orders, p.2.filled + p.2.remaining = p.2.quantity) :=
  ⟨fill_conservation.1 Side.buy OrderType.limit 2 (some 10) "carol" 9 4
      [OrderOp.fillOp 1, OrderOp.cancelOp],
    fill_conservation.2 bookBid1 reachable_bookBid1⟩

/-! ### Claim C5 -/

unseal Rat.add Rat.sub Rat.mul Rat.inv in
/-- C5: `best_bid`/`best_ask` are idempotent between mutations (the second
of two consecutive calls returns the same price and leaves the book
unchanged), the price they report always belongs to a live (non-terminal,
positive-remaining) resting order of the right side, and in particular
(scenario D) after the only resting bid is cancelled `best_bid` reports
absence even though the heap entry was physically present. -/
theorem best_price_stable :
    (∀ b : Book, best_bid (best_bid b).2 = ((best_bid b).1, (best_bid b).2)) ∧
    (∀ b : Book, best_ask (best_ask b).2 = ((best_ask b).1, (best_ask b).2)) ∧
    (∀ b : Book, Reachable b → ∀ p : ℚ, (best_bid b).1 = some p →
      ∃ o2, (∃ oid, olookup b.orders oid = some o2) ∧ liveSt o2 ∧ 0 < o2.remaining ∧
        o2.price = some p ∧ o2.side = Side.buy) ∧
    (∀ b : Book, Reachable b → ∀ p : ℚ, (best_ask b).1 = some p →
      ∃ o2, (∃ oid, olookup b.orders oid = some o2) ∧ liveSt o2 ∧ 0 < o2.remaining ∧
        o2.price = some p ∧ o2.side = Side.sell) ∧
    (best_bid (cancel_order bookBid1 1).1).1 = none := by
  refine ⟨?_, ?_, ?_, ?_, ?_⟩
  · intro b
    simp only [best_bid]
    rw [bestAux_idem]
  · intro b
    simp only [best_ask]
    rw [bestAux_idem]
  · intro b hr p hp
    obtain ⟨o2, h1, h2, h3, h4, h5, _, _⟩ := best_bid_some_live (Reachable_BookInv hr) hp
    exact ⟨o2, h1, h2, h3, h4, h5⟩
  · intro b hr p hp
    obtain ⟨o2, h1, h2, h3, h4, h5, _, _⟩ := best_ask_some_live (Reachable_BookInv hr) hp
    exact ⟨o2, h1, h2, h3, h4, h5⟩
  · decide

/-- Witness for C5 at the one-bid book: the reported best bid 68000 belongs
to a live resting buy order. -/
theorem best_price_stable_witness :
    best_bid (best_bid bookBid1).2 = ((best_bid bookBid1).1, (best_bid bookBid1).2) ∧
    (∃ o2, (∃ oid, olookup bookBid1.orders oid = some o2) ∧ liveSt o2 ∧
      0 < o2.remaining ∧ o2.price = some 68000 ∧ o2.side = Side.buy) :=
  ⟨best_price_stable.1 bookBid1,
    best_price_stable.2.2.1 bookBid1 reachable_bookBid1 68000 (by decide)⟩

/-! ### Claim C7 -/

/-- A reachable book whose best bid is 68000 and best ask 68000.125. -/
def bookSpreadCex : Book :=
  (add_order (add_order emptyBook (mkOrder Side.buy OrderType.limit 1 (some 68000)
    "alice" 1 1)).1 (mkOrder Side.sell OrderType.limit 1 (some (68000 + 1/8)) "bob" 2 2)).1

unseal Rat.add Rat.sub Rat.mul Rat.inv in
theorem wf_spreadCex2 : WfNew (add_order emptyBook (mkOrder Side.buy OrderType.limit 1
    (some 68000) "alice" 1 1)).1 (mkOrder Side.sell OrderType.limit 1
    (some (68000 + 1/8)) "bob" 2 2) := by
  refine ⟨by decide, by decide, rfl, rfl, rfl, by norm_num [mkOrder], ?_, ?_, ?_⟩
  · intro x hx
    injection hx with hx2
    rw [← hx2]
    norm_num
  · intro _
    exact ⟨68000 + 1/8, rfl⟩
  · intro hc
    cases hc

theorem wf_spreadCex1 : WfNew emptyBook (mkOrder Side.buy OrderType.limit 1 (some 68000)
    "alice" 1 1) := by
  refine ⟨rfl, ?_, rfl, rfl, rfl, by norm_num [mkOrder], ?_, ?_, ?_⟩
  · intro pr hpr
    cases hpr
  · intro x hx
    injection hx with hx2
    rw [← hx2]
    norm_num
  · intro _
    exact ⟨68000, rfl⟩
  · intro hc
    cases hc

theorem reachable_bookSpreadCex : Reachable bookSpreadCex :=
  Reachable.add (Reachable.add Reachable.empty wf_spreadCex1) wf_spreadCex2

unseal Rat.add Rat.sub Rat.mul Rat.inv in
/-- C7 fails as stated: on a reachable book with best bid 68000 and best
ask 68000.125 the code returns `round(ask - bid, 2) = 0.12`, not the exact
difference `0.125` the claim asserts (`spread` rounds to two decimals with
ties to even; `0.125` is exactly representable in binary, so the Python
float computation hits this very case). -/
theorem spread_claim_cex :
    (best_bid bookSpreadCex).1 = some 68000 ∧
    (best_ask bookSpreadCex).1 = some (68000 + 1/8) ∧
    (spread bookSpreadCex).1 = some (3/25) ∧
    ((3 : ℚ)/25 ≠ (68000 + 1/8) - 68000) := by
  refine ⟨by decide, by decide, by decide, by norm_num⟩

/-- C7 (amended): `spread()` and `mid_price()` return no value exactly when
`best_bid()` or `best_ask()` reports absence, and never raise; when both
best prices are present, `spread()` returns their difference rounded to two
decimal places (ties to even, as Python's `round`) and `mid_price()` their
exact average. -/
theorem spread_mid_amended : ∀ b : Book, Reachable b →
    ((spread b).1 = none ↔ ((best_bid b).1 = none ∨ (best_ask b).1 = none)) ∧
    ((mid_price b).1 = none ↔ ((best_bid b).1 = none ∨ (best_ask b).1 = none)) ∧
    (∀ bv av, (best_bid b).1 = some bv → (best_ask b).1 = some av →
      (spread b).1 = some (round2 (av - bv)) ∧
      (mid_price b).1 = some ((bv + av) / 2)) := by
  intro b hr
  have hI := Reachable_BookInv hr
  have hask : (best_ask (best_bid b).2).1 = (best_ask b).1 := rfl
  simp only [spread, mid_price]
  rw [hask]
  cases hbv : (best_bid b).1 with
  | none =>
    dsimp only
    exact ⟨⟨fun _ => Or.inl rfl, fun _ => rfl⟩, ⟨fun _ => Or.inl rfl, fun _ => rfl⟩,
      fun bv av hb _ => by cases hb⟩
  | some bv =>
    cases hav : (best_ask b).1 with
    | none =>
      dsimp only
      exact ⟨⟨fun _ => Or.inr rfl, fun _ => rfl⟩, ⟨fun _ => Or.inr rfl, fun _ => rfl⟩,
        fun bv2 av hb ha => by cases ha⟩
    | some av =>
      obtain ⟨_, _, _, _, _, _, _, hbpos⟩ := best_bid_some_live hI hbv
      obtain ⟨_, _, _, _, _, _, _, hapos⟩ := best_ask_some_live hI hav
      have hcond : bv ≠ 0 ∧ av ≠ 0 := ⟨ne_of_gt hbpos, ne_of_gt hapos⟩
      dsimp only
      rw [if_pos hcond, if_pos hcond]
      refine ⟨⟨(fun hc => by cases hc), (fun hc => by rcases hc with hc | hc <;> cases hc)⟩,
        ⟨(fun hc => by cases hc), (fun hc => by rcases hc with hc | hc <;> cases hc)⟩,
        fun bv2 av2 hb ha => ?_⟩
      injection hb with hb2
      injection ha with ha2
      subst hb2
      subst ha2
      exact ⟨rfl, rfl⟩

/-- Witness for the amended C7 at a reachable two-sided book. -/
theorem spread_mid_amended_witness :
    ((spread bookSpreadCex).1 = none ↔
      ((best_bid bookSpreadCex).1 = none ∨ (best_ask bookSpreadCex).1 = none)) ∧
    ((mid_price bookSpreadCex).1 = none ↔
      ((best_bid bookSpreadCex).1 = none ∨ (best_ask bookSpreadCex).1 = none)) ∧
    (∀ bv av, (best_bid bookSpreadCex).1 = some bv →
      (best_ask bookSpreadCex).1 = some av →
      (spread bookSpreadCex).1 = some (round2 (av - bv)) ∧
      (mid_price bookSpreadCex).1 = some ((bv + av) / 2)) :=
  spread_mid_amended bookSpreadCex reachable_bookSpreadCex

/-! ### Claims C1 and C4 -/

theorem keyLe_strict {m : Arena} (htsok : TsOK m) {po oe : Order} {sid : Nat} {e : HEntry}
    (hpo : olookup m sid = some po) (hoe : olookup m e.oid = some oe)
    (hets : oe.timestamp = e.ts) (hne : e.oid ≠ sid) {pr : ℚ}
    (hle : keyLe { key := pr, ts := po.timestamp, oid := sid } e) :
    pr < e.key ∨ (pr = e.key ∧ po.timestamp < e.ts) := by
  rcases hle with h | ⟨h1, h2⟩
  · exact Or.inl h
  · refine Or.inr ⟨h1, lt_of_le_of_ne h2 ?_⟩
    have hts : po.timestamp ≠ oe.timestamp :=
      htsok (sid, po) (olookup_mem hpo) (e.oid, oe) (olookup_mem hoe)
        (fun hc => hne hc.symm)
    rw [← hets]
    exact hts

/-- C1: for every reachable book and well-formed submitted order, every
trade produced by `add_order` carries the price of the passive (resting)
limit order it matched (looked up in the resulting book by the passive side
of the trade), and that passive order is a different order on the opposite
side — never the aggressor. -/
theorem trade_price_is_passive (b : Book) (o : Order) (hr : Reachable b) (hw : WfNew b o) :
    ∀ t ∈ (add_order b o).2,
      ∃ po, olookup (add_order b o).1.orders
          (match o.side with
           | Side.buy => t.sell_order_id
           | Side.sell => t.buy_order_id) = some po ∧
        po.order_type = OrderType.limit ∧ po.price = some t.price ∧
        po.id ≠ o.id ∧ po.side ≠ o.side := by
  intro t ht
  have hI := Reachable_BookInv hr
  cases hm : add_order b o with
  | mk bF ts =>
    rw [hm] at ht
    dsimp only at ht ⊢
    obtain ⟨_, _, _, _, hbuy, hsell⟩ := add_order_master b o bF ts hm hw hI
    cases hside : o.side with
    | buy =>
      obtain ⟨htr, _⟩ := hbuy hside
      obtain ⟨po, h1, hprice, hot, hpside, hpid, ⟨e, he, heoid⟩, _⟩ := htr t (by exact ht)
      have heB : e ∈ b.askHeap := he
      obtain ⟨oe, hoe, _⟩ := hI.askS e heB
      have hneid : e.oid ≠ o.id := by
        intro hc
        rw [hc, hw.fresh] at hoe
        cases hoe
      refine ⟨po, h1, hot, hprice, ?_, ?_⟩
      · rw [hpid, ← heoid]
        exact hneid
      · rw [hpside]
        intro hc
        cases hc
    | sell =>
      obtain ⟨htr, _⟩ := hsell hside
      obtain ⟨po, h1, hprice, hot, hpside, hpid, ⟨e, he, heoid⟩, _⟩ := htr t (by exact ht)
      have heB : e ∈ b.bidHeap := he
      obtain ⟨oe, hoe, _⟩ := hI.bidS e heB
      have hneid : e.oid ≠ o.id := by
        intro hc
        rw [hc, hw.fresh] at hoe
        cases hoe
      refine ⟨po, h1, hot, hprice, ?_, ?_⟩
      · rw [hpid, ← heoid]
        exact hneid
      · rw [hpside]
        intro hc
        cases hc

/-- Witness order for C1/C4: a crossing limit buy against `bookAsk1`. -/
def oCross : Order := mkOrder Side.buy OrderType.limit 1 (some 68010) "carol" 2 2

unseal Rat.add Rat.sub Rat.mul Rat.inv in
theorem wf_oCross : WfNew bookAsk1 oCross := by
  refine ⟨by decide, by decide, rfl, rfl, rfl, by norm_num [oCross, mkOrder], ?_, ?_, ?_⟩
  · intro x hx
    injection hx with hx2
    rw [← hx2]
    norm_num
  · intro _
    exact ⟨68010, rfl⟩
  · intro hc
    cases hc

unseal Rat.add Rat.sub Rat.mul Rat.inv in
/-- Witness for C1: the crossing buy against the one-ask book produces the
trade `buy 2 / sell 1 at 68010 for 1`, whose price is the resting ask's. -/
theorem trade_price_is_passive_witness :
    ∃ po, olookup (add_order bookAsk1 oCross).1.orders
        (match oCross.side with
         | Side.buy =>
            ({ buy_order_id := 2, sell_order_id := 1, price := 68010,
               quantity := 1 } : Trade).sell_order_id
         | Side.sell =>
            ({ buy_order_id := 2, sell_order_id := 1, price := 68010,
               quantity := 1 } : Trade).buy_order_id) = some po ∧
      po.order_type = OrderType.limit ∧
      po.price
        = some ({ buy_order_id := 2, sell_order_id := 1, price := 68010,
                  quantity := 1 } : Trade).price ∧
      po.id ≠ oCross.id ∧ po.side ≠ oCross.side :=
  trade_price_is_passive bookAsk1 oCross reachable_bookAsk1 wf_oCross
    { buy_order_id := 2, sell_order_id := 1, price := 68010, quantity := 1 }
    (by decide)

/-! ### Claim C3 -/

theorem bookEtaAskNil (b : Book) (h : b.askHeap = []) : b = { b with askHeap := [] } := by
  cases b with
  | mk bh ah bl al od tr tv tt =>
    dsimp only at h
    subst h
    rfl

theorem bookEtaBidNil (b : Book) (h : b.bidHeap = []) : b = { b with bidHeap := [] } := by
  cases b with
  | mk bh ah bl al od tr tv tt =>
    dsimp only at h
    subst h
    rfl

theorem fillAsksGo_allstale (aggId : Nat) (agg : Order) :
    ∀ (fuel : Nat) (b : Book), olookup b.orders aggId = some agg →
      0 < agg.remaining →
      (∀ e ∈ b.askHeap, ∃ o2, olookup b.orders e.oid = some o2 ∧ isTerminal o2 = true) →
      b.askHeap.length < fuel →
      fillAsksGo fuel b aggId = ({ b with askHeap := [] }, []) := by
  intro fuel
  induction fuel with
  | zero =>
    intro b _ _ _ hf
    exact absurd hf (Nat.not_lt_zero _)
  | succ fuel ih =>
    intro b hagg hrem hst hf
    simp only [fillAsksGo]
    rw [hagg]
    dsimp only
    rw [if_pos hrem]
    cases hheap : b.askHeap with
    | nil =>
      dsimp only
      rw [← bookEtaAskNil b hheap]
    | cons e rest =>
      dsimp only
      obtain ⟨o2, ho2, hterm⟩ := hst e (hheap ▸ List.mem_cons_self e rest)
      rw [ho2]
      dsimp only
      rw [if_pos hterm]
      exact ih { b with askHeap := rest } hagg hrem
        (fun f hf2 => hst f (hheap ▸ List.mem_cons_of_mem e hf2))
        (by rw [hheap] at hf; exact Nat.lt_of_succ_lt_succ hf)

theorem marketAsksGo_allstale (fuel aggId : Nat) (agg : Order) (b : Book)
    (hagg : olookup b.orders aggId = some agg) (hrem : 0 < agg.remaining)
    (hst : ∀ e ∈ b.askHeap, ∃ o2, olookup b.orders e.oid = some o2 ∧ isTerminal o2 = true) :
    marketAsksGo (fuel + 1) b aggId = ({ b with askHeap := [] }, []) := by
  simp only [marketAsksGo]
  rw [hagg]
  dsimp only
  cases hheap : b.askHeap with
  | nil =>
    simp only [List.isEmpty_nil, Bool.not_true, Bool.and_false]
    rw [if_neg Bool.false_ne_true]
    rw [← bookEtaAskNil b hheap]
  | cons e rest =>
    simp only [List.isEmpty_cons, Bool.not_false, Bool.and_true]
    rw [if_pos (decide_eq_true hrem)]
    have hr : fill_from_asks b aggId = ({ b with askHeap := [] }, []) := by
      simp only [fill_from_asks]
      exact fillAsksGo_allstale aggId agg (b.askHeap.length + 2) b hagg hrem hst
        (by omega)
    rw [hr]
    simp only [List.isEmpty_nil]
    rw [if_pos trivial]

theorem match_market_order_allstale_buy (aggId : Nat) (agg : Order) (b : Book)
    (hagg : olookup b.orders aggId = some agg) (hside : agg.side = Side.buy)
    (hrem : 0 < agg.remaining)
    (hst : ∀ e ∈ b.askHeap, ∃ o2, olookup b.orders e.oid = some o2 ∧ isTerminal o2 = true) :
    match_market_order b aggId =
      ({ b with askHeap := [],
                orders := oset b.orders aggId { agg with status := OStatus.partFilled } }, []) := by
  simp only [match_market_order]
  rw [hagg]
  dsimp only
  rw [if_pos hside]
  have hr : marketAsksGo (b.askHeap.length + 2) b aggId = ({ b with askHeap := [] }, []) :=
    marketAsksGo_allstale (b.askHeap.length + 1) aggId agg b hagg hrem hst
  rw [hr]
  dsimp only
  rw [hagg]
  dsimp only
  rw [if_pos hrem]

theorem fillBidsGo_allstale (aggId : Nat) (agg : Order) :
    ∀ (fuel : Nat) (b : Book), olookup b.orders aggId = some agg →
      0 < agg.remaining →
      (∀ e ∈ b.bidHeap, ∃ o2, olookup b.orders e.oid = some o2 ∧ isTerminal o2 = true) →
      b.bidHeap.length < fuel →
      fillBidsGo fuel b aggId = ({ b with bidHeap := [] }, []) := by
  intro fuel
  induction fuel with
  | zero =>
    intro b _ _ _ hf
    exact absurd hf (Nat.not_lt_zero _)
  | succ fuel ih =>
    intro b hagg hrem hst hf
    simp only [fillBidsGo]
    rw [hagg]
    dsimp only
    rw [if_pos hrem]
    cases hheap : b.bidHeap with
    | nil =>
      dsimp only
      rw [← bookEtaBidNil b hheap]
    | cons e rest =>
      dsimp only
      obtain ⟨o2, ho2, hterm⟩ := hst e (hheap ▸ List.mem_cons_self e rest)
      rw [ho2]
      dsimp only
      rw [if_pos hterm]
      exact ih { b with bidHeap := rest } hagg hrem
        (fun f hf2 => hst f (hheap ▸ List.mem_cons_of_mem e hf2))
        (by rw [hheap] at hf; exact Nat.lt_of_succ_lt_succ hf)

theorem marketBidsGo_allstale (fuel aggId : Nat) (agg : Order) (b : Book)
    (hagg : olookup b.orders aggId = some agg) (hrem : 0 < agg.remaining)
    (hst : ∀ e ∈ b.bidHeap, ∃ o2, olookup b.orders e.oid = some o2 ∧ isTerminal o2 = true) :
    marketBidsGo (fuel + 1) b aggId = ({ b with bidHeap := [] }, []) := by
  simp only [marketBidsGo]
  rw [hagg]
  dsimp only
  cases hheap : b.bidHeap with
  | nil =>
    simp only [List.isEmpty_nil, Bool.not_true, Bool.and_false]
    rw [if_neg Bool.false_ne_true]
    rw [← bookEtaBidNil b hheap]
  | cons e rest =>
    simp only [List.isEmpty_cons, Bool.not_false, Bool.and_true]
    rw [if_pos (decide_eq_true hrem)]
    have hr : fill_from_bids b aggId = ({ b with bidHeap := [] }, []) := by
      simp only [fill_from_bids]
      exact fillBidsGo_allstale aggId agg (b.bidHeap.length + 2) b hagg hrem hst
        (by omega)
    rw [hr]
    simp only [List.isEmpty_nil]
    rw [if_pos trivial]

theorem match_market_order_allstale_sell (aggId : Nat) (agg : Order) (b : Book)
    (hagg : olookup b.orders aggId = some agg) (hside : agg.side = Side.sell)
    (hrem : 0 < agg.remaining)
    (hst : ∀ e ∈ b.bidHeap, ∃ o2, olookup b.orders e.oid = some o2 ∧ isTerminal o2 = true) :
    match_market_order b aggId =
      ({ b with bidHeap := [],
                orders := oset b.orders aggId { agg with status := OStatus.partFilled } }, []) := by
  simp only [match_market_order]
  rw [hagg]
  dsimp only
  rw [if_neg (by rw [hside]; intro hc; cases hc)]
  have hr : marketBidsGo (b.bidHeap.length + 2) b aggId = ({ b with bidHeap := [] }, []) :=
    marketBidsGo_allstale (b.bidHeap.length + 1) aggId agg b hagg hrem hst
  rw [hr]
  dsimp only
  rw [hagg]
  dsimp only
  rw [if_pos hrem]

/-- C3: submitting a fresh market order through `add_order` while the
opposing side holds no live liquidity (every resting entry there is already
filled or cancelled; in particular an empty side) is total — the embedding
returns normally — produces zero trades, leaves the order registered with
its full original quantity remaining and status `partial` (not `open`),
drains only the stale opposing heap, leaves the same-side heap and both
price-level maps untouched, and queues nothing on either side. -/
theorem market_order_no_liquidity (b : Book) (o : Order)
    (hfre : olookup b.orders o.id = none)
    (hot : o.order_type = OrderType.market)
    (hrem : o.remaining = o.quantity) (hq : 0 < o.quantity)
    (hst : ∀ e ∈ (match o.side with
                  | Side.buy => b.askHeap
                  | Side.sell => b.bidHeap),
      ∃ o2, olookup b.orders e.oid = some o2 ∧ isTerminal o2 = true) :
    (add_order b o).2 = [] ∧
    olookup (add_order b o).1.orders o.id = some { o with status := OStatus.partFilled } ∧
    ({ o with status := OStatus.partFilled } : Order).remaining = o.quantity ∧
    ({ o with status := OStatus.partFilled } : Order).status ≠ OStatus.opened ∧
    (match o.side with
     | Side.buy => (add_order b o).1.askHeap = [] ∧ (add_order b o).1.bidHeap = b.bidHeap
     | Side.sell => (add_order b o).1.bidHeap = [] ∧ (add_order b o).1.askHeap = b.askHeap) ∧
    (add_order b o).1.bidLevels = b.bidLevels ∧
    (add_order b o).1.askLevels = b.askLevels ∧
    (add_order b o).1.trades = b.trades := by
  have hrem0 : 0 < o.remaining := hrem ▸ hq
  have hne : ∀ oid, (∃ o2, olookup b.orders oid = some o2) → oid ≠ o.id := by
    intro oid ⟨o2, ho2⟩ hc
    rw [hc, hfre] at ho2
    cases ho2
  simp only [add_order]
  rw [if_pos hot]
  cases hsd : o.side with
  | buy =>
    rw [hsd] at hst
    dsimp only at hst
    have hst0 : ∀ e ∈ ({ b with orders := oset b.orders o.id o } : Book).askHeap,
        ∃ o2, olookup ({ b with orders := oset b.orders o.id o } : Book).orders e.oid
          = some o2 ∧ isTerminal o2 = true := by
      intro e he
      obtain ⟨o2, ho2, ht2⟩ := hst e he
      refine ⟨o2, ?_, ht2⟩
      rw [show ({ b with orders := oset b.orders o.id o } : Book).orders
        = oset b.orders o.id o from rfl,
        olookup_oset_ne b.orders o.id e.oid o (fun hc => hne e.oid ⟨o2, ho2⟩ hc.symm)]
      exact ho2
    have hmm := match_market_order_allstale_buy o.id o
      { b with orders := oset b.orders o.id o }
      (olookup_oset_self b.orders o.id o) hsd hrem0 hst0
    rw [hmm]
    dsimp only
    refine ⟨rfl, ?_, hrem, (fun hc => by cases hc), ⟨rfl, rfl⟩,
      rfl, rfl, List.append_nil b.trades⟩
    rw [← hsd]
    exact olookup_oset_self _ _ _
  | sell =>
    rw [hsd] at hst
    dsimp only at hst
    have hst0 : ∀ e ∈ ({ b with orders := oset b.orders o.id o } : Book).bidHeap,
        ∃ o2, olookup ({ b with orders := oset b.orders o.id o } : Book).orders e.oid
          = some o2 ∧ isTerminal o2 = true := by
      intro e he
      obtain ⟨o2, ho2, ht2⟩ := hst e he
      refine ⟨o2, ?_, ht2⟩
      rw [show ({ b with orders := oset b.orders o.id o } : Book).orders
        = oset b.orders o.id o from rfl,
        olookup_oset_ne b.orders o.id e.oid o (fun hc => hne e.oid ⟨o2, ho2⟩ hc.symm)]
      exact ho2
    have hmm := match_market_order_allstale_sell o.id o
      { b with orders := oset b.orders o.id o }
      (olookup_oset_self b.orders o.id o) hsd hrem0 hst0
    rw [hmm]
    dsimp only
    refine ⟨rfl, ?_, hrem, (fun hc => by cases hc), ⟨rfl, rfl⟩,
      rfl, rfl, List.append_nil b.trades⟩
    rw [← hsd]
    exact olookup_oset_self _ _ _

/-- Witness order for C3: a market buy for 3/5 against the empty book. -/
def oMkt : Order := mkOrder Side.buy OrderType.market (3/5) none "carol" 1 1

unseal Rat.add Rat.sub Rat.mul Rat.inv in
/-- Witness for C3: the empty book has no live ask liquidity. -/
theorem market_order_no_liquidity_witness :
    (add_order emptyBook oMkt).2 = [] ∧
    olookup (add_order emptyBook oMkt).1.orders oMkt.id
      = some { oMkt with status := OStatus.partFilled } ∧
    ({ oMkt with status := OStatus.partFilled } : Order).remaining = oMkt.quantity ∧
    ({ oMkt with status := OStatus.partFilled } : Order).status ≠ OStatus.opened ∧
    (match oMkt.side with
     | Side.buy =>
        (add_order emptyBook oMkt).1.askHeap = [] ∧
        (add_order emptyBook oMkt).1.bidHeap = emptyBook.bidHeap
     | Side.sell =>
        (add_order emptyBook oMkt).1.bidHeap = [] ∧
        (add_order emptyBook oMkt).1.askHeap = emptyBook.askHeap) ∧
    (add_order emptyBook oMkt).1.bidLevels = emptyBook.bidLevels ∧
    (add_order emptyBook oMkt).1.askLevels = emptyBook.askLevels ∧
    (add_order emptyBook oMkt).1.trades = emptyBook.trades :=
  market_order_no_liquidity emptyBook oMkt rfl rfl rfl (by decide)
    (fun e he => absurd he (List.not_mem_nil e))

/-! ### Claim C6 -/

/-- C6: from the empty book, a limit buy for any positive quantity at any
price followed by a limit sell for the same quantity at the same price
yields no trade on the first submission and exactly one trade at that price
and quantity on the second; both orders end with status `filled`, the trade
counter reads 1 and the volume counter reads the traded quantity, and both
sides of the book report absence of a best price. -/
theorem round_trip (p q : ℚ) (hq : 0 < q) :
    (add_order emptyBook (mkOrder Side.buy OrderType.limit q (some p) "alice" 1 1)).2 = [] ∧
    (add_order (add_order emptyBook (mkOrder Side.buy OrderType.limit q (some p) "alice" 1 1)).1
      (mkOrder Side.sell OrderType.limit q (some p) "bob" 2 2)).2 =
      [{ buy_order_id := 1, sell_order_id := 2, price := p, quantity := q }] ∧
    (olookup (add_order (add_order emptyBook (mkOrder Side.buy OrderType.limit q (some p) "alice" 1 1)).1
      (mkOrder Side.sell OrderType.limit q (some p) "bob" 2 2)).1.orders 1).map Order.status
      = some OStatus.filled ∧
    (olookup (add_order (add_order emptyBook (mkOrder Side.buy OrderType.limit q (some p) "alice" 1 1)).1
      (mkOrder Side.sell OrderType.limit q (some p) "bob" 2 2)).1.orders 2).map Order.status
      = some OStatus.filled ∧
    (add_order (add_order emptyBook (mkOrder Side.buy OrderType.limit q (some p) "alice" 1 1)).1
      (mkOrder Side.sell OrderType.limit q (some p) "bob" 2 2)).1.total_trades = 1 ∧
    (add_order (add_order emptyBook (mkOrder Side.buy OrderType.limit q (some p) "alice" 1 1)).1
      (mkOrder Side.sell OrderType.limit q (some p) "bob" 2 2)).1.total_volume = q ∧
    (best_bid (add_order (add_order emptyBook (mkOrder Side.buy OrderType.limit q (some p) "alice" 1 1)).1
      (mkOrder Side.sell OrderType.limit q (some p) "bob" 2 2)).1).1 = none ∧
    (best_ask (add_order (add_order emptyBook (mkOrder Side.buy OrderType.limit q (some p) "alice" 1 1)).1
      (mkOrder Side.sell OrderType.limit q (some p) "bob" 2 2)).1).1 = none := by
  simp [add_order, emptyBook, mkOrder, match_limit_order, limitAsksGo, limitBidsGo,
    fill_from_asks, fill_from_bids, fillAsksGo, fillBidsGo, headLeLim, headGeLim,
    add_to_bids, add_to_asks, olookup, oset, llookup, lset, insertEntry, keyLt,
    Order.fill, fillInArena, remOf, isTerminal, isLiveBest, purgeLevel,
    PriceLevel.remove_filled, isLiveLevel, PriceLevel.add_order, limGt, limLt,
    match_market_order, marketAsksGo, marketBidsGo, bestAux, best_bid, best_ask,
    hq, hq.ne, min_self, sub_self, neg_neg,
    le_refl, lt_irrefl, List.append_nil]

unseal Rat.add Rat.sub Rat.mul Rat.inv in
/-- Witness for C6: half a unit at price 68000. -/
theorem round_trip_witness :
    (0:ℚ) < 1/2 ∧
    ((add_order emptyBook (mkOrder Side.buy OrderType.limit (1/2) (some 68000) "alice" 1 1)).2 = [] ∧
    (add_order (add_order emptyBook (mkOrder Side.buy OrderType.limit (1/2) (some 68000) "alice" 1 1)).1
      (mkOrder Side.sell OrderType.limit (1/2) (some 68000) "bob" 2 2)).2 =
      [{ buy_order_id := 1, sell_order_id := 2, price := 68000, quantity := 1/2 }] ∧
    (olookup (add_order (add_order emptyBook (mkOrder Side.buy OrderType.limit (1/2) (some 68000) "alice" 1 1)).1
      (mkOrder Side.sell OrderType.limit (1/2) (some 68000) "bob" 2 2)).1.orders 1).map Order.status
      = some OStatus.filled ∧
    (olookup (add_order (add_order emptyBook (mkOrder Side.buy OrderType.limit (1/2) (some 68000) "alice" 1 1)).1
      (mkOrder Side.sell OrderType.limit (1/2) (some 68000) "bob" 2 2)).1.orders 2).map Order.status
      = some OStatus.filled ∧
    (add_order (add_order emptyBook (mkOrder Side.buy OrderType.limit (1/2) (some 68000) "alice" 1 1)).1
      (mkOrder Side.sell OrderType.limit (1/2) (some 68000) "bob" 2 2)).1.total_trades = 1 ∧
    (add_order (add_order emptyBook (mkOrder Side.buy OrderType.limit (1/2) (some 68000) "alice" 1 1)).1
      (mkOrder Side.sell OrderType.limit (1/2) (some 68000) "bob" 2 2)).1.total_volume = 1/2 ∧
    (best_bid (add_order (add_order emptyBook (mkOrder Side.buy OrderType.limit (1/2) (some 68000) "alice" 1 1)).1
      (mkOrder Side.sell OrderType.limit (1/2) (some 68000) "bob" 2 2)).1).1 = none ∧
    (best_ask (add_order (add_order emptyBook (mkOrder Side.buy OrderType.limit (1/2) (some 68000) "alice" 1 1)).1
      (mkOrder Side.sell OrderType.limit (1/2) (some 68000) "bob" 2 2)).1).1 = none) :=
  ⟨by decide, round_trip 68000 (1/2) (by decide)⟩

/-! ### Claim C9 -/

/-- The aggregate the spec asserts for a price level (this definition
follows the spec's words, for comparison with the code's `total_quantity`
field): the sum of the remaining quantities of the live orders resting at
the level. -/
def specLiveTotal (m : Arena) (lvl : PriceLevel) : ℚ :=
  ((lvl.orders.filter (fun oid => isLiveLevel m oid)).map (remOf m)).sum

/-- The failing input for C9: a resting limit sell of 1.0 at 68010, then a
market buy of 0.4 that partially fills it. -/
def c9book : Book :=
  (add_order (add_order emptyBook
    (mkOrder Side.sell OrderType.limit 1 (some 68010) "maker" 1 1)).1
    (mkOrder Side.buy OrderType.market (2/5) none "taker" 2 2)).1

unseal Rat.add Rat.sub Rat.mul Rat.inv in
/-- C9 fails on the code: after the partial fill the 68010 ask level still
records `total_quantity = 1` (a partial fill of a resting order updates the
order object but never the level's aggregate — `remove_filled` runs only
when the passive order is exhausted or cancelled), while the live orders at
the level sum to `3/5`.  The passive order's own remaining quantity is
correctly `3/5`, so the level aggregate and the spec's asserted sum
diverge. -/
theorem level_total_stale :
    llookup c9book.askLevels 68010
      = some { price := 68010, orders := [1], total_quantity := 1 } ∧
    (olookup c9book.orders 1).map Order.remaining = some (3/5) ∧
    specLiveTotal c9book.orders { price := 68010, orders := [1], total_quantity := 1 }
      = 3/5 ∧
    (1 : ℚ) ≠ 3/5 := by
  refine ⟨by decide, by decide, by decide, by decide⟩

/-! ### Per-step price-time priority (claim C4)

The claim quantifies over every matching step.  `askSteps hp m tsPrev ts`
says: walking through the trades `ts` (after the already-done trades
`tsPrev`), each trade's passive order is a resting entry of the pre-call
ask heap `hp` and strictly beats, in the lexicographic `(price, timestamp)`
order, every other entry of `hp` whose order (in the pre-call arena `m`) is
live and has not yet been exhausted by the trades done before that step —
exactly the orders still live at that matching step, counted by the prefix
sums `consumedAsk`. -/

/-- Total quantity the trades `ts` take out of the resting ask order `oid`
(the trades whose passive side — `sell_order_id` — is that order). -/
def consumedAsk (ts : List Trade) (oid : Nat) : ℚ :=
  ((ts.filter (fun t => decide (t.sell_order_id = oid))).map Trade.quantity).sum

/-- Total quantity the trades `ts` take out of the resting bid order `oid`. -/
def consumedBid (ts : List Trade) (oid : Nat) : ℚ :=
  ((ts.filter (fun t => decide (t.buy_order_id = oid))).map Trade.quantity).sum

theorem consumedAsk_nil (oid : Nat) : consumedAsk [] oid = 0 := rfl

theorem consumedBid_nil (oid : Nat) : consumedBid [] oid = 0 := rfl

theorem consumedAsk_append (ts1 ts2 : List Trade) (oid : Nat) :
    consumedAsk (ts1 ++ ts2) oid = consumedAsk ts1 oid + consumedAsk ts2 oid := by
  simp [consumedAsk, List.filter_append]

theorem consumedBid_append (ts1 ts2 : List Trade) (oid : Nat) :
    consumedBid (ts1 ++ ts2) oid = consumedBid ts1 oid + consumedBid ts2 oid := by
  simp [consumedBid, List.filter_append]

theorem consumedAsk_single_self {t : Trade} {oid : Nat} (h : t.sell_order_id = oid) :
    consumedAsk [t] oid = t.quantity := by
  simp [consumedAsk, h]

theorem consumedAsk_single_ne {t : Trade} {oid : Nat} (h : t.sell_order_id ≠ oid) :
    consumedAsk [t] oid = 0 := by
  simp [consumedAsk, h]

theorem consumedBid_single_self {t : Trade} {oid : Nat} (h : t.buy_order_id = oid) :
    consumedBid [t] oid = t.quantity := by
  simp [consumedBid, h]

theorem consumedBid_single_ne {t : Trade} {oid : Nat} (h : t.buy_order_id ≠ oid) :
    consumedBid [t] oid = 0 := by
  simp [consumedBid, h]

/-- Per-step priority on the ask side (buy aggressor); see the section
comment.  Defined by recursion on the trade list, accumulating the prefix. -/
def askSteps (hp : List HEntry) (m : Arena) : List Trade → List Trade → Prop
  | _, [] => True
  | tsPrev, t :: rest =>
      ((∃ e1 ∈ hp, e1.oid = t.sell_order_id) ∧
       (∃ po, olookup m t.sell_order_id = some po ∧
         ∀ e ∈ hp, ∀ oe, olookup m e.oid = some oe → liveSt oe →
           consumedAsk tsPrev e.oid < oe.remaining →
           e.oid ≠ t.sell_order_id →
           (t.price < e.key ∨ (t.price = e.key ∧ po.timestamp < e.ts)))) ∧
      askSteps hp m (tsPrev ++ [t]) rest

/-- Per-step priority on the bid side (sell aggressor); bid heap entries
carry the negated price, so the synthetic key of a trade is `-t.price`. -/
def bidSteps (hp : List HEntry) (m : Arena) : List Trade → List Trade → Prop
  | _, [] => True
  | tsPrev, t :: rest =>
      ((∃ e1 ∈ hp, e1.oid = t.buy_order_id) ∧
       (∃ po, olookup m t.buy_order_id = some po ∧
         ∀ e ∈ hp, ∀ oe, olookup m e.oid = some oe → liveSt oe →
           consumedBid tsPrev e.oid < oe.remaining →
           e.oid ≠ t.buy_order_id →
           (-t.price < e.key ∨ (-t.price = e.key ∧ po.timestamp < e.ts)))) ∧
      bidSteps hp m (tsPrev ++ [t]) rest

theorem askSteps_append {hp : List HEntry} {m : Arena} :
    ∀ {ts1 : List Trade} {tsPrev ts2 : List Trade}, askSteps hp m tsPrev ts1 →
      askSteps hp m (tsPrev ++ ts1) ts2 → askSteps hp m tsPrev (ts1 ++ ts2) := by
  intro ts1
  induction ts1 with
  | nil =>
    intro tsPrev ts2 _ h2
    rw [List.append_nil] at h2
    exact h2
  | cons t ts1 ih =>
    intro tsPrev ts2 h1 h2
    obtain ⟨hstep, hrest⟩ := h1
    refine ⟨hstep, ih hrest ?_⟩
    rw [List.append_assoc, List.singleton_append]
    exact h2

theorem bidSteps_append {hp : List HEntry} {m : Arena} :
    ∀ {ts1 : List Trade} {tsPrev ts2 : List Trade}, bidSteps hp m tsPrev ts1 →
      bidSteps hp m (tsPrev ++ ts1) ts2 → bidSteps hp m tsPrev (ts1 ++ ts2) := by
  intro ts1
  induction ts1 with
  | nil =>
    intro tsPrev ts2 _ h2
    rw [List.append_nil] at h2
    exact h2
  | cons t ts1 ih =>
    intro tsPrev ts2 h1 h2
    obtain ⟨hstep, hrest⟩ := h1
    refine ⟨hstep, ih hrest ?_⟩
    rw [List.append_assoc, List.singleton_append]
    exact h2

/-- Lookups that agree on every heap-referenced id transport `askSteps`
from one arena to another. -/
theorem askSteps_transfer {hp : List HEntry} {m1 m2 : Arena}
    (hag : ∀ oid, (∃ e ∈ hp, e.oid = oid) → olookup m1 oid = olookup m2 oid) :
    ∀ {ts tsPrev : List Trade}, askSteps hp m1 tsPrev ts → askSteps hp m2 tsPrev ts := by
  intro ts
  induction ts with
  | nil => intro tsPrev _; trivial
  | cons t rest ih =>
    intro tsPrev h
    obtain ⟨⟨⟨e1, he1, he1id⟩, po, hpo, hmin⟩, hrest⟩ := h
    refine ⟨⟨⟨e1, he1, he1id⟩, po, ?_, ?_⟩, ih hrest⟩
    · rw [← hag t.sell_order_id ⟨e1, he1, he1id⟩]
      exact hpo
    · intro e he oe hoe hlive hcons hne
      refine hmin e he oe ?_ hlive hcons hne
      rw [hag e.oid ⟨e, he, rfl⟩]
      exact hoe

theorem bidSteps_transfer {hp : List HEntry} {m1 m2 : Arena}
    (hag : ∀ oid, (∃ e ∈ hp, e.oid = oid) → olookup m1 oid = olookup m2 oid) :
    ∀ {ts tsPrev : List Trade}, bidSteps hp m1 tsPrev ts → bidSteps hp m2 tsPrev ts := by
  intro ts
  induction ts with
  | nil => intro tsPrev _; trivial
  | cons t rest ih =>
    intro tsPrev h
    obtain ⟨⟨⟨e1, he1, he1id⟩, po, hpo, hmin⟩, hrest⟩ := h
    refine ⟨⟨⟨e1, he1, he1id⟩, po, ?_, ?_⟩, ih hrest⟩
    · rw [← hag t.buy_order_id ⟨e1, he1, he1id⟩]
      exact hpo
    · intro e he oe hoe hlive hcons hne
      refine hmin e he oe ?_ hlive hcons hne
      rw [hag e.oid ⟨e, he, rfl⟩]
      exact hoe

/-- A live order satisfying the status invariant with positive original
quantity has positive remaining quantity. -/
theorem liveSt_rem_pos {o : Order} (hs : StatusInv o) (hq : 0 < o.quantity)
    (hl : liveSt o) : 0 < o.remaining := by
  obtain ⟨-, -, ho, hpf, -⟩ := hs
  cases hst : o.status with
  | opened => rw [ho hst]; exact hq
  | partFilled => exact (hpf hst).1
  | filled => exact absurd (Or.inl hst) hl
  | cancelled => exact absurd (Or.inr hst) hl

theorem liveSt_partFilled {o : Order} (h : o.status = OStatus.partFilled) : liveSt o := by
  intro hc
  rcases hc with hc | hc <;> rw [h] at hc <;> cases hc

theorem StatusInv_cancel {o : Order} (h : StatusInv o) : StatusInv o.cancel := by
  refine ⟨h.1, h.2.1, ?_, ?_, ?_⟩ <;> intro hc <;>
    exact absurd hc (by simp [Order.cancel])

/-- The quantitative relation threaded through the ask-side fill loops:
`hp`/`m` are the pre-call ask heap and arena, `tsPrev` the trades emitted
so far, `b2` the current loop state.  The current heap is a sub-collection
of `hp`, keeps the book invariants of its side, references orders with
sound statuses and positive original quantity, the aggressor keeps a sound
status, lookups outside the aggressor and the pre-call heap are untouched,
and every pre-call resting order still live and not exhausted by `tsPrev`
is still on the heap, live, with exactly its original remaining minus what
`tsPrev` consumed of it. -/
structure askRel (hp : List HEntry) (m : Arena) (aggId : Nat)
    (tsPrev : List Trade) (b2 : Book) : Prop where
  sub : b2.askHeap ⊆ hp
  arena : ArenaInv b2.orders
  hsound : HeapSound b2.orders b2.askHeap Side.sell (fun x => x)
  sorted : b2.askHeap.Pairwise keyLe
  hstat : ∀ e ∈ b2.askHeap, ∀ oe2, olookup b2.orders e.oid = some oe2 →
    StatusInv oe2 ∧ 0 < oe2.quantity
  aggst : ∀ ag, olookup b2.orders aggId = some ag → StatusInv ag ∧ 0 < ag.quantity
  frame : ∀ oid, oid ≠ aggId → (∀ e ∈ hp, e.oid ≠ oid) →
    olookup b2.orders oid = olookup m oid
  fwd : ∀ e ∈ hp, ∀ oe, olookup m e.oid = some oe → liveSt oe →
    consumedAsk tsPrev e.oid < oe.remaining →
    e ∈ b2.askHeap ∧ ∃ oe2, olookup b2.orders e.oid = some oe2 ∧
      oe2.remaining = oe.remaining - consumedAsk tsPrev e.oid ∧
      liveSt oe2 ∧ sameIdFields oe2 oe

/-- Emitting a trade against the heap head `e0`: the head's key-and-
timestamp strictly beats every pre-call entry still live at this step. -/
theorem askStep_head {hp : List HEntry} {m : Arena} {aggId : Nat}
    {tsPrev : List Trade} {b2 : Book}
    (hTs : TsOK m) (hHS : HeapSound m hp Side.sell (fun x => x))
    (hrel : askRel hp m aggId tsPrev b2)
    {e0 : HEntry} {rest : List HEntry} (hheap : b2.askHeap = e0 :: rest)
    {po2 : Order} (hpo2 : olookup b2.orders e0.oid = some po2) :
    (∃ e1 ∈ hp, e1.oid = po2.id) ∧
    ∃ po, olookup m po2.id = some po ∧
      ∀ e ∈ hp, ∀ oe, olookup m e.oid = some oe → liveSt oe →
        consumedAsk tsPrev e.oid < oe.remaining →
        e.oid ≠ po2.id →
        (e0.key < e.key ∨ (e0.key = e.key ∧ po.timestamp < e.ts)) := by
  have he0 : e0 ∈ b2.askHeap := hheap ▸ List.mem_cons_self e0 rest
  have he0hp : e0 ∈ hp := hrel.sub he0
  have hid : po2.id = e0.oid := (hrel.arena.2.1 (e0.oid, po2) (olookup_mem hpo2)).symm
  obtain ⟨po, hpol, hpp, hpts, -, -⟩ := hHS e0 he0hp
  refine ⟨⟨e0, he0hp, by rw [hid]⟩, po, by rw [hid]; exact hpol, ?_⟩
  intro e he oe hoe hlive hcons hne
  have hne0 : e.oid ≠ e0.oid := by rw [← hid]; exact hne
  obtain ⟨hmem2, -⟩ := hrel.fwd e he oe hoe hlive hcons
  have hees : e ∈ e0 :: rest := hheap ▸ hmem2
  have herest : e ∈ rest := by
    rcases List.mem_cons.mp hees with hc | hc
    · exact absurd (by rw [hc]) hne0
    · exact hc
  have hsort : (e0 :: rest).Pairwise keyLe := hheap ▸ hrel.sorted
  have hkeyle : keyLe e0 e := (List.pairwise_cons.mp hsort).1 e herest
  have hoeT : oe.timestamp = e.ts := by
    obtain ⟨oe', hoe', -, hts', -, -⟩ := hHS e he
    rw [hoe] at hoe'
    injection hoe' with h2
    rw [h2]
    exact hts'
  have hle : keyLe { key := e0.key, ts := po.timestamp, oid := e0.oid } e := by
    rw [hpts]
    exact hkeyle
  exact keyLe_strict hTs hpol hoe hoeT hne0 hle

/-- Popping a stale head preserves the loop relation. -/
theorem askRel_stalePop {hp : List HEntry} {m : Arena} {aggId : Nat}
    {tsPrev : List Trade} {b2 b3 : Book}
    (hrel : askRel hp m aggId tsPrev b2)
    {e0 : HEntry} {rest : List HEntry} (hheap : b2.askHeap = e0 :: rest)
    (hstale : ¬ ∃ oe2, olookup b2.orders e0.oid = some oe2 ∧ liveSt oe2)
    (hb3o : b3.orders = b2.orders) (hb3h : b3.askHeap = rest) :
    askRel hp m aggId tsPrev b3 := by
  have hsubr : rest ⊆ hp := fun x hx => hrel.sub (hheap ▸ List.mem_cons_of_mem e0 hx)
  refine ⟨?_, ?_, ?_, ?_, ?_, ?_, ?_, ?_⟩
  · rw [hb3h]; exact hsubr
  · rw [hb3o]; exact hrel.arena
  · rw [hb3o, hb3h]
    exact fun e he => hrel.hsound e (hheap ▸ List.mem_cons_of_mem e0 he)
  · rw [hb3h]
    exact (List.pairwise_cons.mp (hheap ▸ hrel.sorted)).2
  · rw [hb3o, hb3h]
    exact fun e he => hrel.hstat e (hheap ▸ List.mem_cons_of_mem e0 he)
  · rw [hb3o]; exact hrel.aggst
  · rw [hb3o]; exact hrel.frame
  · intro e he oe hoe hlive hcons
    obtain ⟨hmem2, oe2, hoe2, hrem2, hlive2, hsame2⟩ := hrel.fwd e he oe hoe hlive hcons
    have hene0 : e ≠ e0 := by
      intro hc
      exact hstale ⟨oe2, by rw [← hc]; exact hoe2, hlive2⟩
    have herest : e ∈ rest := by
      rcases List.mem_cons.mp (hheap ▸ hmem2) with hc | hc
      · exact absurd hc hene0
      · exact hc
    exact ⟨hb3h ▸ herest, oe2, hb3o ▸ hoe2, hrem2, hlive2, hsame2⟩

/-- Filling the live head without exhausting it (heap unchanged) preserves
the loop relation, with the emitted trade appended to the prefix. -/
theorem askRel_fillKeep {hp : List HEntry} {m : Arena} {aggId : Nat}
    {tsPrev : List Trade} {b2 b3 : Book}
    (hfr : ∀ e ∈ hp, e.oid ≠ aggId)
    (hrel : askRel hp m aggId tsPrev b2)
    {e0 : HEntry} {rest : List HEntry} (hheap : b2.askHeap = e0 :: rest)
    {agg : Order} (hagg : olookup b2.orders aggId = some agg)
    (hrem : 0 < agg.remaining)
    {po2 : Order} (hpo2 : olookup b2.orders e0.oid = some po2) (hlp : liveSt po2)
    {t : Trade} (hsell : t.sell_order_id = po2.id)
    (hqty : t.quantity = min agg.remaining po2.remaining)
    (hnz : po2.remaining - min agg.remaining po2.remaining ≠ 0)
    (hb3o : b3.orders =
      fillInArena (fillInArena b2.orders aggId (min agg.remaining po2.remaining))
        e0.oid (min agg.remaining po2.remaining))
    (hb3h : b3.askHeap = b2.askHeap) :
    askRel hp m aggId (tsPrev ++ [t]) b3 := by
  have he0 : e0 ∈ b2.askHeap := hheap ▸ List.mem_cons_self e0 rest
  have he0hp : e0 ∈ hp := hrel.sub he0
  have hne_agg : e0.oid ≠ aggId := hfr e0 he0hp
  have hstatp := hrel.hstat e0 he0 po2 hpo2
  have hp2pos : 0 < po2.remaining := liveSt_rem_pos hstatp.1 hstatp.2 hlp
  have hfq : 0 < min agg.remaining po2.remaining := lt_min hrem hp2pos
  have hfqle : min agg.remaining po2.remaining ≤ po2.remaining := min_le_right _ _
  have hid : po2.id = e0.oid := (hrel.arena.2.1 (e0.oid, po2) (olookup_mem hpo2)).symm
  have h1 : olookup (fillInArena b2.orders aggId (min agg.remaining po2.remaining))
      e0.oid = some po2 := by
    rw [fillInArena_lookup_ne _ hne_agg]
    exact hpo2
  have h2 : olookup b3.orders e0.oid
      = some (po2.fill (min agg.remaining po2.remaining)).1 := by
    rw [hb3o]
    exact fillInArena_lookup_self _ h1
  have ha2 : olookup b3.orders aggId
      = some (agg.fill (min agg.remaining po2.remaining)).1 := by
    rw [hb3o, fillInArena_lookup_ne _ (Ne.symm hne_agg)]
    exact fillInArena_lookup_self _ hagg
  have hextm : arenaExt b2.orders b3.orders := by
    rw [hb3o]
    exact arenaExt_trans (arenaExt_fillInArena _ _ _) (arenaExt_fillInArena _ _ _)
  have hother : ∀ oid, oid ≠ aggId → oid ≠ e0.oid →
      olookup b3.orders oid = olookup b2.orders oid := by
    intro oid hne1 hne2
    rw [hb3o, fillInArena_lookup_ne _ hne2, fillInArena_lookup_ne _ hne1]
  refine ⟨?_, ?_, ?_, ?_, ?_, ?_, ?_, ?_⟩
  · rw [hb3h]; exact hrel.sub
  · rw [hb3o]
    exact ArenaInv_fillInArena (ArenaInv_fillInArena hrel.arena _ _) _ _
  · rw [hb3h]
    exact HeapSound_transfer hrel.hsound hextm (fun x hx => hx)
  · rw [hb3h]; exact hrel.sorted
  · intro e he oe2 hoe2
    rw [hb3h] at he
    by_cases heo : e.oid = e0.oid
    · rw [heo, h2] at hoe2
      injection hoe2 with h3
      rw [← h3]
      refine ⟨StatusInv.fill hstatp.1 hfq, ?_⟩
      rw [Order.fill_quantity]
      exact hstatp.2
    · have hao : e.oid ≠ aggId := hfr e (hrel.sub he)
      rw [hother e.oid hao heo] at hoe2
      exact hrel.hstat e he oe2 hoe2
  · intro ag hag2
    rw [ha2] at hag2
    injection hag2 with h3
    rw [← h3]
    refine ⟨StatusInv.fill (hrel.aggst agg hagg).1 hfq, ?_⟩
    rw [Order.fill_quantity]
    exact (hrel.aggst agg hagg).2
  · intro oid hne1 hne2
    rw [hother oid hne1 (fun hc => hne2 e0 he0hp hc.symm)]
    exact hrel.frame oid hne1 hne2
  · intro e he oe hoe hlive hcons
    rw [consumedAsk_append] at hcons
    by_cases heq : e.oid = po2.id
    · rw [consumedAsk_single_self (hsell.trans heq.symm), hqty] at hcons
      have hconsOld : consumedAsk tsPrev e.oid < oe.remaining := by linarith
      obtain ⟨hmem2, oe2, hoe2, hrem2, hlive2, hsame2⟩ :=
        hrel.fwd e he oe hoe hlive hconsOld
      have heq0 : e.oid = e0.oid := heq.trans hid
      rw [heq0, hpo2] at hoe2
      injection hoe2 with h3
      rw [← h3] at hrem2
      refine ⟨by rw [hb3h]; exact hmem2,
        (po2.fill (min agg.remaining po2.remaining)).1, by rw [heq0]; exact h2, ?_, ?_, ?_⟩
      · rw [consumedAsk_append, consumedAsk_single_self (hsell.trans heq.symm), hqty,
          Order.fill_remaining, min_eq_left hfqle, hrem2]
        ring
      · apply liveSt_partFilled
        rw [Order.fill_status, min_eq_left hfqle, if_neg hnz]
      · rw [← h3] at hsame2
        exact sameIdFields_trans (sameIdFields_fill po2 _) hsame2
    · rw [consumedAsk_single_ne (by rw [hsell]; exact fun hc => heq hc.symm)] at hcons
      rw [add_zero] at hcons
      obtain ⟨hmem2, oe2, hoe2, hrem2, hlive2, hsame2⟩ :=
        hrel.fwd e he oe hoe hlive hcons
      have hne0 : e.oid ≠ e0.oid := by rw [← hid]; exact heq
      have hao : e.oid ≠ aggId := hfr e he
      refine ⟨by rw [hb3h]; exact hmem2, oe2, by rw [hother e.oid hao hne0]; exact hoe2,
        ?_, hlive2, hsame2⟩
      rw [consumedAsk_append,
        consumedAsk_single_ne (by rw [hsell]; exact fun hc => heq hc.symm), add_zero]
      exact hrem2

/-- Filling the live head to exhaustion (head popped, level purged)
preserves the loop relation, with the emitted trade appended. -/
theorem askRel_fillPop {hp : List HEntry} {m : Arena} {aggId : Nat}
    {tsPrev : List Trade} {b2 b3 : Book}
    (hfr : ∀ e ∈ hp, e.oid ≠ aggId)
    (hrel : askRel hp m aggId tsPrev b2)
    {e0 : HEntry} {rest : List HEntry} (hheap : b2.askHeap = e0 :: rest)
    {agg : Order} (hagg : olookup b2.orders aggId = some agg)
    (hrem : 0 < agg.remaining)
    {po2 : Order} (hpo2 : olookup b2.orders e0.oid = some po2) (hlp : liveSt po2)
    {t : Trade} (hsell : t.sell_order_id = po2.id)
    (hqty : t.quantity = min agg.remaining po2.remaining)
    (hz : po2.remaining - min agg.remaining po2.remaining = 0)
    (hb3o : b3.orders =
      fillInArena (fillInArena b2.orders aggId (min agg.remaining po2.remaining))
        e0.oid (min agg.remaining po2.remaining))
    (hb3h : b3.askHeap = rest) :
    askRel hp m aggId (tsPrev ++ [t]) b3 := by
  have he0 : e0 ∈ b2.askHeap := hheap ▸ List.mem_cons_self e0 rest
  have he0hp : e0 ∈ hp := hrel.sub he0
  have hne_agg : e0.oid ≠ aggId := hfr e0 he0hp
  have hstatp := hrel.hstat e0 he0 po2 hpo2
  have hp2pos : 0 < po2.remaining := liveSt_rem_pos hstatp.1 hstatp.2 hlp
  have hfq : 0 < min agg.remaining po2.remaining := lt_min hrem hp2pos
  have hid : po2.id = e0.oid := (hrel.arena.2.1 (e0.oid, po2) (olookup_mem hpo2)).symm
  have h1 : olookup (fillInArena b2.orders aggId (min agg.remaining po2.remaining))
      e0.oid = some po2 := by
    rw [fillInArena_lookup_ne _ hne_agg]
    exact hpo2
  have h2 : olookup b3.orders e0.oid
      = some (po2.fill (min agg.remaining po2.remaining)).1 := by
    rw [hb3o]
    exact fillInArena_lookup_self _ h1
  have ha2 : olookup b3.orders aggId
      = some (agg.fill (min agg.remaining po2.remaining)).1 := by
    rw [hb3o, fillInArena_lookup_ne _ (Ne.symm hne_agg)]
    exact fillInArena_lookup_self _ hagg
  have hextm : arenaExt b2.orders b3.orders := by
    rw [hb3o]
    exact arenaExt_trans (arenaExt_fillInArena _ _ _) (arenaExt_fillInArena _ _ _)
  have hother : ∀ oid, oid ≠ aggId → oid ≠ e0.oid →
      olookup b3.orders oid = olookup b2.orders oid := by
    intro oid hne1 hne2
    rw [hb3o, fillInArena_lookup_ne _ hne2, fillInArena_lookup_ne _ hne1]
  have hsubr : rest ⊆ hp := fun x hx => hrel.sub (hheap ▸ List.mem_cons_of_mem e0 hx)
  refine ⟨?_, ?_, ?_, ?_, ?_, ?_, ?_, ?_⟩
  · rw [hb3h]; exact hsubr
  · rw [hb3o]
    exact ArenaInv_fillInArena (ArenaInv_fillInArena hrel.arena _ _) _ _
  · rw [hb3h]
    exact HeapSound_transfer hrel.hsound hextm
      (fun x hx => hheap ▸ List.mem_cons_of_mem e0 hx)
  · rw [hb3h]
    exact (List.pairwise_cons.mp (hheap ▸ hrel.sorted)).2
  · intro e he oe2 hoe2
    rw [hb3h] at he
    by_cases heo : e.oid = e0.oid
    · rw [heo, h2] at hoe2
      injection hoe2 with h3
      rw [← h3]
      refine ⟨StatusInv.fill hstatp.1 hfq, ?_⟩
      rw [Order.fill_quantity]
      exact hstatp.2
    · have hao : e.oid ≠ aggId := hfr e (hsubr he)
      rw [hother e.oid hao heo] at hoe2
      exact hrel.hstat e (hheap ▸ List.mem_cons_of_mem e0 he) oe2 hoe2
  · intro ag hag2
    rw [ha2] at hag2
    injection hag2 with h3
    rw [← h3]
    refine ⟨StatusInv.fill (hrel.aggst agg hagg).1 hfq, ?_⟩
    rw [Order.fill_quantity]
    exact (hrel.aggst agg hagg).2
  · intro oid hne1 hne2
    rw [hother oid hne1 (fun hc => hne2 e0 he0hp hc.symm)]
    exact hrel.frame oid hne1 hne2
  · intro e he oe hoe hlive hcons
    rw [consumedAsk_append] at hcons
    by_cases heq : e.oid = po2.id
    · rw [consumedAsk_single_self (hsell.trans heq.symm), hqty] at hcons
      have hconsOld : consumedAsk tsPrev e.oid < oe.remaining := by linarith
      obtain ⟨hmem2, oe2, hoe2, hrem2, hlive2, hsame2⟩ :=
        hrel.fwd e he oe hoe hlive hconsOld
      have heq0 : e.oid = e0.oid := heq.trans hid
      rw [heq0, hpo2] at hoe2
      injection hoe2 with h3
      rw [← h3] at hrem2
      have hfe : po2.remaining = min agg.remaining po2.remaining := by linarith
      have : min agg.remaining po2.remaining < po2.remaining := by linarith
      rw [← hfe] at this
      exact absurd this (lt_irrefl _)
    · rw [consumedAsk_single_ne (by rw [hsell]; exact fun hc => heq hc.symm)] at hcons
      rw [add_zero] at hcons
      obtain ⟨hmem2, oe2, hoe2, hrem2, hlive2, hsame2⟩ :=
        hrel.fwd e he oe hoe hlive hcons
      have hne0 : e.oid ≠ e0.oid := by rw [← hid]; exact heq
      have hao : e.oid ≠ aggId := hfr e he
      have herest : e ∈ rest := by
        rcases List.mem_cons.mp (hheap ▸ hmem2) with hc | hc
        · exact absurd (by rw [hc]) hne0
        · exact hc
      refine ⟨by rw [hb3h]; exact herest, oe2,
        by rw [hother e.oid hao hne0]; exact hoe2, ?_, hlive2, hsame2⟩
      rw [consumedAsk_append,
        consumedAsk_single_ne (by rw [hsell]; exact fun hc => heq hc.symm), add_zero]
      exact hrem2

/-- The ask-side fill loop satisfies per-step priority: relative to any
pre-call heap/arena in relation with the current state, the emitted trades
extend the prefix stepwise-minimally, and the relation carries to the
final state. -/
theorem fillAsksGo_steps (aggId : Nat) (hp : List HEntry) (m : Arena)
    (hTs : TsOK m) (hHS : HeapSound m hp Side.sell (fun x => x))
    (hfr : ∀ e ∈ hp, e.oid ≠ aggId) :
    ∀ (fuel : Nat) (b2 : Book) (tsPrev : List Trade) (bF : Book) (ts2 : List Trade),
      fillAsksGo fuel b2 aggId = (bF, ts2) →
      askRel hp m aggId tsPrev b2 →
      askSteps hp m tsPrev ts2 ∧ askRel hp m aggId (tsPrev ++ ts2) bF := by
  intro fuel
  induction fuel with
  | zero =>
    intro b2 tsPrev bF ts2 h hrel
    simp only [fillAsksGo] at h
    injection h with h1 h2
    subst h1
    subst h2
    exact ⟨trivial, by rw [List.append_nil]; exact hrel⟩
  | succ fuel ih =>
    intro b2 tsPrev bF ts2 h hrel
    simp only [fillAsksGo] at h
    cases hagg : olookup b2.orders aggId with
    | none =>
      rw [hagg] at h
      dsimp only at h
      injection h with h1 h2
      subst h1
      subst h2
      exact ⟨trivial, by rw [List.append_nil]; exact hrel⟩
    | some agg =>
      rw [hagg] at h
      dsimp only at h
      by_cases hrem : (0:ℚ) < agg.remaining
      case neg =>
        rw [if_neg hrem] at h
        injection h with h1 h2
        subst h1
        subst h2
        exact ⟨trivial, by rw [List.append_nil]; exact hrel⟩
      case pos =>
      rw [if_pos hrem] at h
      cases hheap : b2.askHeap with
      | nil =>
        rw [hheap] at h
        dsimp only at h
        injection h with h1 h2
        subst h1
        subst h2
        exact ⟨trivial, by rw [List.append_nil]; exact hrel⟩
      | cons e0 rest =>
        rw [hheap] at h
        dsimp only at h
        cases hpo : olookup b2.orders e0.oid with
        | none =>
          rw [hpo] at h
          dsimp only at h
          have hrel2 : askRel hp m aggId tsPrev { b2 with askHeap := rest } :=
            askRel_stalePop hrel hheap
              (fun hc => by
                obtain ⟨oe2, hoe2, -⟩ := hc
                rw [hpo] at hoe2
                cases hoe2) rfl rfl
          exact ih _ tsPrev bF ts2 h hrel2
        | some po2 =>
          rw [hpo] at h
          dsimp only at h
          by_cases hterm : isTerminal po2
          case pos =>
            rw [if_pos hterm] at h
            have hrel2 : askRel hp m aggId tsPrev { b2 with askHeap := rest } :=
              askRel_stalePop hrel hheap
                (fun hc => by
                  obtain ⟨oe2, hoe2, hl2⟩ := hc
                  rw [hpo] at hoe2
                  injection hoe2 with h3
                  rw [← h3] at hl2
                  exact (isTerminal_true_iff.mp hterm) hl2) rfl rfl
            exact ih _ tsPrev bF ts2 h hrel2
          case neg =>
            have hlp : liveSt po2 := isTerminal_false_iff.mp (Bool.not_eq_true _ ▸ hterm)
            have he0 : e0 ∈ b2.askHeap := hheap ▸ List.mem_cons_self e0 rest
            have hne_agg : e0.oid ≠ aggId := hfr e0 (hrel.sub he0)
            have hfqle : min agg.remaining po2.remaining ≤ po2.remaining :=
              min_le_right _ _
            have h1m : olookup (fillInArena b2.orders aggId
                (min agg.remaining po2.remaining)) e0.oid = some po2 := by
              rw [fillInArena_lookup_ne _ hne_agg]
              exact hpo
            have h2m : olookup (fillInArena (fillInArena b2.orders aggId
                (min agg.remaining po2.remaining)) e0.oid
                (min agg.remaining po2.remaining)) e0.oid
                = some (po2.fill (min agg.remaining po2.remaining)).1 :=
              fillInArena_lookup_self _ h1m
            rw [if_neg hterm] at h
            by_cases hbreak : agg.order_type = OrderType.limit ∧ limGt e0.key agg.price = true
            case pos =>
              rw [if_pos hbreak] at h
              injection h with h1 h2
              subst h1
              subst h2
              exact ⟨trivial, by rw [List.append_nil]; exact hrel⟩
            case neg =>
              rw [if_neg hbreak] at h
              by_cases hz : remOf (fillInArena (fillInArena b2.orders aggId
                  (min agg.remaining po2.remaining)) e0.oid
                  (min agg.remaining po2.remaining)) e0.oid = 0
              · rw [if_pos hz] at h
                have hzq : po2.remaining - min agg.remaining po2.remaining = 0 := by
                  simp only [remOf, h2m] at hz
                  rw [Order.fill_remaining, min_eq_left hfqle] at hz
                  exact hz
                cases hfr2 : fillAsksGo fuel
                    { b2 with
                      orders := fillInArena (fillInArena b2.orders aggId
                        (min agg.remaining po2.remaining)) e0.oid
                        (min agg.remaining po2.remaining),
                      askHeap := rest,
                      askLevels := purgeLevel (fillInArena (fillInArena b2.orders aggId
                        (min agg.remaining po2.remaining)) e0.oid
                        (min agg.remaining po2.remaining))
                        b2.askLevels e0.key } aggId with
                | mk bR tsR =>
                  rw [hfr2] at h
                  dsimp only at h
                  injection h with h1 h2
                  subst h1
                  subst h2
                  have hrel3 : askRel hp m aggId
                      (tsPrev ++
                        [{ buy_order_id := agg.id, sell_order_id := po2.id,
                           price := e0.key,
                           quantity := min agg.remaining po2.remaining }])
                      { b2 with
                        orders := fillInArena (fillInArena b2.orders aggId
                          (min agg.remaining po2.remaining)) e0.oid
                          (min agg.remaining po2.remaining),
                        askHeap := rest,
                        askLevels := purgeLevel (fillInArena (fillInArena b2.orders aggId
                          (min agg.remaining po2.remaining)) e0.oid
                          (min agg.remaining po2.remaining))
                          b2.askLevels e0.key } :=
                    askRel_fillPop hfr hrel hheap hagg hrem hpo hlp
                      rfl rfl hzq rfl rfl
                  obtain ⟨hsteps, hrelF⟩ := ih _ (tsPrev ++ [_]) bR tsR hfr2 hrel3
                  obtain ⟨hh1, hh2⟩ := askStep_head hTs hHS hrel hheap hpo
                  refine ⟨⟨⟨hh1, hh2⟩, hsteps⟩, ?_⟩
                  rw [List.append_assoc, List.singleton_append] at hrelF
                  exact hrelF
              · rw [if_neg hz] at h
                have hzq : po2.remaining - min agg.remaining po2.remaining ≠ 0 := by
                  intro hc
                  apply hz
                  simp only [remOf, h2m]
                  rw [Order.fill_remaining, min_eq_left hfqle]
                  exact hc
                cases hfr2 : fillAsksGo fuel
                    { b2 with
                      askHeap := e0 :: rest,
                      orders := fillInArena (fillInArena b2.orders aggId
                        (min agg.remaining po2.remaining)) e0.oid
                        (min agg.remaining po2.remaining) } aggId with
                | mk bR tsR =>
                  rw [hfr2] at h
                  dsimp only at h
                  injection h with h1 h2
                  subst h1
                  subst h2
                  have hrel3 : askRel hp m aggId
                      (tsPrev ++
                        [{ buy_order_id := agg.id, sell_order_id := po2.id,
                           price := e0.key,
                           quantity := min agg.remaining po2.remaining }])
                      { b2 with
                        askHeap := e0 :: rest,
                        orders := fillInArena (fillInArena b2.orders aggId
                          (min agg.remaining po2.remaining)) e0.oid
                          (min agg.remaining po2.remaining) } :=
                    askRel_fillKeep hfr hrel hheap hagg hrem hpo hlp
                      rfl rfl hzq rfl hheap.symm
                  obtain ⟨hsteps, hrelF⟩ := ih _ (tsPrev ++ [_]) bR tsR hfr2 hrel3
                  obtain ⟨hh1, hh2⟩ := askStep_head hTs hHS hrel hheap hpo
                  refine ⟨⟨⟨hh1, hh2⟩, hsteps⟩, ?_⟩
                  rw [List.append_assoc, List.singleton_append] at hrelF
                  exact hrelF

/-- The market-buy outer loop satisfies per-step priority and carries the
loop relation. -/
theorem marketAsksGo_steps (aggId : Nat) (hp : List HEntry) (m : Arena)
    (hTs : TsOK m) (hHS : HeapSound m hp Side.sell (fun x => x))
    (hfr : ∀ e ∈ hp, e.oid ≠ aggId) :
    ∀ (fuel : Nat) (b2 : Book) (tsPrev : List Trade) (bF : Book) (ts2 : List Trade),
      marketAsksGo fuel b2 aggId = (bF, ts2) →
      askRel hp m aggId tsPrev b2 →
      askSteps hp m tsPrev ts2 ∧ askRel hp m aggId (tsPrev ++ ts2) bF := by
  intro fuel
  induction fuel with
  | zero =>
    intro b2 tsPrev bF ts2 h hrel
    simp only [marketAsksGo] at h
    injection h with h1 h2
    subst h1
    subst h2
    exact ⟨trivial, by rw [List.append_nil]; exact hrel⟩
  | succ fuel ih =>
    intro b2 tsPrev bF ts2 h hrel
    simp only [marketAsksGo] at h
    cases hagg : olookup b2.orders aggId with
    | none =>
      rw [hagg] at h
      dsimp only at h
      injection h with h1 h2
      subst h1
      subst h2
      exact ⟨trivial, by rw [List.append_nil]; exact hrel⟩
    | some agg =>
      rw [hagg] at h
      dsimp only at h
      by_cases hcond : (decide ((0:ℚ) < agg.remaining) && !b2.askHeap.isEmpty) = true
      case neg =>
        rw [if_neg hcond] at h
        injection h with h1 h2
        subst h1
        subst h2
        exact ⟨trivial, by rw [List.append_nil]; exact hrel⟩
      case pos =>
      rw [if_pos hcond] at h
      cases hfill : fill_from_asks b2 aggId with
      | mk bR tsR =>
        rw [hfill] at h
        dsimp only at h
        have hfill2 : fillAsksGo (b2.askHeap.length + 2) b2 aggId = (bR, tsR) := by
          rw [← fill_from_asks]
          exact hfill
        obtain ⟨hsteps1, hrel1⟩ :=
          fillAsksGo_steps aggId hp m hTs hHS hfr _ b2 tsPrev bR tsR hfill2 hrel
        by_cases hemp : bR.askHeap.isEmpty = true
        case pos =>
          rw [if_pos hemp] at h
          injection h with h1 h2
          subst h1
          subst h2
          exact ⟨hsteps1, hrel1⟩
        case neg =>
          rw [if_neg hemp] at h
          cases hrec : marketAsksGo fuel bR aggId with
          | mk bS tsS =>
            rw [hrec] at h
            dsimp only at h
            injection h with h1 h2
            subst h1
            subst h2
            obtain ⟨hsteps2, hrel2⟩ := ih bR (tsPrev ++ tsR) bS tsS hrec hrel1
            refine ⟨askSteps_append hsteps1 hsteps2, ?_⟩
            rw [← List.append_assoc]
            exact hrel2

/-- The marketable limit-buy loop satisfies per-step priority. -/
theorem limitAsksGo_steps (aggId : Nat) (hp : List HEntry) (m : Arena)
    (hTs : TsOK m) (hHS : HeapSound m hp Side.sell (fun x => x))
    (hfr : ∀ e ∈ hp, e.oid ≠ aggId) :
    ∀ (fuel : Nat) (b2 : Book) (tsPrev : List Trade) (bF : Book) (ts2 : List Trade),
      limitAsksGo fuel b2 aggId = (bF, ts2) →
      askRel hp m aggId tsPrev b2 →
      askSteps hp m tsPrev ts2 ∧ askRel hp m aggId (tsPrev ++ ts2) bF := by
  intro fuel
  induction fuel with
  | zero =>
    intro b2 tsPrev bF ts2 h hrel
    simp only [limitAsksGo] at h
    injection h with h1 h2
    subst h1
    subst h2
    exact ⟨trivial, by rw [List.append_nil]; exact hrel⟩
  | succ fuel ih =>
    intro b2 tsPrev bF ts2 h hrel
    simp only [limitAsksGo] at h
    cases hagg : olookup b2.orders aggId with
    | none =>
      rw [hagg] at h
      dsimp only at h
      injection h with h1 h2
      subst h1
      subst h2
      exact ⟨trivial, by rw [List.append_nil]; exact hrel⟩
    | some agg =>
      rw [hagg] at h
      dsimp only at h
      by_cases hcond : (decide ((0:ℚ) < agg.remaining)
          && headLeLim b2.askHeap agg.price) = true
      case neg =>
        rw [if_neg hcond] at h
        injection h with h1 h2
        subst h1
        subst h2
        exact ⟨trivial, by rw [List.append_nil]; exact hrel⟩
      case pos =>
      rw [if_pos hcond] at h
      cases hfill : fill_from_asks b2 aggId with
      | mk bR tsR =>
        rw [hfill] at h
        dsimp only at h
        have hfill2 : fillAsksGo (b2.askHeap.length + 2) b2 aggId = (bR, tsR) := by
          rw [← fill_from_asks]
          exact hfill
        obtain ⟨hsteps1, hrel1⟩ :=
          fillAsksGo_steps aggId hp m hTs hHS hfr _ b2 tsPrev bR tsR hfill2 hrel
        cases hrec : limitAsksGo fuel bR aggId with
        | mk bS tsS =>
          rw [hrec] at h
          dsimp only at h
          injection h with h1 h2
          subst h1
          subst h2
          obtain ⟨hsteps2, hrel2⟩ := ih bR (tsPrev ++ tsR) bS tsS hrec hrel1
          refine ⟨askSteps_append hsteps1 hsteps2, ?_⟩
          rw [← List.append_assoc]
          exact hrel2

/-- The quantitative relation threaded through the bid-side fill loops:
`hp`/`m` are the pre-call bid heap and arena, `tsPrev` the trades emitted
so far, `b2` the current loop state.  The current heap is a sub-collection
of `hp`, keeps the book invariants of its side, references orders with
sound statuses and positive original quantity, the aggressor keeps a sound
status, lookups outside the aggressor and the pre-call heap are untouched,
and every pre-call resting order still live and not exhausted by `tsPrev`
is still on the heap, live, with exactly its original remaining minus what
`tsPrev` consumed of it. -/
structure bidRel (hp : List HEntry) (m : Arena) (aggId : Nat)
    (tsPrev : List Trade) (b2 : Book) : Prop where
  sub : b2.bidHeap ⊆ hp
  arena : ArenaInv b2.orders
  hsound : HeapSound b2.orders b2.bidHeap Side.buy (fun x => -x)
  sorted : b2.bidHeap.Pairwise keyLe
  hstat : ∀ e ∈ b2.bidHeap, ∀ oe2, olookup b2.orders e.oid = some oe2 →
    StatusInv oe2 ∧ 0 < oe2.quantity
  aggst : ∀ ag, olookup b2.orders aggId = some ag → StatusInv ag ∧ 0 < ag.quantity
  frame : ∀ oid, oid ≠ aggId → (∀ e ∈ hp, e.oid ≠ oid) →
    olookup b2.orders oid = olookup m oid
  fwd : ∀ e ∈ hp, ∀ oe, olookup m e.oid = some oe → liveSt oe →
    consumedBid tsPrev e.oid < oe.remaining →
    e ∈ b2.bidHeap ∧ ∃ oe2, olookup b2.orders e.oid = some oe2 ∧
      oe2.remaining = oe.remaining - consumedBid tsPrev e.oid ∧
      liveSt oe2 ∧ sameIdFields oe2 oe

/-- Emitting a trade against the heap head `e0`: the head's key-and-
timestamp strictly beats every pre-call entry still live at this step. -/
theorem bidStep_head {hp : List HEntry} {m : Arena} {aggId : Nat}
    {tsPrev : List Trade} {b2 : Book}
    (hTs : TsOK m) (hHS : HeapSound m hp Side.buy (fun x => -x))
    (hrel : bidRel hp m aggId tsPrev b2)
    {e0 : HEntry} {rest : List HEntry} (hheap : b2.bidHeap = e0 :: rest)
    {po2 : Order} (hpo2 : olookup b2.orders e0.oid = some po2) :
    (∃ e1 ∈ hp, e1.oid = po2.id) ∧
    ∃ po, olookup m po2.id = some po ∧
      ∀ e ∈ hp, ∀ oe, olookup m e.oid = some oe → liveSt oe →
        consumedBid tsPrev e.oid < oe.remaining →
        e.oid ≠ po2.id →
        (e0.key < e.key ∨ (e0.key = e.key ∧ po.timestamp < e.ts)) := by
  have he0 : e0 ∈ b2.bidHeap := hheap ▸ List.mem_cons_self e0 rest
  have he0hp : e0 ∈ hp := hrel.sub he0
  have hid : po2.id = e0.oid := (hrel.arena.2.1 (e0.oid, po2) (olookup_mem hpo2)).symm
  obtain ⟨po, hpol, hpp, hpts, -, -⟩ := hHS e0 he0hp
  refine ⟨⟨e0, he0hp, by rw [hid]⟩, po, by rw [hid]; exact hpol, ?_⟩
  intro e he oe hoe hlive hcons hne
  have hne0 : e.oid ≠ e0.oid := by rw [← hid]; exact hne
  obtain ⟨hmem2, -⟩ := hrel.fwd e he oe hoe hlive hcons
  have hees : e ∈ e0 :: rest := hheap ▸ hmem2
  have herest : e ∈ rest := by
    rcases List.mem_cons.mp hees with hc | hc
    · exact absurd (by rw [hc]) hne0
    · exact hc
  have hsort : (e0 :: rest).Pairwise keyLe := hheap ▸ hrel.sorted
  have hkeyle : keyLe e0 e := (List.pairwise_cons.mp hsort).1 e herest
  have hoeT : oe.timestamp = e.ts := by
    obtain ⟨oe', hoe', -, hts', -, -⟩ := hHS e he
    rw [hoe] at hoe'
    injection hoe' with h2
    rw [h2]
    exact hts'
  have hle : keyLe { key := e0.key, ts := po.timestamp, oid := e0.oid } e := by
    rw [hpts]
    exact hkeyle
  exact keyLe_strict hTs hpol hoe hoeT hne0 hle

/-- Popping a stale head preserves the loop relation. -/
theorem bidRel_stalePop {hp : List HEntry} {m : Arena} {aggId : Nat}
    {tsPrev : List Trade} {b2 b3 : Book}
    (hrel : bidRel hp m aggId tsPrev b2)
    {e0 : HEntry} {rest : List HEntry} (hheap : b2.bidHeap = e0 :: rest)
    (hstale : ¬ ∃ oe2, olookup b2.orders e0.oid = some oe2 ∧ liveSt oe2)
    (hb3o : b3.orders = b2.orders) (hb3h : b3.bidHeap = rest) :
    bidRel hp m aggId tsPrev b3 := by
  have hsubr : rest ⊆ hp := fun x hx => hrel.sub (hheap ▸ List.mem_cons_of_mem e0 hx)
  refine ⟨?_, ?_, ?_, ?_, ?_, ?_, ?_, ?_⟩
  · rw [hb3h]; exact hsubr
  · rw [hb3o]; exact hrel.arena
  · rw [hb3o, hb3h]
    exact fun e he => hrel.hsound e (hheap ▸ List.mem_cons_of_mem e0 he)
  · rw [hb3h]
    exact (List.pairwise_cons.mp (hheap ▸ hrel.sorted)).2
  · rw [hb3o, hb3h]
    exact fun e he => hrel.hstat e (hheap ▸ List.mem_cons_of_mem e0 he)
  · rw [hb3o]; exact hrel.aggst
  · rw [hb3o]; exact hrel.frame
  · intro e he oe hoe hlive hcons
    obtain ⟨hmem2, oe2, hoe2, hrem2, hlive2, hsame2⟩ := hrel.fwd e he oe hoe hlive hcons
    have hene0 : e ≠ e0 := by
      intro hc
      exact hstale ⟨oe2, by rw [← hc]; exact hoe2, hlive2⟩
    have herest : e ∈ rest := by
      rcases List.mem_cons.mp (hheap ▸ hmem2) with hc | hc
      · exact absurd hc hene0
      · exact hc
    exact ⟨hb3h ▸ herest, oe2, hb3o ▸ hoe2, hrem2, hlive2, hsame2⟩

/-- Filling the live head without exhausting it (heap unchanged) preserves
the loop relation, with the emitted trade appended to the prefix. -/
theorem bidRel_fillKeep {hp : List HEntry} {m : Arena} {aggId : Nat}
    {tsPrev : List Trade} {b2 b3 : Book}
    (hfr : ∀ e ∈ hp, e.oid ≠ aggId)
    (hrel : bidRel hp m aggId tsPrev b2)
    {e0 : HEntry} {rest : List HEntry} (hheap : b2.bidHeap = e0 :: rest)
    {agg : Order} (hagg : olookup b2.orders aggId = some agg)
    (hrem : 0 < agg.remaining)
    {po2 : Order} (hpo2 : olookup b2.orders e0.oid = some po2) (hlp : liveSt po2)
    {t : Trade} (hbuy : t.buy_order_id = po2.id)
    (hqty : t.quantity = min agg.remaining po2.remaining)
    (hnz : po2.remaining - min agg.remaining po2.remaining ≠ 0)
    (hb3o : b3.orders =
      fillInArena (fillInArena b2.orders aggId (min agg.remaining po2.remaining))
        e0.oid (min agg.remaining po2.remaining))
    (hb3h : b3.bidHeap = b2.bidHeap) :
    bidRel hp m aggId (tsPrev ++ [t]) b3 := by
  have he0 : e0 ∈ b2.bidHeap := hheap ▸ List.mem_cons_self e0 rest
  have he0hp : e0 ∈ hp := hrel.sub he0
  have hne_agg : e0.oid ≠ aggId := hfr e0 he0hp
  have hstatp := hrel.hstat e0 he0 po2 hpo2
  have hp2pos : 0 < po2.remaining := liveSt_rem_pos hstatp.1 hstatp.2 hlp
  have hfq : 0 < min agg.remaining po2.remaining := lt_min hrem hp2pos
  have hfqle : min agg.remaining po2.remaining ≤ po2.remaining := min_le_right _ _
  have hid : po2.id = e0.oid := (hrel.arena.2.1 (e0.oid, po2) (olookup_mem hpo2)).symm
  have h1 : olookup (fillInArena b2.orders aggId (min agg.remaining po2.remaining))
      e0.oid = some po2 := by
    rw [fillInArena_lookup_ne _ hne_agg]
    exact hpo2
  have h2 : olookup b3.orders e0.oid
      = some (po2.fill (min agg.remaining po2.remaining)).1 := by
    rw [hb3o]
    exact fillInArena_lookup_self _ h1
  have ha2 : olookup b3.orders aggId
      = some (agg.fill (min agg.remaining po2.remaining)).1 := by
    rw [hb3o, fillInArena_lookup_ne _ (Ne.symm hne_agg)]
    exact fillInArena_lookup_self _ hagg
  have hextm : arenaExt b2.orders b3.orders := by
    rw [hb3o]
    exact arenaExt_trans (arenaExt_fillInArena _ _ _) (arenaExt_fillInArena _ _ _)
  have hother : ∀ oid, oid ≠ aggId → oid ≠ e0.oid →
      olookup b3.orders oid = olookup b2.orders oid := by
    intro oid hne1 hne2
    rw [hb3o, fillInArena_lookup_ne _ hne2, fillInArena_lookup_ne _ hne1]
  refine ⟨?_, ?_, ?_, ?_, ?_, ?_, ?_, ?_⟩
  · rw [hb3h]; exact hrel.sub
  · rw [hb3o]
    exact ArenaInv_fillInArena (ArenaInv_fillInArena hrel.arena _ _) _ _
  · rw [hb3h]
    exact HeapSound_transfer hrel.hsound hextm (fun x hx => hx)
  · rw [hb3h]; exact hrel.sorted
  · intro e he oe2 hoe2
    rw [hb3h] at he
    by_cases heo : e.oid = e0.oid
    · rw [heo, h2] at hoe2
      injection hoe2 with h3
      rw [← h3]
      refine ⟨StatusInv.fill hstatp.1 hfq, ?_⟩
      rw [Order.fill_quantity]
      exact hstatp.2
    · have hao : e.oid ≠ aggId := hfr e (hrel.sub he)
      rw [hother e.oid hao heo] at hoe2
      exact hrel.hstat e he oe2 hoe2
  · intro ag hag2
    rw [ha2] at hag2
    injection hag2 with h3
    rw [← h3]
    refine ⟨StatusInv.fill (hrel.aggst agg hagg).1 hfq, ?_⟩
    rw [Order.fill_quantity]
    exact (hrel.aggst agg hagg).2
  · intro oid hne1 hne2
    rw [hother oid hne1 (fun hc => hne2 e0 he0hp hc.symm)]
    exact hrel.frame oid hne1 hne2
  · intro e he oe hoe hlive hcons
    rw [consumedBid_append] at hcons
    by_cases heq : e.oid = po2.id
    · rw [consumedBid_single_self (hbuy.trans heq.symm), hqty] at hcons
      have hconsOld : consumedBid tsPrev e.oid < oe.remaining := by linarith
      obtain ⟨hmem2, oe2, hoe2, hrem2, hlive2, hsame2⟩ :=
        hrel.fwd e he oe hoe hlive hconsOld
      have heq0 : e.oid = e0.oid := heq.trans hid
      rw [heq0, hpo2] at hoe2
      injection hoe2 with h3
      rw [← h3] at hrem2
      refine ⟨by rw [hb3h]; exact hmem2,
        (po2.fill (min agg.remaining po2.remaining)).1, by rw [heq0]; exact h2, ?_, ?_, ?_⟩
      · rw [consumedBid_append, consumedBid_single_self (hbuy.trans heq.symm), hqty,
          Order.fill_remaining, min_eq_left hfqle, hrem2]
        ring
      · apply liveSt_partFilled
        rw [Order.fill_status, min_eq_left hfqle, if_neg hnz]
      · rw [← h3] at hsame2
        exact sameIdFields_trans (sameIdFields_fill po2 _) hsame2
    · rw [consumedBid_single_ne (by rw [hbuy]; exact fun hc => heq hc.symm)] at hcons
      rw [add_zero] at hcons
      obtain ⟨hmem2, oe2, hoe2, hrem2, hlive2, hsame2⟩ :=
        hrel.fwd e he oe hoe hlive hcons
      have hne0 : e.oid ≠ e0.oid := by rw [← hid]; exact heq
      have hao : e.oid ≠ aggId := hfr e he
      refine ⟨by rw [hb3h]; exact hmem2, oe2, by rw [hother e.oid hao hne0]; exact hoe2,
        ?_, hlive2, hsame2⟩
      rw [consumedBid_append,
        consumedBid_single_ne (by rw [hbuy]; exact fun hc => heq hc.symm), add_zero]
      exact hrem2

/-- Filling the live head to exhaustion (head popped, level purged)
preserves the loop relation, with the emitted trade appended. -/
theorem bidRel_fillPop {hp : List HEntry} {m : Arena} {aggId : Nat}
    {tsPrev : List Trade} {b2 b3 : Book}
    (hfr : ∀ e ∈ hp, e.oid ≠ aggId)
    (hrel : bidRel hp m aggId tsPrev b2)
    {e0 : HEntry} {rest : List HEntry} (hheap : b2.bidHeap = e0 :: rest)
    {agg : Order} (hagg : olookup b2.orders aggId = some agg)
    (hrem : 0 < agg.remaining)
    {po2 : Order} (hpo2 : olookup b2.orders e0.oid = some po2) (hlp : liveSt po2)
    {t : Trade} (hbuy : t.buy_order_id = po2.id)
    (hqty : t.quantity = min agg.remaining po2.remaining)
    (hz : po2.remaining - min agg.remaining po2.remaining = 0)
    (hb3o : b3.orders =
      fillInArena (fillInArena b2.orders aggId (min agg.remaining po2.remaining))
        e0.oid (min agg.remaining po2.remaining))
    (hb3h : b3.bidHeap = rest) :
    bidRel hp m aggId (tsPrev ++ [t]) b3 := by
  have he0 : e0 ∈ b2.bidHeap := hheap ▸ List.mem_cons_self e0 rest
  have he0hp : e0 ∈ hp := hrel.sub he0
  have hne_agg : e0.oid ≠ aggId := hfr e0 he0hp
  have hstatp := hrel.hstat e0 he0 po2 hpo2
  have hp2pos : 0 < po2.remaining := liveSt_rem_pos hstatp.1 hstatp.2 hlp
  have hfq : 0 < min agg.remaining po2.remaining := lt_min hrem hp2pos
  have hid : po2.id = e0.oid := (hrel.arena.2.1 (e0.oid, po2) (olookup_mem hpo2)).symm
  have h1 : olookup (fillInArena b2.orders aggId (min agg.remaining po2.remaining))
      e0.oid = some po2 := by
    rw [fillInArena_lookup_ne _ hne_agg]
    exact hpo2
  have h2 : olookup b3.orders e0.oid
      = some (po2.fill (min agg.remaining po2.remaining)).1 := by
    rw [hb3o]
    exact fillInArena_lookup_self _ h1
  have ha2 : olookup b3.orders aggId
      = some (agg.fill (min agg.remaining po2.remaining)).1 := by
    rw [hb3o, fillInArena_lookup_ne _ (Ne.symm hne_agg)]
    exact fillInArena_lookup_self _ hagg
  have hextm : arenaExt b2.orders b3.orders := by
    rw [hb3o]
    exact arenaExt_trans (arenaExt_fillInArena _ _ _) (arenaExt_fillInArena _ _ _)
  have hother : ∀ oid, oid ≠ aggId → oid ≠ e0.oid →
      olookup b3.orders oid = olookup b2.orders oid := by
    intro oid hne1 hne2
    rw [hb3o, fillInArena_lookup_ne _ hne2, fillInArena_lookup_ne _ hne1]
  have hsubr : rest ⊆ hp := fun x hx => hrel.sub (hheap ▸ List.mem_cons_of_mem e0 hx)
  refine ⟨?_, ?_, ?_, ?_, ?_, ?_, ?_, ?_⟩
  · rw [hb3h]; exact hsubr
  · rw [hb3o]
    exact ArenaInv_fillInArena (ArenaInv_fillInArena hrel.arena _ _) _ _
  · rw [hb3h]
    exact HeapSound_transfer hrel.hsound hextm
      (fun x hx => hheap ▸ List.mem_cons_of_mem e0 hx)
  · rw [hb3h]
    exact (List.pairwise_cons.mp (hheap ▸ hrel.sorted)).2
  · intro e he oe2 hoe2
    rw [hb3h] at he
    by_cases heo : e.oid = e0.oid
    · rw [heo, h2] at hoe2
      injection hoe2 with h3
      rw [← h3]
      refine ⟨StatusInv.fill hstatp.1 hfq, ?_⟩
      rw [Order.fill_quantity]
      exact hstatp.2
    · have hao : e.oid ≠ aggId := hfr e (hsubr he)
      rw [hother e.oid hao heo] at hoe2
      exact hrel.hstat e (hheap ▸ List.mem_cons_of_mem e0 he) oe2 hoe2
  · intro ag hag2
    rw [ha2] at hag2
    injection hag2 with h3
    rw [← h3]
    refine ⟨StatusInv.fill (hrel.aggst agg hagg).1 hfq, ?_⟩
    rw [Order.fill_quantity]
    exact (hrel.aggst agg hagg).2
  · intro oid hne1 hne2
    rw [hother oid hne1 (fun hc => hne2 e0 he0hp hc.symm)]
    exact hrel.frame oid hne1 hne2
  · intro e he oe hoe hlive hcons
    rw [consumedBid_append] at hcons
    by_cases heq : e.oid = po2.id
    · rw [consumedBid_single_self (hbuy.trans heq.symm), hqty] at hcons
      have hconsOld : consumedBid tsPrev e.oid < oe.remaining := by linarith
      obtain ⟨hmem2, oe2, hoe2, hrem2, hlive2, hsame2⟩ :=
        hrel.fwd e he oe hoe hlive hconsOld
      have heq0 : e.oid = e0.oid := heq.trans hid
      rw [heq0, hpo2] at hoe2
      injection hoe2 with h3
      rw [← h3] at hrem2
      have hfe : po2.remaining = min agg.remaining po2.remaining := by linarith
      have : min agg.remaining po2.remaining < po2.remaining := by linarith
      rw [← hfe] at this
      exact absurd this (lt_irrefl _)
    · rw [consumedBid_single_ne (by rw [hbuy]; exact fun hc => heq hc.symm)] at hcons
      rw [add_zero] at hcons
      obtain ⟨hmem2, oe2, hoe2, hrem2, hlive2, hsame2⟩ :=
        hrel.fwd e he oe hoe hlive hcons
      have hne0 : e.oid ≠ e0.oid := by rw [← hid]; exact heq
      have hao : e.oid ≠ aggId := hfr e he
      have herest : e ∈ rest := by
        rcases List.mem_cons.mp (hheap ▸ hmem2) with hc | hc
        · exact absurd (by rw [hc]) hne0
        · exact hc
      refine ⟨by rw [hb3h]; exact herest, oe2,
        by rw [hother e.oid hao hne0]; exact hoe2, ?_, hlive2, hsame2⟩
      rw [consumedBid_append,
        consumedBid_single_ne (by rw [hbuy]; exact fun hc => heq hc.symm), add_zero]
      exact hrem2

/-- The ask-side fill loop satisfies per-step priority: relative to any
pre-call heap/arena in relation with the current state, the emitted trades
extend the prefix stepwise-minimally, and the relation carries to the
final state. -/
theorem fillBidsGo_steps (aggId : Nat) (hp : List HEntry) (m : Arena)
    (hTs : TsOK m) (hHS : HeapSound m hp Side.buy (fun x => -x))
    (hfr : ∀ e ∈ hp, e.oid ≠ aggId) :
    ∀ (fuel : Nat) (b2 : Book) (tsPrev : List Trade) (bF : Book) (ts2 : List Trade),
      fillBidsGo fuel b2 aggId = (bF, ts2) →
      bidRel hp m aggId tsPrev b2 →
      bidSteps hp m tsPrev ts2 ∧ bidRel hp m aggId (tsPrev ++ ts2) bF := by
  intro fuel
  induction fuel with
  | zero =>
    intro b2 tsPrev bF ts2 h hrel
    simp only [fillBidsGo] at h
    injection h with h1 h2
    subst h1
    subst h2
    exact ⟨trivial, by rw [List.append_nil]; exact hrel⟩
  | succ fuel ih =>
    intro b2 tsPrev bF ts2 h hrel
    simp only [fillBidsGo] at h
    cases hagg : olookup b2.orders aggId with
    | none =>
      rw [hagg] at h
      dsimp only at h
      injection h with h1 h2
      subst h1
      subst h2
      exact ⟨trivial, by rw [List.append_nil]; exact hrel⟩
    | some agg =>
      rw [hagg] at h
      dsimp only at h
      by_cases hrem : (0:ℚ) < agg.remaining
      case neg =>
        rw [if_neg hrem] at h
        injection h with h1 h2
        subst h1
        subst h2
        exact ⟨trivial, by rw [List.append_nil]; exact hrel⟩
      case pos =>
      rw [if_pos hrem] at h
      cases hheap : b2.bidHeap with
      | nil =>
        rw [hheap] at h
        dsimp only at h
        injection h with h1 h2
        subst h1
        subst h2
        exact ⟨trivial, by rw [List.append_nil]; exact hrel⟩
      | cons e0 rest =>
        rw [hheap] at h
        dsimp only at h
        cases hpo : olookup b2.orders e0.oid with
        | none =>
          rw [hpo] at h
          dsimp only at h
          have hrel2 : bidRel hp m aggId tsPrev { b2 with bidHeap := rest } :=
            bidRel_stalePop hrel hheap
              (fun hc => by
                obtain ⟨oe2, hoe2, -⟩ := hc
                rw [hpo] at hoe2
                cases hoe2) rfl rfl
          exact ih _ tsPrev bF ts2 h hrel2
        | some po2 =>
          rw [hpo] at h
          dsimp only at h
          by_cases hterm : isTerminal po2
          case pos =>
            rw [if_pos hterm] at h
            have hrel2 : bidRel hp m aggId tsPrev { b2 with bidHeap := rest } :=
              bidRel_stalePop hrel hheap
                (fun hc => by
                  obtain ⟨oe2, hoe2, hl2⟩ := hc
                  rw [hpo] at hoe2
                  injection hoe2 with h3
                  rw [← h3] at hl2
                  exact (isTerminal_true_iff.mp hterm) hl2) rfl rfl
            exact ih _ tsPrev bF ts2 h hrel2
          case neg =>
            have hlp : liveSt po2 := isTerminal_false_iff.mp (Bool.not_eq_true _ ▸ hterm)
            have he0 : e0 ∈ b2.bidHeap := hheap ▸ List.mem_cons_self e0 rest
            have hne_agg : e0.oid ≠ aggId := hfr e0 (hrel.sub he0)
            have hfqle : min agg.remaining po2.remaining ≤ po2.remaining :=
              min_le_right _ _
            have h1m : olookup (fillInArena b2.orders aggId
                (min agg.remaining po2.remaining)) e0.oid = some po2 := by
              rw [fillInArena_lookup_ne _ hne_agg]
              exact hpo
            have h2m : olookup (fillInArena (fillInArena b2.orders aggId
                (min agg.remaining po2.remaining)) e0.oid
                (min agg.remaining po2.remaining)) e0.oid
                = some (po2.fill (min agg.remaining po2.remaining)).1 :=
              fillInArena_lookup_self _ h1m
            rw [if_neg hterm] at h
            by_cases hbreak : agg.order_type = OrderType.limit ∧ limLt (-e0.key) agg.price = true
            case pos =>
              rw [if_pos hbreak] at h
              injection h with h1 h2
              subst h1
              subst h2
              exact ⟨trivial, by rw [List.append_nil]; exact hrel⟩
            case neg =>
              rw [if_neg hbreak] at h
              by_cases hz : remOf (fillInArena (fillInArena b2.orders aggId
                  (min agg.remaining po2.remaining)) e0.oid
                  (min agg.remaining po2.remaining)) e0.oid = 0
              · rw [if_pos hz] at h
                have hzq : po2.remaining - min agg.remaining po2.remaining = 0 := by
                  simp only [remOf, h2m] at hz
                  rw [Order.fill_remaining, min_eq_left hfqle] at hz
                  exact hz
                cases hfr2 : fillBidsGo fuel
                    { b2 with
                      orders := fillInArena (fillInArena b2.orders aggId
                        (min agg.remaining po2.remaining)) e0.oid
                        (min agg.remaining po2.remaining),
                      bidHeap := rest,
                      bidLevels := purgeLevel (fillInArena (fillInArena b2.orders aggId
                        (min agg.remaining po2.remaining)) e0.oid
                        (min agg.remaining po2.remaining))
                        b2.bidLevels (-e0.key) } aggId with
                | mk bR tsR =>
                  rw [hfr2] at h
                  dsimp only at h
                  injection h with h1 h2
                  subst h1
                  subst h2
                  have hrel3 : bidRel hp m aggId
                      (tsPrev ++
                        [{ buy_order_id := po2.id, sell_order_id := agg.id,
                           price := -e0.key,
                           quantity := min agg.remaining po2.remaining }])
                      { b2 with
                        orders := fillInArena (fillInArena b2.orders aggId
                          (min agg.remaining po2.remaining)) e0.oid
                          (min agg.remaining po2.remaining),
                        bidHeap := rest,
                        bidLevels := purgeLevel (fillInArena (fillInArena b2.orders aggId
                          (min agg.remaining po2.remaining)) e0.oid
                          (min agg.remaining po2.remaining))
                          b2.bidLevels (-e0.key) } :=
                    bidRel_fillPop hfr hrel hheap hagg hrem hpo hlp
                      rfl rfl hzq rfl rfl
                  obtain ⟨hsteps, hrelF⟩ := ih _ (tsPrev ++ [_]) bR tsR hfr2 hrel3
                  obtain ⟨hh1, po, hpo3, hmin⟩ := bidStep_head hTs hHS hrel hheap hpo
                  refine ⟨⟨⟨hh1, po, hpo3,
                    fun e he oe hoe hlive hcons hne => ?_⟩, hsteps⟩, ?_⟩
                  · show -(-e0.key) < e.key ∨ (-(-e0.key) = e.key ∧ po.timestamp < e.ts)
                    rw [neg_neg]
                    exact hmin e he oe hoe hlive hcons hne
                  · rw [List.append_assoc, List.singleton_append] at hrelF
                    exact hrelF
              · rw [if_neg hz] at h
                have hzq : po2.remaining - min agg.remaining po2.remaining ≠ 0 := by
                  intro hc
                  apply hz
                  simp only [remOf, h2m]
                  rw [Order.fill_remaining, min_eq_left hfqle]
                  exact hc
                cases hfr2 : fillBidsGo fuel
                    { b2 with
                      bidHeap := e0 :: rest,
                      orders := fillInArena (fillInArena b2.orders aggId
                        (min agg.remaining po2.remaining)) e0.oid
                        (min agg.remaining po2.remaining) } aggId with
                | mk bR tsR =>
                  rw [hfr2] at h
                  dsimp only at h
                  injection h with h1 h2
                  subst h1
                  subst h2
                  have hrel3 : bidRel hp m aggId
                      (tsPrev ++
                        [{ buy_order_id := po2.id, sell_order_id := agg.id,
                           price := -e0.key,
                           quantity := min agg.remaining po2.remaining }])
                      { b2 with
                        bidHeap := e0 :: rest,
                        orders := fillInArena (fillInArena b2.orders aggId
                          (min agg.remaining po2.remaining)) e0.oid
                          (min agg.remaining po2.remaining) } :=
                    bidRel_fillKeep hfr hrel hheap hagg hrem hpo hlp
                      rfl rfl hzq rfl hheap.symm
                  obtain ⟨hsteps, hrelF⟩ := ih _ (tsPrev ++ [_]) bR tsR hfr2 hrel3
                  obtain ⟨hh1, po, hpo3, hmin⟩ := bidStep_head hTs hHS hrel hheap hpo
                  refine ⟨⟨⟨hh1, po, hpo3,
                    fun e he oe hoe hlive hcons hne => ?_⟩, hsteps⟩, ?_⟩
                  · show -(-e0.key) < e.key ∨ (-(-e0.key) = e.key ∧ po.timestamp < e.ts)
                    rw [neg_neg]
                    exact hmin e he oe hoe hlive hcons hne
                  · rw [List.append_assoc, List.singleton_append] at hrelF
                    exact hrelF

/-- The market-buy outer loop satisfies per-step priority and carries the
loop relation. -/
theorem marketBidsGo_steps (aggId : Nat) (hp : List HEntry) (m : Arena)
    (hTs : TsOK m) (hHS : HeapSound m hp Side.buy (fun x => -x))
    (hfr : ∀ e ∈ hp, e.oid ≠ aggId) :
    ∀ (fuel : Nat) (b2 : Book) (tsPrev : List Trade) (bF : Book) (ts2 : List Trade),
      marketBidsGo fuel b2 aggId = (bF, ts2) →
      bidRel hp m aggId tsPrev b2 →
      bidSteps hp m tsPrev ts2 ∧ bidRel hp m aggId (tsPrev ++ ts2) bF := by
  intro fuel
  induction fuel with
  | zero =>
    intro b2 tsPrev bF ts2 h hrel
    simp only [marketBidsGo] at h
    injection h with h1 h2
    subst h1
    subst h2
    exact ⟨trivial, by rw [List.append_nil]; exact hrel⟩
  | succ fuel ih =>
    intro b2 tsPrev bF ts2 h hrel
    simp only [marketBidsGo] at h
    cases hagg : olookup b2.orders aggId with
    | none =>
      rw [hagg] at h
      dsimp only at h
      injection h with h1 h2
      subst h1
      subst h2
      exact ⟨trivial, by rw [List.append_nil]; exact hrel⟩
    | some agg =>
      rw [hagg] at h
      dsimp only at h
      by_cases hcond : (decide ((0:ℚ) < agg.remaining) && !b2.bidHeap.isEmpty) = true
      case neg =>
        rw [if_neg hcond] at h
        injection h with h1 h2
        subst h1
        subst h2
        exact ⟨trivial, by rw [List.append_nil]; exact hrel⟩
      case pos =>
      rw [if_pos hcond] at h
      cases hfill : fill_from_bids b2 aggId with
      | mk bR tsR =>
        rw [hfill] at h
        dsimp only at h
        have hfill2 : fillBidsGo (b2.bidHeap.length + 2) b2 aggId = (bR, tsR) := by
          rw [← fill_from_bids]
          exact hfill
        obtain ⟨hsteps1, hrel1⟩ :=
          fillBidsGo_steps aggId hp m hTs hHS hfr _ b2 tsPrev bR tsR hfill2 hrel
        by_cases hemp : bR.bidHeap.isEmpty = true
        case pos =>
          rw [if_pos hemp] at h
          injection h with h1 h2
          subst h1
          subst h2
          exact ⟨hsteps1, hrel1⟩
        case neg =>
          rw [if_neg hemp] at h
          cases hrec : marketBidsGo fuel bR aggId with
          | mk bS tsS =>
            rw [hrec] at h
            dsimp only at h
            injection h with h1 h2
            subst h1
            subst h2
            obtain ⟨hsteps2, hrel2⟩ := ih bR (tsPrev ++ tsR) bS tsS hrec hrel1
            refine ⟨bidSteps_append hsteps1 hsteps2, ?_⟩
            rw [← List.append_assoc]
            exact hrel2

/-- The marketable limit-buy loop satisfies per-step priority. -/
theorem limitBidsGo_steps (aggId : Nat) (hp : List HEntry) (m : Arena)
    (hTs : TsOK m) (hHS : HeapSound m hp Side.buy (fun x => -x))
    (hfr : ∀ e ∈ hp, e.oid ≠ aggId) :
    ∀ (fuel : Nat) (b2 : Book) (tsPrev : List Trade) (bF : Book) (ts2 : List Trade),
      limitBidsGo fuel b2 aggId = (bF, ts2) →
      bidRel hp m aggId tsPrev b2 →
      bidSteps hp m tsPrev ts2 ∧ bidRel hp m aggId (tsPrev ++ ts2) bF := by
  intro fuel
  induction fuel with
  | zero =>
    intro b2 tsPrev bF ts2 h hrel
    simp only [limitBidsGo] at h
    injection h with h1 h2
    subst h1
    subst h2
    exact ⟨trivial, by rw [List.append_nil]; exact hrel⟩
  | succ fuel ih =>
    intro b2 tsPrev bF ts2 h hrel
    simp only [limitBidsGo] at h
    cases hagg : olookup b2.orders aggId with
    | none =>
      rw [hagg] at h
      dsimp only at h
      injection h with h1 h2
      subst h1
      subst h2
      exact ⟨trivial, by rw [List.append_nil]; exact hrel⟩
    | some agg =>
      rw [hagg] at h
      dsimp only at h
      by_cases hcond : (decide ((0:ℚ) < agg.remaining)
          && headGeLim b2.bidHeap agg.price) = true
      case neg =>
        rw [if_neg hcond] at h
        injection h with h1 h2
        subst h1
        subst h2
        exact ⟨trivial, by rw [List.append_nil]; exact hrel⟩
      case pos =>
      rw [if_pos hcond] at h
      cases hfill : fill_from_bids b2 aggId with
      | mk bR tsR =>
        rw [hfill] at h
        dsimp only at h
        have hfill2 : fillBidsGo (b2.bidHeap.length + 2) b2 aggId = (bR, tsR) := by
          rw [← fill_from_bids]
          exact hfill
        obtain ⟨hsteps1, hrel1⟩ :=
          fillBidsGo_steps aggId hp m hTs hHS hfr _ b2 tsPrev bR tsR hfill2 hrel
        cases hrec : limitBidsGo fuel bR aggId with
        | mk bS tsS =>
          rw [hrec] at h
          dsimp only at h
          injection h with h1 h2
          subst h1
          subst h2
          obtain ⟨hsteps2, hrel2⟩ := ih bR (tsPrev ++ tsR) bS tsS hrec hrel1
          refine ⟨bidSteps_append hsteps1 hsteps2, ?_⟩
          rw [← List.append_assoc]
          exact hrel2

/-- Every heap-referenced order has a sound status (its status matches its
remaining quantity) and positive original quantity.  This holds of every
reachable book: the only orders the engine queues are well-formed limit
orders, and it only ever fills them with positive quantities. -/
def HeapStatus (m : Arena) (h : List HEntry) : Prop :=
  ∀ e ∈ h, ∀ oe, olookup m e.oid = some oe → StatusInv oe ∧ 0 < oe.quantity

theorem heap_oid_disjoint {b : Book} (hI : BookInv b) :
    ∀ e ∈ b.bidHeap, ∀ f ∈ b.askHeap, e.oid ≠ f.oid := by
  intro e he f hf hc
  obtain ⟨ob, hob, -, -, hsb, -⟩ := hI.bidS e he
  obtain ⟨oa, hoa, -, -, hsa, -⟩ := hI.askS f hf
  rw [hc, hoa] at hob
  injection hob with h2
  rw [h2] at hsa
  rw [hsb] at hsa
  cases hsa

theorem WfNew_statusInv {b : Book} {o : Order} (hw : WfNew b o) : StatusInv o := by
  refine ⟨by rw [hw.rem]; exact hw.qty.le, le_of_eq hw.rem, fun _ => hw.rem, ?_, ?_⟩
  · intro hc
    rw [hw.st] at hc
    cases hc
  · intro hc
    rw [hw.st] at hc
    cases hc

/-- Registering a fresh order leaves heap-referenced lookups unchanged. -/
theorem HeapStatus_register {b : Book} {o : Order} (hfresh : olookup b.orders o.id = none)
    {h : List HEntry} (hhs : ∀ e ∈ h, ∃ oe, olookup b.orders e.oid = some oe)
    (hst : HeapStatus b.orders h) :
    HeapStatus (oset b.orders o.id o) h := by
  intro e he oe hoe
  obtain ⟨oe1, hoe1⟩ := hhs e he
  have hne : e.oid ≠ o.id := fun hc => by rw [hc, hfresh] at hoe1; cases hoe1
  rw [olookup_oset_ne b.orders o.id e.oid o (fun hc => hne hc.symm)] at hoe
  exact hst e he oe hoe

/-- The loop relation at the start of a call. -/
theorem askRel_init {b0 : Book} {aggId : Nat} (hI : BookInv b0)
    (hstat : HeapStatus b0.orders b0.askHeap)
    (haggst : ∀ ag, olookup b0.orders aggId = some ag → StatusInv ag ∧ 0 < ag.quantity) :
    askRel b0.askHeap b0.orders aggId [] b0 := by
  refine ⟨fun x hx => hx, hI.arena, hI.askS, hI.askSorted, hstat, haggst,
    fun oid _ _ => rfl, ?_⟩
  intro e he oe hoe hlive _
  refine ⟨he, oe, hoe, ?_, hlive, sameIdFields_refl oe⟩
  rw [consumedAsk_nil, sub_zero]

theorem bidRel_init {b0 : Book} {aggId : Nat} (hI : BookInv b0)
    (hstat : HeapStatus b0.orders b0.bidHeap)
    (haggst : ∀ ag, olookup b0.orders aggId = some ag → StatusInv ag ∧ 0 < ag.quantity) :
    bidRel b0.bidHeap b0.orders aggId [] b0 := by
  refine ⟨fun x hx => hx, hI.arena, hI.bidS, hI.bidSorted, hstat, haggst,
    fun oid _ _ => rfl, ?_⟩
  intro e he oe hoe hlive _
  refine ⟨he, oe, hoe, ?_, hlive, sameIdFields_refl oe⟩
  rw [consumedBid_nil, sub_zero]

/-- The arena after `cancel_order` finds its target. -/
theorem cancel_order_orders (b : Book) (oid : Nat) {o : Order}
    (hlo : olookup b.orders oid = some o) :
    (cancel_order b oid).1.orders = oset b.orders oid o.cancel := by
  rw [cancel_order, hlo]
  dsimp only
  by_cases hs : o.side = Side.buy
  · rw [if_pos hs]
    cases hp : o.price with
    | none => rfl
    | some p =>
      dsimp only
      cases hl : llookup b.bidLevels p with
      | none => rfl
      | some lvl => rfl
  · rw [if_neg hs]
    cases hp : o.price with
    | none => rfl
    | some p =>
      dsimp only
      cases hl : llookup b.askLevels p with
      | none => rfl
      | some lvl => rfl

theorem HeapStatus_oset_agg {m : Arena} {h : List HEntry} {aggId : Nat} {v : Order}
    (hne : ∀ e ∈ h, e.oid ≠ aggId) (hst : HeapStatus m h) :
    HeapStatus (oset m aggId v) h := by
  intro e he oe hoe
  rw [olookup_oset_ne m aggId e.oid v (fun hc => hne e he hc.symm)] at hoe
  exact hst e he oe hoe

theorem HeapStatus_frame {m m2 : Arena} {h : List HEntry}
    (hag : ∀ e ∈ h, olookup m2 e.oid = olookup m e.oid) (hst : HeapStatus m h) :
    HeapStatus m2 h :=
  fun e he oe hoe => hst e he oe (by rw [← hag e he]; exact hoe)

theorem HeapStatus_sub {m : Arena} {h h2 : List HEntry}
    (hsub : h2 ⊆ h) (hst : HeapStatus m h) : HeapStatus m h2 :=
  fun e he oe hoe => hst e (hsub he) oe hoe

/-- Every reachable book references only status-sound, positive-quantity
orders from its heaps. -/
theorem Reachable_heapStatus {b : Book} (hr : Reachable b) :
    HeapStatus b.orders b.askHeap ∧ HeapStatus b.orders b.bidHeap := by
  induction hr with
  | empty =>
    exact ⟨fun e he => absurd he (List.not_mem_nil e),
      fun e he => absurd he (List.not_mem_nil e)⟩
  | @add b o hb hw ih =>
    have hI := Reachable_BookInv hb
    have hI0 := BookInv_register hI hw
    have hfreshA : ∀ e ∈ b.askHeap, e.oid ≠ o.id := by
      intro e he hc
      obtain ⟨oe, h1, -⟩ := hI.askS e he
      rw [hc, hw.fresh] at h1
      cases h1
    have hfreshB : ∀ e ∈ b.bidHeap, e.oid ≠ o.id := by
      intro e he hc
      obtain ⟨oe, h1, -⟩ := hI.bidS e he
      rw [hc, hw.fresh] at h1
      cases h1
    have hstat0A : HeapStatus (oset b.orders o.id o) b.askHeap := by
      refine HeapStatus_register hw.fresh ?_ ih.1
      intro e he
      obtain ⟨oe, h1, -⟩ := hI.askS e he
      exact ⟨oe, h1⟩
    have hstat0B : HeapStatus (oset b.orders o.id o) b.bidHeap := by
      refine HeapStatus_register hw.fresh ?_ ih.2
      intro e he
      obtain ⟨oe, h1, -⟩ := hI.bidS e he
      exact ⟨oe, h1⟩
    have hagg0 : olookup (oset b.orders o.id o) o.id = some o :=
      olookup_oset_self _ _ _
    have haggst0 : ∀ ag, olookup (oset b.orders o.id o) o.id = some ag →
        StatusInv ag ∧ 0 < ag.quantity := by
      intro ag hag
      rw [hagg0] at hag
      injection hag with h1
      rw [← h1]
      exact ⟨WfNew_statusInv hw, hw.qty⟩
    have hdis := heap_oid_disjoint hI0
    simp only [add_order]
    by_cases hot : o.order_type = OrderType.market
    · rw [if_pos hot]
      simp only [match_market_order]
      rw [hagg0]
      dsimp only
      by_cases hside : o.side = Side.buy
      · rw [if_pos hside]
        cases hm : marketAsksGo (b.askHeap.length + 2)
            { b with orders := oset b.orders o.id o } o.id with
        | mk bR tsR =>
          dsimp only
          obtain ⟨-, hrelF⟩ := marketAsksGo_steps o.id b.askHeap
            (oset b.orders o.id o) hI0.arena.2.2.2 hI0.askS hfreshA _
            { b with orders := oset b.orders o.id o } [] bR tsR hm
            (askRel_init hI0 hstat0A haggst0)
          obtain ⟨-, -, -, f4, -, -, -, -⟩ :=
            marketAsksGo_master (b.askHeap.length + 2) o.id
              { b with orders := oset b.orders o.id o } bR tsR hm
          have hbidR : HeapStatus bR.orders b.bidHeap := by
            refine HeapStatus_frame ?_ hstat0B
            intro e he
            exact hrelF.frame e.oid (hfreshB e he) (fun f hf => (hdis e he f hf).symm)
          cases hagg1 : olookup bR.orders o.id with
          | none =>
            dsimp only
            refine ⟨hrelF.hstat, ?_⟩
            rw [f4]
            exact hbidR
          | some agg1 =>
            dsimp only
            by_cases hq : (0:ℚ) < agg1.remaining
            · rw [if_pos hq]
              have hneA : ∀ e ∈ bR.askHeap, e.oid ≠ o.id :=
                fun e he => hfreshA e (hrelF.sub he)
              have hneB : ∀ e ∈ bR.bidHeap, e.oid ≠ o.id := by
                rw [f4]
                exact hfreshB
              refine ⟨HeapStatus_oset_agg hneA hrelF.hstat, ?_⟩
              rw [f4]
              exact HeapStatus_oset_agg (f4 ▸ hneB) hbidR
            · rw [if_neg hq]
              refine ⟨hrelF.hstat, ?_⟩
              rw [f4]
              exact hbidR
      · rw [if_neg hside]
        cases hm : marketBidsGo (b.bidHeap.length + 2)
            { b with orders := oset b.orders o.id o } o.id with
        | mk bR tsR =>
          dsimp only
          obtain ⟨-, hrelF⟩ := marketBidsGo_steps o.id b.bidHeap
            (oset b.orders o.id o) hI0.arena.2.2.2 hI0.bidS hfreshB _
            { b with orders := oset b.orders o.id o } [] bR tsR hm
            (bidRel_init hI0 hstat0B haggst0)
          obtain ⟨-, -, -, f4, -, -, -, -⟩ :=
            marketBidsGo_master (b.bidHeap.length + 2) o.id
              { b with orders := oset b.orders o.id o } bR tsR hm
          have haskR : HeapStatus bR.orders b.askHeap := by
            refine HeapStatus_frame ?_ hstat0A
            intro e he
            exact hrelF.frame e.oid (hfreshA e he) (fun f hf => hdis f hf e he)
          cases hagg1 : olookup bR.orders o.id with
          | none =>
            dsimp only
            refine ⟨?_, hrelF.hstat⟩
            rw [f4]
            exact haskR
          | some agg1 =>
            dsimp only
            by_cases hq : (0:ℚ) < agg1.remaining
            · rw [if_pos hq]
              have hneB : ∀ e ∈ bR.bidHeap, e.oid ≠ o.id :=
                fun e he => hfreshB e (hrelF.sub he)
              have hneA : ∀ e ∈ bR.askHeap, e.oid ≠ o.id := by
                rw [f4]
                exact hfreshA
              refine ⟨?_, HeapStatus_oset_agg hneB hrelF.hstat⟩
              rw [f4]
              exact HeapStatus_oset_agg (f4 ▸ hneA) haskR
            · rw [if_neg hq]
              refine ⟨?_, hrelF.hstat⟩
              rw [f4]
              exact haskR
    · rw [if_neg hot]
      simp only [match_limit_order]
      rw [hagg0]
      dsimp only
      by_cases hside : o.side = Side.buy
      · rw [if_pos hside]
        cases hm : limitAsksGo (b.askHeap.length + 2)
            { b with orders := oset b.orders o.id o } o.id with
        | mk bR tsR =>
          dsimp only
          obtain ⟨-, hrelF⟩ := limitAsksGo_steps o.id b.askHeap
            (oset b.orders o.id o) hI0.arena.2.2.2 hI0.askS hfreshA _
            { b with orders := oset b.orders o.id o } [] bR tsR hm
            (askRel_init hI0 hstat0A haggst0)
          obtain ⟨-, -, -, f4, -, -, -, -⟩ :=
            limitAsksGo_master (b.askHeap.length + 2) o.id
              { b with orders := oset b.orders o.id o } bR tsR hm
          have hbidR : HeapStatus bR.orders b.bidHeap := by
            refine HeapStatus_frame ?_ hstat0B
            intro e he
            exact hrelF.frame e.oid (hfreshB e he) (fun f hf => (hdis e he f hf).symm)
          cases hagg1 : olookup bR.orders o.id with
          | none =>
            dsimp only
            refine ⟨hrelF.hstat, ?_⟩
            rw [f4]
            exact hbidR
          | some agg1 =>
            dsimp only
            by_cases hq : 0 < agg1.remaining ∧ agg1.status ≠ OStatus.filled
            · rw [if_pos hq]
              simp only [add_to_bids]
              rw [hagg1]
              dsimp only
              cases hpr : agg1.price with
              | none =>
                dsimp only
                refine ⟨hrelF.hstat, ?_⟩
                rw [f4]
                exact hbidR
              | some p =>
                dsimp only
                refine ⟨hrelF.hstat, ?_⟩
                intro e he oe hoe
                rcases mem_insertEntry.mp he with hc | hc
                · have hido : agg1.id = o.id :=
                    (hrelF.arena.2.1 (o.id, agg1) (olookup_mem hagg1)).symm
                  rw [hc] at hoe
                  dsimp only at hoe
                  rw [hido, hagg1] at hoe
                  injection hoe with h1
                  rw [← h1]
                  exact hrelF.aggst agg1 hagg1
                · rw [f4] at hc
                  exact hbidR e hc oe hoe
            · rw [if_neg hq]
              refine ⟨hrelF.hstat, ?_⟩
              rw [f4]
              exact hbidR
      · rw [if_neg hside]
        cases hm : limitBidsGo (b.bidHeap.length + 2)
            { b with orders := oset b.orders o.id o } o.id with
        | mk bR tsR =>
          dsimp only
          obtain ⟨-, hrelF⟩ := limitBidsGo_steps o.id b.bidHeap
            (oset b.orders o.id o) hI0.arena.2.2.2 hI0.bidS hfreshB _
            { b with orders := oset b.orders o.id o } [] bR tsR hm
            (bidRel_init hI0 hstat0B haggst0)
          obtain ⟨-, -, -, f4, -, -, -, -⟩ :=
            limitBidsGo_master (b.bidHeap.length + 2) o.id
              { b with orders := oset b.orders o.id o } bR tsR hm
          have haskR : HeapStatus bR.orders b.askHeap := by
            refine HeapStatus_frame ?_ hstat0A
            intro e he
            exact hrelF.frame e.oid (hfreshA e he) (fun f hf => hdis f hf e he)
          cases hagg1 : olookup bR.orders o.id with
          | none =>
            dsimp only
            refine ⟨?_, hrelF.hstat⟩
            rw [f4]
            exact haskR
          | some agg1 =>
            dsimp only
            by_cases hq : 0 < agg1.remaining ∧ agg1.status ≠ OStatus.filled
            · rw [if_pos hq]
              simp only [add_to_asks]
              rw [hagg1]
              dsimp only
              cases hpr : agg1.price with
              | none =>
                dsimp only
                refine ⟨?_, hrelF.hstat⟩
                rw [f4]
                exact haskR
              | some p =>
                dsimp only
                refine ⟨?_, hrelF.hstat⟩
                intro e he oe hoe
                rcases mem_insertEntry.mp he with hc | hc
                · have hido : agg1.id = o.id :=
                    (hrelF.arena.2.1 (o.id, agg1) (olookup_mem hagg1)).symm
                  rw [hc] at hoe
                  dsimp only at hoe
                  rw [hido, hagg1] at hoe
                  injection hoe with h1
                  rw [← h1]
                  exact hrelF.aggst agg1 hagg1
                · rw [f4] at hc
                  exact haskR e hc oe hoe
            · rw [if_neg hq]
              refine ⟨?_, hrelF.hstat⟩
              rw [f4]
              exact haskR
  | @cancel b oid hb ih =>
    cases hlo : olookup b.orders oid with
    | none =>
      have hb2 : cancel_order b oid = (b, false) := by rw [cancel_order, hlo]
      rw [hb2]
      exact ih
    | some oc =>
      have horders := cancel_order_orders b oid hlo
      obtain ⟨-, -, -, f4, f5, -⟩ := cancel_order_master b oid
      rw [horders, f4, f5]
      constructor
      · intro e he oe hoe
        by_cases hc : e.oid = oid
        · rw [hc, olookup_oset_self] at hoe
          injection hoe with h1
          rw [← h1]
          have := ih.1 e he oc (by rw [hc]; exact hlo)
          exact ⟨StatusInv_cancel this.1, this.2⟩
        · rw [olookup_oset_ne b.orders oid e.oid oc.cancel (fun h2 => hc h2.symm)] at hoe
          exact ih.1 e he oe hoe
      · intro e he oe hoe
        by_cases hc : e.oid = oid
        · rw [hc, olookup_oset_self] at hoe
          injection hoe with h1
          rw [← h1]
          have := ih.2 e he oc (by rw [hc]; exact hlo)
          exact ⟨StatusInv_cancel this.1, this.2⟩
        · rw [olookup_oset_ne b.orders oid e.oid oc.cancel (fun h2 => hc h2.symm)] at hoe
          exact ih.2 e he oe hoe
  | @queryBid b hb ih =>
    simp only [best_bid]
    exact ⟨ih.1, HeapStatus_sub (bestAux_suffix b.orders b.bidHeap).subset ih.2⟩
  | @queryAsk b hb ih =>
    simp only [best_ask]
    exact ⟨HeapStatus_sub (bestAux_suffix b.orders b.askHeap).subset ih.1, ih.2⟩

/-- C4: per-step price-time priority.  For every reachable book and
well-formed submitted order, walking through the trades `add_order` emits
(`askSteps`/`bidSteps` accumulate the prefix of earlier trades): each
trade's passive order is a resting entry of the pre-call opposing heap and
strictly beats, in the lexicographic `(price, timestamp)` order of that
heap (bid entries store the negated price, so smaller key means better
price on both sides), every other resting entry whose order is live and
not yet exhausted by the trades before that step — precisely the orders
still live at that matching step.  So at every step the best-priced live
resting order is matched, with the earlier timestamp winning ties. -/
theorem price_time_priority (b : Book) (o : Order) (hr : Reachable b) (hw : WfNew b o) :
    (o.side = Side.buy → askSteps b.askHeap b.orders [] (add_order b o).2) ∧
    (o.side = Side.sell → bidSteps b.bidHeap b.orders [] (add_order b o).2) := by
  have hI := Reachable_BookInv hr
  have hI0 := BookInv_register hI hw
  have hhs := Reachable_heapStatus hr
  have hfreshA : ∀ e ∈ b.askHeap, e.oid ≠ o.id := by
    intro e he hc
    obtain ⟨oe, h1, -⟩ := hI.askS e he
    rw [hc, hw.fresh] at h1
    cases h1
  have hfreshB : ∀ e ∈ b.bidHeap, e.oid ≠ o.id := by
    intro e he hc
    obtain ⟨oe, h1, -⟩ := hI.bidS e he
    rw [hc, hw.fresh] at h1
    cases h1
  have hstat0A : HeapStatus (oset b.orders o.id o) b.askHeap := by
    refine HeapStatus_register hw.fresh ?_ hhs.1
    intro e he
    obtain ⟨oe, h1, -⟩ := hI.askS e he
    exact ⟨oe, h1⟩
  have hstat0B : HeapStatus (oset b.orders o.id o) b.bidHeap := by
    refine HeapStatus_register hw.fresh ?_ hhs.2
    intro e he
    obtain ⟨oe, h1, -⟩ := hI.bidS e he
    exact ⟨oe, h1⟩
  have hagg0 : olookup (oset b.orders o.id o) o.id = some o :=
    olookup_oset_self _ _ _
  have haggst0 : ∀ ag, olookup (oset b.orders o.id o) o.id = some ag →
      StatusInv ag ∧ 0 < ag.quantity := by
    intro ag hag
    rw [hagg0] at hag
    injection hag with h1
    rw [← h1]
    exact ⟨WfNew_statusInv hw, hw.qty⟩
  have htransA : ∀ oid, (∃ e ∈ b.askHeap, e.oid = oid) →
      olookup (oset b.orders o.id o) oid = olookup b.orders oid := by
    intro oid hex
    obtain ⟨e, he, heid⟩ := hex
    exact olookup_oset_ne b.orders o.id oid o
      (fun hc => hfreshA e he (heid.trans hc.symm))
  have htransB : ∀ oid, (∃ e ∈ b.bidHeap, e.oid = oid) →
      olookup (oset b.orders o.id o) oid = olookup b.orders oid := by
    intro oid hex
    obtain ⟨e, he, heid⟩ := hex
    exact olookup_oset_ne b.orders o.id oid o
      (fun hc => hfreshB e he (heid.trans hc.symm))
  constructor
  · intro hside
    show askSteps b.askHeap b.orders []
      ((if o.order_type = OrderType.market
        then match_market_order { b with orders := oset b.orders o.id o } o.id
        else match_limit_order { b with orders := oset b.orders o.id o } o.id)).2
    by_cases hot : o.order_type = OrderType.market
    · rw [if_pos hot]
      simp only [match_market_order]
      rw [hagg0]
      dsimp only
      rw [if_pos hside]
      cases hm : marketAsksGo (b.askHeap.length + 2)
          { b with orders := oset b.orders o.id o } o.id with
      | mk bR tsR =>
        dsimp only
        obtain ⟨hsteps, -⟩ := marketAsksGo_steps o.id b.askHeap
          (oset b.orders o.id o) hI0.arena.2.2.2 hI0.askS hfreshA _
          { b with orders := oset b.orders o.id o } [] bR tsR hm
          (askRel_init hI0 hstat0A haggst0)
        exact askSteps_transfer htransA hsteps
    · rw [if_neg hot]
      simp only [match_limit_order]
      rw [hagg0]
      dsimp only
      rw [if_pos hside]
      cases hm : limitAsksGo (b.askHeap.length + 2)
          { b with orders := oset b.orders o.id o } o.id with
      | mk bR tsR =>
        dsimp only
        obtain ⟨hsteps, -⟩ := limitAsksGo_steps o.id b.askHeap
          (oset b.orders o.id o) hI0.arena.2.2.2 hI0.askS hfreshA _
          { b with orders := oset b.orders o.id o } [] bR tsR hm
          (askRel_init hI0 hstat0A haggst0)
        exact askSteps_transfer htransA hsteps
  · intro hside
    show bidSteps b.bidHeap b.orders []
      ((if o.order_type = OrderType.market
        then match_market_order { b with orders := oset b.orders o.id o } o.id
        else match_limit_order { b with orders := oset b.orders o.id o } o.id)).2
    have hnb : ¬ o.side = Side.buy := by
      rw [hside]
      intro hc
      cases hc
    by_cases hot : o.order_type = OrderType.market
    · rw [if_pos hot]
      simp only [match_market_order]
      rw [hagg0]
      dsimp only
      rw [if_neg hnb]
      cases hm : marketBidsGo (b.bidHeap.length + 2)
          { b with orders := oset b.orders o.id o } o.id with
      | mk bR tsR =>
        dsimp only
        obtain ⟨hsteps, -⟩ := marketBidsGo_steps o.id b.bidHeap
          (oset b.orders o.id o) hI0.arena.2.2.2 hI0.bidS hfreshB _
          { b with orders := oset b.orders o.id o } [] bR tsR hm
          (bidRel_init hI0 hstat0B haggst0)
        exact bidSteps_transfer htransB hsteps
    · rw [if_neg hot]
      simp only [match_limit_order]
      rw [hagg0]
      dsimp only
      rw [if_neg hnb]
      cases hm : limitBidsGo (b.bidHeap.length + 2)
          { b with orders := oset b.orders o.id o } o.id with
      | mk bR tsR =>
        dsimp only
        obtain ⟨hsteps, -⟩ := limitBidsGo_steps o.id b.bidHeap
          (oset b.orders o.id o) hI0.arena.2.2.2 hI0.bidS hfreshB _
          { b with orders := oset b.orders o.id o } [] bR tsR hm
          (bidRel_init hI0 hstat0B haggst0)
        exact bidSteps_transfer htransB hsteps

/-- Witness for C4: the crossing limit buy against the one-ask book walks
its single matching step with per-step priority. -/
theorem price_time_priority_witness :
    oCross.side = Side.buy ∧
    askSteps bookAsk1.askHeap bookAsk1.orders [] (add_order bookAsk1 oCross).2 :=
  ⟨rfl, (price_time_priority bookAsk1 oCross reachable_bookAsk1 wf_oCross).1 rfl⟩

-- END

